import Mathlib

/-!
# fakemachine `cpio/writerhelper.go`: a shallow embedding and its properties

The archive builder (`WriterHelper`) keeps a set of directory paths it has
already written (`paths`) and hands header records and payloads to an external
cpio encoder.  Go strings that hold paths are modelled as lists of characters;
the Go standard-library path functions the builder calls (`path.Clean`,
`path.Join`, `path.Dir`, `strings.Split`) are modelled on those lists.
-/

namespace Cpio


/-! ## Go strings and the standard-library path functions -/

/-- Go `string` holding text: the list of its characters. -/
abbrev GoString := List Char

/-- Go `[]byte`. -/
abbrev Bytes := List UInt8

/-- Go `[]byte(s)`: the UTF-8 bytes of a string. -/
def toBytes (s : GoString) : Bytes :=
  (s.map String.utf8EncodeChar).flatten

/-- Go `strings.Split(s, "/")`: the maximal slash-free pieces of `s`, in order
(`""` splits to one empty piece). -/
def Split : GoString → List GoString
  | [] => [[]]
  | c :: cs =>
    if c = '/' then [] :: Split cs
    else
      match Split cs with
      | [] => [[c]]
      | h :: t => (c :: h) :: t

/-- Go `strings.Join(elems, "/")`. -/
def joinSlash : List GoString → GoString
  | [] => []
  | [c] => c
  | c :: d :: cs => c ++ '/' :: joinSlash (d :: cs)

/-- One path element processed by `path.Clean`: empty and `.` elements are
dropped, `..` removes the preceding real element when there is one and is kept
only in front of an unrooted path, any other element is appended. -/
def cleanStep (rooted : Bool) (stack : List GoString) (c : GoString) : List GoString :=
  if c = [] then stack
  else if c = ['.'] then stack
  else if c = ['.', '.'] then
    let canBacktrack :=
      match stack.getLast? with
      | none => false
      | some top => rooted || decide (top ≠ ['.', '.'])
    if canBacktrack then stack.dropLast
    else if rooted then stack
    else stack ++ [c]
  else stack ++ [c]

/-- Go `path.Clean`: the shortest path equivalent to `path` by lexical
processing; the empty result is `"."`. -/
def Clean (path : GoString) : GoString :=
  if path = [] then ['.']
  else
    let rooted := decide (path.head? = some '/')
    let body := joinSlash ((Split path).foldl (cleanStep rooted) [])
    if rooted then '/' :: body
    else if body = [] then ['.']
    else body

/-- Go `path.Join(a, b)` for two elements: empty elements are ignored, the
rest is joined with a slash and cleaned; all empty gives `""`. -/
def Join (a b : GoString) : GoString :=
  if a = [] then (if b = [] then [] else Clean b)
  else Clean (a ++ '/' :: b)

/-- Go `path.Split(path)` first result: `path` up to and including its last
slash. -/
def dirPart (path : GoString) : GoString :=
  (path.reverse.dropWhile (fun c => c != '/')).reverse

/-- Go `path.Dir`: all but the last element of `path`, cleaned. -/
def Dir (path : GoString) : GoString :=
  Clean (dirPart path)

/-! ## The cpio encoder and the file modes (external collaborators) -/

/-- The `cpio.TYPE_*` entry types the builder writes. -/
inductive EntryType where
  | TYPE_DIR
  | TYPE_REG
  | TYPE_SYMLINK
  | TYPE_CHAR
deriving DecidableEq, Repr

/-- The fields of `cpio.Header` the builder sets (`Typ` is its `Type`); `new(cpio.Header)` leaves
every numeric field zero. -/
structure Header where
  Typ : EntryType
  Name : GoString
  Mode : Nat
  Size : Nat
  Devmajor : Int
  Devminor : Int
deriving DecidableEq, Repr

/-- What reaches the archive: a header record or a run of payload bytes. -/
inductive Record where
  | header (h : Header)
  | data (b : Bytes)
deriving DecidableEq, Repr

/-- The `cpio.Writer` over the sink handed to `NewWriterHelper`: `out` is what
the sink has accepted so far, `faults` scripts the sink's answers to the
coming write calls (`true`: the call is rejected with an error and nothing is
written; past the end of the script every call is accepted).  The encoder's
own byte layout and bookkeeping (padding, trimming a payload to the declared
size) are outside the builder and not modelled. -/
structure Writer where
  out : List Record
  faults : List Bool
deriving DecidableEq, Repr

/-- One write call on the sink: the writer afterwards, and whether the call
returned an error. -/
def Writer.put (w : Writer) (r : Record) : Writer × Bool :=
  match w.faults with
  | [] => ({ out := w.out ++ [r], faults := [] }, false)
  | true :: rest => ({ out := w.out, faults := rest }, true)
  | false :: rest => ({ out := w.out ++ [r], faults := rest }, false)

/-- Go `cpio.NewWriter(f)`. -/
def NewWriter (f : List Bool) : Writer :=
  { out := [], faults := f }

/-- Go `os.ModeDir`. -/
def ModeDir : Nat := 2 ^ 31
/-- Go `os.ModeSymlink`. -/
def ModeSymlink : Nat := 2 ^ 27
/-- Go `os.ModeDevice`. -/
def ModeDevice : Nat := 2 ^ 26
/-- Go `os.ModeNamedPipe`. -/
def ModeNamedPipe : Nat := 2 ^ 25
/-- Go `os.ModeSocket`. -/
def ModeSocket : Nat := 2 ^ 24
/-- Go `os.ModeCharDevice`. -/
def ModeCharDevice : Nat := 2 ^ 21
/-- Go `os.ModeIrregular`. -/
def ModeIrregular : Nat := 2 ^ 19

/-- Go `os.ModeType`: the mask of the type bits of a `FileMode`. -/
def ModeType : Nat :=
  ModeDir ||| ModeSymlink ||| ModeNamedPipe ||| ModeSocket ||| ModeDevice |||
    ModeCharDevice ||| ModeIrregular

/-- Go `FileMode.IsDir`. -/
def IsDir (m : Nat) : Bool := (m &&& ModeDir) != 0

/-- Go `FileMode.IsRegular`. -/
def IsRegular (m : Nat) : Bool := (m &&& ModeType) == 0

/-- Go `FileMode.Type`. -/
def modeType (m : Nat) : Nat := m &&& ModeType

/-- Go `m & ^os.ModeType` on the 32-bit `FileMode`. -/
def clearType (m : Nat) : Nat := m &&& (ModeType ^^^ (2 ^ 32 - 1))

/-! ## The builder -/

/-- The Go `WriterHelper`: `paths` lists the keys of the `map[string]bool`
(every key maps to `true`), `Writer` is the embedded `*cpio.Writer`. -/
structure WriterHelper where
  paths : List GoString
  Writer : Writer
deriving DecidableEq, Repr

/-- A `Transformer` applied to the bytes of its source: the bytes it wrote to
`dst`, and whether it returned an error. -/
abbrev Transformer := Bytes → Bytes × Bool

/-- A `Filter`. -/
abbrev Filter := GoString → Bool

/-- Go `NewWriterHelper(f)`. -/
def NewWriterHelper (f : List Bool) : WriterHelper :=
  { paths := [['/']], Writer := NewWriter f }

/-- Go `w.WriteHeader(hdr)` with the result dropped, as every caller in the
builder does. -/
def WriterHelper.WriteHeader (w : WriterHelper) (hdr : Header) : WriterHelper :=
  { w with Writer := (w.Writer.put (Record.header hdr)).1 }

/-- Go `w.Write(b)` with the result dropped. -/
def WriterHelper.Write (w : WriterHelper) (b : Bytes) : WriterHelper :=
  { w with Writer := (w.Writer.put (Record.data b)).1 }

/-- Go `io.Copy(w, out)` from a `*bytes.Buffer` holding `b`, with the result
dropped: the buffer writes itself in one call (`Buffer.WriteTo`), and makes no
call when it is empty. -/
def WriterHelper.ioCopy (w : WriterHelper) (b : Bytes) : WriterHelper :=
  if b = [] then w else w.Write b

/-- The pieces `io.Copy` reads from a file holding `b`: its buffer takes
32 KiB at a time, the last piece is what is left, an empty file gives none
(`fuel` bounds the number of pieces). -/
def copyChunks : Nat → Bytes → List Bytes
  | 0, _ => []
  | fuel + 1, b => if b = [] then [] else b.take 32768 :: copyChunks fuel (b.drop 32768)

/-- The pieces `io.Copy` reads from a file holding `b`. -/
def fileChunks (b : Bytes) : List Bytes :=
  copyChunks b.length b

/-- The loop of `io.Copy`: one write call per piece, ended by the first write
the sink rejects. -/
def WriterHelper.writeChunks : WriterHelper → List Bytes → WriterHelper
  | w, [] => w
  | w, c :: cs =>
    if (w.Writer.put (Record.data c)).2 then w.Write c
    else (w.Write c).writeChunks cs

/-- Go `io.Copy(w, f)` from an opened file holding `b`, with the result dropped. -/
def WriterHelper.ioCopyFile (w : WriterHelper) (b : Bytes) : WriterHelper :=
  w.writeChunks (fileChunks b)

/-- The output accepted so far. -/
def WriterHelper.out (w : WriterHelper) : List Record := w.Writer.out

/-- The body of `WriteDirectory` over a given `ensureBaseDirectory`. -/
def WriteDirectoryWith (ensure : WriterHelper → GoString → Option WriterHelper)
    (w : WriterHelper) (directory : GoString) (perm : Nat) : Option WriterHelper :=
  match ensure w (Dir directory) with
  | none => none
  | some w1 =>
    let hdr : Header :=
      { Typ := EntryType.TYPE_DIR, Name := directory, Mode := perm, Size := 0,
        Devmajor := 0, Devminor := 0 }
    let w2 := w1.WriteHeader hdr
    some { w2 with paths := directory :: w2.paths }

/-- The `for _, c := range components` loop of `ensureBaseDirectory`, over a
given `WriteDirectory`. -/
def ensureLoop (writeDir : WriterHelper → GoString → Nat → Option WriterHelper) :
    List GoString → GoString → WriterHelper → Option WriterHelper
  | [], _, w => some w
  | c :: cs, collector, w =>
    let collector1 := Join collector c
    if collector1 ∈ w.paths then ensureLoop writeDir cs collector1 w
    else
      match writeDir w collector1 0o755 with
      | none => none
      | some w1 => ensureLoop writeDir cs collector1 w1

/-- Go `ensureBaseDirectory`, with the depth of its mutual recursion with
`WriteDirectory` bounded by `fuel`; `none` when the bound is reached. -/
def ensureBaseDirectoryF : Nat → WriterHelper → GoString → Option WriterHelper
  | 0, _, _ => none
  | fuel + 1, w, directory =>
    let d := Clean directory
    if d ∈ w.paths then some w
    else
      ensureLoop (WriteDirectoryWith (ensureBaseDirectoryF fuel)) (Split directory) ['/'] w

/-- The recursion depth given to a call on `directory`.  In every state in
which `/` is known and the parent of each known normalized absolute path is
known (every state reached from `NewWriterHelper`), any depth from 2 on gives
the same result (`ensureBaseDirectoryF_closed`). -/
def fuelFor (directory : GoString) : Nat := directory.length + 3

/-- Go `ensureBaseDirectory`.  The result is `none` when the recursion does not
end within the bound; the operations below hand that on. -/
def ensureBaseDirectory (w : WriterHelper) (directory : GoString) : Option WriterHelper :=
  ensureBaseDirectoryF (fuelFor directory) w directory

/-- Go `WriteDirectory`. -/
def WriteDirectory (w : WriterHelper) (directory : GoString) (perm : Nat) :
    Option WriterHelper :=
  WriteDirectoryWith ensureBaseDirectory w directory perm

/-- Go `WriteFileRaw`. -/
def WriteFileRaw (w : WriterHelper) (file : GoString) (bytes : Bytes) (perm : Nat) :
    Option WriterHelper :=
  match ensureBaseDirectory w (Dir file) with
  | none => none
  | some w1 =>
    let hdr : Header :=
      { Typ := EntryType.TYPE_REG, Name := file, Mode := perm, Size := bytes.length,
        Devmajor := 0, Devminor := 0 }
    some ((w1.WriteHeader hdr).Write bytes)

/-- Go `WriteFile`. -/
def WriteFile (w : WriterHelper) (file content : GoString) (perm : Nat) :
    Option WriterHelper :=
  WriteFileRaw w file (toBytes content) perm

/-- Go `WriteSymlink`. -/
def WriteSymlink (w : WriterHelper) (target link : GoString) (perm : Nat) :
    Option WriterHelper :=
  match ensureBaseDirectory w (Dir link) with
  | none => none
  | some w1 =>
    let content := toBytes target
    let hdr : Header :=
      { Typ := EntryType.TYPE_SYMLINK, Name := link, Mode := perm, Size := content.length,
        Devmajor := 0, Devminor := 0 }
    some ((w1.WriteHeader hdr).Write content)

/-- Go `WriteCharDevice`. -/
def WriteCharDevice (w : WriterHelper) (device : GoString) (major minor : Int) (perm : Nat) :
    Option WriterHelper :=
  match ensureBaseDirectory w (Dir device) with
  | none => none
  | some w1 =>
    let hdr : Header :=
      { Typ := EntryType.TYPE_CHAR, Name := device, Mode := perm, Size := 0,
        Devmajor := major, Devminor := minor }
    some (w1.WriteHeader hdr)

/-- Go `All`. -/
def All (_path : GoString) : Bool := true

/-- Go `Exclude`. -/
def Exclude (path : GoString) : Filter :=
  fun p => p != path


/-! ## The file system (external collaborator) -/

/-- Go `os.FileInfo`, as far as the builder reads it. -/
structure FileInfo where
  Mode : Nat
  Size : Nat
deriving DecidableEq, Repr

/-- An opened `*os.File`: what `f.Stat()` answers (`none`: an error) and the
bytes reading it yields. -/
structure File where
  stat : Option FileInfo
  content : Bytes
deriving DecidableEq, Repr

/-- How a call that can panic ended: it returned (`err`: with a non-nil
error) or it panicked. -/
inductive Outcome where
  | returned (err : Bool)
  | panicked
deriving DecidableEq, Repr

/-- Go `CopyFileTo(src, dst)`; `opened` is what `os.Open(src)` yields (`none`:
an error, on which the code panics). -/
def CopyFileTo (w : WriterHelper) (opened : Option File) (dst : GoString) :
    Option (WriterHelper × Outcome) :=
  match ensureBaseDirectory w (Dir dst) with
  | none => none
  | some w1 =>
    match opened with
    | none => some (w1, Outcome.panicked)
    | some f =>
      match f.stat with
      | none => some (w1, Outcome.returned true)
      | some info =>
        let hdr : Header :=
          { Typ := EntryType.TYPE_REG, Name := dst, Mode := clearType info.Mode,
            Size := info.Size, Devmajor := 0, Devminor := 0 }
        some ((w1.WriteHeader hdr).ioCopyFile f.content, Outcome.returned false)

/-- Go `TransformFileTo(src, dst, fn)`; `opened` is what `os.Open(src)` yields. -/
def TransformFileTo (w : WriterHelper) (opened : Option File) (dst : GoString)
    (fn : Transformer) : Option (WriterHelper × Outcome) :=
  match ensureBaseDirectory w (Dir dst) with
  | none => none
  | some w1 =>
    match opened with
    | none => some (w1, Outcome.panicked)
    | some f =>
      match f.stat with
      | none => some (w1, Outcome.returned true)
      | some info =>
        let out := (fn f.content).1
        let hdr : Header :=
          { Typ := EntryType.TYPE_REG, Name := dst, Mode := clearType info.Mode,
            Size := out.length, Devmajor := 0, Devminor := 0 }
        some ((w1.WriteHeader hdr).ioCopy out, Outcome.returned false)

/-- Go `CopyFile(in)`; `opened` is what `os.Open(in)` yields. -/
def CopyFile (w : WriterHelper) (opened : Option File) (file : GoString) :
    Option (WriterHelper × Outcome) :=
  CopyFileTo w opened file

/-- Go `NullDecompressor`: `io.Copy(dst, src)`. -/
def NullDecompressor : Transformer :=
  fun src => (src, false)

/-- What the file system answers about one node met by `filepath.Walk`: the
mode `Lstat` reports, what `os.Open` of the node yields, and what
`os.Readlink` of it returns (the empty string on an error). -/
structure NodeInfo where
  Mode : Nat
  opened : Option File
  link : GoString
deriving DecidableEq, Repr

/-- A directory listing in the order `filepath.Walk` reads it: the first
entry (its name, its node, the listing beneath it) and the remaining entries.
The listing beneath a node is read only when the node is a directory. -/
inductive Forest where
  | nil
  | cons (name : GoString) (info : NodeInfo) (kids : Forest) (rest : Forest)
deriving DecidableEq, Repr

/-- What the `walker` closure of `CopyTreeWithFilter` hands back to
`filepath.Walk`: `nil`, `filepath.SkipDir`, or a panic. -/
inductive Signal where
  | ok
  | SkipDir
  | panicked
deriving DecidableEq, Repr

/-- The `walker` closure of `CopyTreeWithFilter` on one node (the error the
inner `CopyFile` returns is dropped, its panic is not). -/
def walker (filter : Filter) (w : WriterHelper) (p : GoString) (info : NodeInfo) :
    Option (WriterHelper × Signal) :=
  if !filter p then
    if IsDir info.Mode then some (w, Signal.SkipDir) else some (w, Signal.ok)
  else if IsDir info.Mode then
    match WriteDirectory w p (clearType info.Mode) with
    | none => none
    | some w1 => some (w1, Signal.ok)
  else if IsRegular info.Mode then
    match CopyFile w info.opened p with
    | none => none
    | some (w1, Outcome.panicked) => some (w1, Signal.panicked)
    | some (w1, Outcome.returned _) => some (w1, Signal.ok)
  else if modeType info.Mode = ModeSymlink then
    match WriteSymlink w info.link p (clearType info.Mode) with
    | none => none
    | some w1 => some (w1, Signal.ok)
  else some (w, Signal.panicked)

/-- Go `filepath.Walk` on one node: the walker is called on it, and the
listing beneath it is walked (`descend`) when it is a directory the walker
did not skip.  The result says whether the walk panicked. -/
def walkNode (descend : WriterHelper → Option (WriterHelper × Bool)) (filter : Filter)
    (path : GoString) (info : NodeInfo) (w : WriterHelper) : Option (WriterHelper × Bool) :=
  match walker filter w path info with
  | none => none
  | some (w1, Signal.panicked) => some (w1, true)
  | some (w1, Signal.SkipDir) => some (w1, false)
  | some (w1, Signal.ok) => if IsDir info.Mode then descend w1 else some (w1, false)

/-- Go `filepath.Walk` over the listing of the directory `path`: each entry
is visited at `filepath.Join(path, name)`, in listing order. -/
def walkForest (filter : Filter) : Forest → GoString → WriterHelper →
    Option (WriterHelper × Bool)
  | Forest.nil, _, w => some (w, false)
  | Forest.cons name info kids rest, path, w =>
    let filename := Join path name
    match walkNode (walkForest filter kids filename) filter filename info w with
    | none => none
    | some (w1, true) => some (w1, true)
    | some (w1, false) => walkForest filter rest path w1

/-- Go `CopyTreeWithFilter(path, filter)` over a file system in which `path`
is the node `root` with the listing `kids` beneath it. -/
def CopyTreeWithFilter (w : WriterHelper) (path : GoString) (filter : Filter)
    (root : NodeInfo) (kids : Forest) : Option (WriterHelper × Bool) :=
  walkNode (walkForest filter kids path) filter path root w

/-- Go `CopyTree(path)`. -/
def CopyTree (w : WriterHelper) (path : GoString) (root : NodeInfo) (kids : Forest) :
    Option (WriterHelper × Bool) :=
  CopyTreeWithFilter w path All root kids

/-! ## Vocabulary of the statements -/

/-- A real path element: not empty, not `.`, not `..`, and free of slashes. -/
def ValidName (c : GoString) : Prop :=
  c ≠ [] ∧ c ≠ ['.'] ∧ c ≠ ['.', '.'] ∧ '/' ∉ c

instance (c : GoString) : Decidable (ValidName c) := by
  unfold ValidName
  exact inferInstance

/-- Every element of the list is a real path element. -/
def ValidNames (cs : List GoString) : Prop :=
  ∀ c ∈ cs, ValidName c

instance (cs : List GoString) : Decidable (ValidNames cs) := by
  unfold ValidNames
  exact inferInstance

/-- The absolute path with the elements `cs`: `/` for none, `/a/b` for `a`, `b`. -/
def absPath (cs : List GoString) : GoString :=
  '/' :: joinSlash cs

/-- A normalized absolute path: it starts with a slash and `path.Clean` leaves
it unchanged. -/
def IsCleanAbs (p : GoString) : Prop :=
  p.head? = some '/' ∧ Clean p = p

instance (p : GoString) : Decidable (IsCleanAbs p) := by
  unfold IsCleanAbs
  exact inferInstance

/-- The type and name of every header of an output, in order. -/
def entries (out : List Record) : List (EntryType × GoString) :=
  out.filterMap fun r =>
    match r with
    | Record.header h => some (h.Typ, h.Name)
    | Record.data _ => none

/-- The absolute paths `pre/c1`, `pre/c1/c2`, ... for the elements `c1, c2, ...`. -/
def chainFrom (pre : List GoString) : List GoString → List GoString
  | [] => []
  | c :: cs => absPath (pre ++ [c]) :: chainFrom (pre ++ [c]) cs

/-- The header `WriteDirectory` builds. -/
def dirHeader (name : GoString) (perm : Nat) : Header :=
  { Typ := EntryType.TYPE_DIR, Name := name, Mode := perm, Size := 0,
    Devmajor := 0, Devminor := 0 }

/-- What `WriteDirectory` does after its parent chain is in place: the
directory header is written and the name is marked known. -/
def WriterHelper.addDir (w : WriterHelper) (name : GoString) (perm : Nat) : WriterHelper :=
  { (w.WriteHeader (dirHeader name perm)) with
    paths := name :: (w.WriteHeader (dirHeader name perm)).paths }

/-- The directories the loop of `ensureBaseDirectory` writes, in order, when it
runs over `components` from `collector` with the paths `known`. -/
def newDirs : List GoString → GoString → List GoString → List GoString
  | [], _, _ => []
  | c :: cs, collector, known =>
    if Join collector c ∈ known then newDirs cs (Join collector c) known
    else Join collector c :: newDirs cs (Join collector c) (Join collector c :: known)

/-- No `..` element of the list follows a real path element: the elements in
front of the first real one are empty, `.` or `..`, and none after it is `..`. -/
def dotDotLeading : List GoString → Bool
  | [] => true
  | c :: cs =>
    if c = [] ∨ c = ['.'] ∨ c = ['.', '.'] then dotDotLeading cs
    else decide (['.', '.'] ∉ cs)

/-- The directories `ensureBaseDirectory(directory)` writes, in order. -/
def materialized (w : WriterHelper) (directory : GoString) : List GoString :=
  if Clean directory ∈ w.paths then [] else newDirs (Split directory) ['/'] w.paths

/-- Directories written one after the other with mode `0755`. -/
def WriterHelper.addDirs (w : WriterHelper) (names : List GoString) : WriterHelper :=
  names.foldl (fun acc x => acc.addDir x 0o755) w

/-- The root is known, and the parent of every known normalized absolute path
is known. -/
def ClosedPaths (known : List GoString) : Prop :=
  ['/'] ∈ known ∧ ∀ p ∈ known, IsCleanAbs p → Dir p ∈ known

/-- The known paths of the builder are closed under parents. -/
def Closed (w : WriterHelper) : Prop :=
  ClosedPaths w.paths

/-- The sink rejects none of the coming writes. -/
def Reliable (w : WriterHelper) : Prop :=
  ∀ b ∈ w.Writer.faults, b = false

/-- The number of directory headers named `d` in an output. -/
def dirCount (d : GoString) (out : List Record) : Nat :=
  (entries out).countP fun e => decide (e = (EntryType.TYPE_DIR, d))

/-- The number of occurrences of `d` in a list of names. -/
def occurrences (d : GoString) (l : List GoString) : Nat :=
  l.countP fun x => decide (x = d)

/-- Every directory header of the output names a known path. -/
def Sound (w : WriterHelper) : Prop :=
  ∀ p, (EntryType.TYPE_DIR, p) ∈ entries w.out → p ∈ w.paths

/-- Every known path other than the root has a directory header in the output. -/
def Logged (w : WriterHelper) : Prop :=
  ∀ p ∈ w.paths, p ≠ ['/'] → (EntryType.TYPE_DIR, p) ∈ entries w.out

/-- For every known normalized absolute path, the directory headers of the
path and of its ancestors other than the root occur in the output in
root-to-leaf order. -/
def Ordered (w : WriterHelper) : Prop :=
  ∀ cs, ValidNames cs → absPath cs ∈ w.paths →
    List.Sublist ((chainFrom [] cs).map fun a => (EntryType.TYPE_DIR, a)) (entries w.out)

/-- A list of directories each of which is new, normalized and absolute, and
has its parent among the paths known when it is written. -/
def GoodChain : List GoString → List GoString → Prop
  | _, [] => True
  | known, x :: rest =>
    IsCleanAbs x ∧ x ∉ known ∧ Dir x ∈ known ∧ GoodChain (x :: known) rest


/-- The proper ancestors of the absolute path `p` other than the root, from
the shallowest to the deepest: `/a`, `/a/b` for `/a/b/c`. -/
def ancestors (p : GoString) : List GoString :=
  ((Split p).tail.dropLast.inits.tail).map absPath

/-- The nodes `filepath.Walk` hands to a walker that accepts them, for one node
and what the walk finds beneath it: the node when the filter accepts it,
followed by those beneath it when it is a directory. -/
def visitNode (beneath : List (GoString × NodeInfo)) (filter : Filter) (path : GoString)
    (info : NodeInfo) : List (GoString × NodeInfo) :=
  if filter path then
    (path, info) :: (if IsDir info.Mode then beneath else [])
  else []

/-- The accepted nodes of a listing all of whose ancestors in the listing are
accepted, with their paths, in walk order. -/
def visitForest (filter : Filter) : Forest → GoString → List (GoString × NodeInfo)
  | Forest.nil, _ => []
  | Forest.cons name info kids rest, path =>
    visitNode (visitForest filter kids (Join path name)) filter (Join path name) info ++
      visitForest filter rest path

/-- The accepted nodes of the tree at `path` all of whose ancestors in the tree
are accepted, in walk order. -/
def visited (path : GoString) (filter : Filter) (root : NodeInfo) (kids : Forest) :
    List (GoString × NodeInfo) :=
  visitNode (visitForest filter kids path) filter path root

/-- One call of a builder operation that returns or panics, from the state `w`
to the state `w'`.  `allowed` restricts the names of the directories written
on request (by `WriteDirectory`, or for a directory node met by a tree copy).
`WriteFile`, `CopyFile` and `CopyTree` are `WriteFileRaw`, `CopyFileTo` and
`CopyTreeWithFilter` at particular arguments. -/
inductive Step (allowed : GoString → Prop) : WriterHelper → WriterHelper → Prop where
  | ensureBaseDirectory (w w' : WriterHelper) (directory : GoString) :
      ensureBaseDirectory w directory = some w' → Step allowed w w'
  | WriteDirectory (w w' : WriterHelper) (directory : GoString) (perm : Nat) :
      allowed directory → WriteDirectory w directory perm = some w' → Step allowed w w'
  | WriteFileRaw (w w' : WriterHelper) (file : GoString) (bytes : Bytes) (perm : Nat) :
      WriteFileRaw w file bytes perm = some w' → Step allowed w w'
  | WriteSymlink (w w' : WriterHelper) (target link : GoString) (perm : Nat) :
      WriteSymlink w target link perm = some w' → Step allowed w w'
  | WriteCharDevice (w w' : WriterHelper) (device : GoString) (major minor : Int)
      (perm : Nat) :
      WriteCharDevice w device major minor perm = some w' → Step allowed w w'
  | CopyFileTo (w w' : WriterHelper) (opened : Option File) (dst : GoString)
      (res : Outcome) :
      CopyFileTo w opened dst = some (w', res) → Step allowed w w'
  | TransformFileTo (w w' : WriterHelper) (opened : Option File) (dst : GoString)
      (fn : Transformer) (res : Outcome) :
      TransformFileTo w opened dst fn = some (w', res) → Step allowed w w'
  | CopyTreeWithFilter (w w' : WriterHelper) (path : GoString) (filter : Filter)
      (root : NodeInfo) (kids : Forest) (panicked : Bool) :
      (∀ x ∈ visited path filter root kids, IsDir x.2.Mode = true → allowed x.1) →
      CopyTreeWithFilter w path filter root kids = some (w', panicked) → Step allowed w w'

/-- The builder states reached from `NewWriterHelper(f)` by builder operations. -/
inductive Reachable (f : List Bool) (allowed : GoString → Prop) : WriterHelper → Prop where
  | init : Reachable f allowed (NewWriterHelper f)
  | step (w w' : WriterHelper) : Reachable f allowed w → Step allowed w w' →
      Reachable f allowed w'

/-- No restriction on the directories written on request. -/
def anyName (_d : GoString) : Prop := True

/-- The names of the directory nodes of a list of visited nodes, in order. -/
def dirNames (l : List (GoString × NodeInfo)) : List GoString :=
  (l.filter fun x => IsDir x.2.Mode).map fun x => x.1

/-- The effects every builder operation is made of, each with the directory
names it writes on request: a directory header written by the loop of
`ensureBaseDirectory` for a path unknown so far, a directory header written on
request (by `WriteDirectory` itself), a header of another type, a payload.  A
directory that is a normalized absolute path is written with its parent known. -/
inductive Prim : WriterHelper → List GoString → WriterHelper → Prop where
  | implied (w : WriterHelper) (x : GoString) :
      (IsCleanAbs x → Dir x ∈ w.paths) → x ∉ w.paths →
      Prim w [] (w.addDir x 0o755)
  | dir (w : WriterHelper) (x : GoString) (perm : Nat) :
      (IsCleanAbs x → Dir x ∈ w.paths) →
      Prim w [x] (w.addDir x perm)
  | hdr (w : WriterHelper) (h : Header) : h.Typ ≠ EntryType.TYPE_DIR →
      Prim w [] (w.WriteHeader h)
  | data (w : WriterHelper) (b : Bytes) : Prim w [] (w.Write b)

/-- A finite run of effects, with the directory names written on request. -/
inductive Prims : WriterHelper → List GoString → WriterHelper → Prop where
  | refl (w : WriterHelper) : Prims w [] w
  | tail (w w1 w2 : WriterHelper) (t1 t2 : List GoString) : Prims w t1 w1 → Prim w1 t2 w2 →
      Prims w (t1 ++ t2) w2

/-- The walk result `r` is reached from `w` by a run of effects whose requested
directories are the first ones of `full`, and all of `full` when the walk did
not panic. -/
def Traced (w : WriterHelper) (r : WriterHelper × Bool) (full : List GoString) : Prop :=
  ∃ tr, Prims w tr r.1 ∧ tr <+: full ∧ (r.2 = false → tr = full)

/-- The output ends with the header of type `t` named `p` (payload apart), and
the directory headers of the ancestors of `p` other than the root occur before
it, the shallower before the deeper. -/
def PrecededByAncestors (out : List Record) (t : EntryType) (p : GoString) : Prop :=
  ∃ pre, entries out = pre ++ [(t, p)] ∧
    List.Sublist ((ancestors p).map fun a => (EntryType.TYPE_DIR, a)) pre

/-- The output holds a directory header named `p`. -/
def HasDirHeader (out : List Record) (p : GoString) : Prop :=
  ∃ h, Record.header h ∈ out ∧ h.Typ = EntryType.TYPE_DIR ∧ h.Name = p

/-- The values the `collector` variable of `ensureBaseDirectory` takes over the
components, in order. -/
def collectors : List GoString → GoString → List GoString
  | [], _ => []
  | c :: cs, collector => Join collector c :: collectors cs (Join collector c)

/-- Between the outputs `before` and `after` one entry was written in full:
after the directory headers of missing parents (mode `0755`), the header `h`
followed by its whole payload, in the pieces `tail` of the write calls made
for it, the payload as long as `h.Size` says. -/
def EntryWritten (before after : List Record) (h : Header) (payload : Bytes) : Prop :=
  ∃ dirs : List GoString, ∃ tail : List Bytes,
    after = before ++ dirs.map (fun x => Record.header (dirHeader x 0o755)) ++
      Record.header h :: tail.map Record.data ∧
    tail.flatten = payload ∧ payload.length = h.Size

/-- Every name of the listing, at every depth, is a real path element (as the
names a directory read returns are). -/
def validForest : Forest → Bool
  | Forest.nil => true
  | Forest.cons name _ kids rest =>
    decide (ValidName name) && validForest kids && validForest rest

/-- The walker has an entry for the node: a directory, a regular file that
opens and whose `Stat` succeeds, or a symbolic link. -/
def supported (info : NodeInfo) : Bool :=
  if IsDir info.Mode then true
  else if IsRegular info.Mode then
    match info.opened with
    | some f => f.stat.isSome
    | none => false
  else decide (modeType info.Mode = ModeSymlink)

/-- The type of the entry the walker writes for a node it has an entry for. -/
def nodeType (info : NodeInfo) : EntryType :=
  if IsDir info.Mode then EntryType.TYPE_DIR
  else if IsRegular info.Mode then EntryType.TYPE_REG
  else EntryType.TYPE_SYMLINK

/-- The type and name of the entry of each visited node. -/
def visitedEntries (l : List (GoString × NodeInfo)) : List (EntryType × GoString) :=
  l.map fun x => (nodeType x.2, x.1)

/-- A walk from `w` returned `w'` without a panic, having appended the headers
`es`, with the invariants of the builder kept. -/
def Walked (w : WriterHelper) (r : Option (WriterHelper × Bool)) (w' : WriterHelper)
    (es : List (EntryType × GoString)) : Prop :=
  r = some (w', false) ∧ entries w'.out = entries w.out ++ es ∧ Closed w' ∧ Reliable w' ∧
    w.paths ⊆ w'.paths

/-- The directories `ensureBaseDirectory(directory)` writes, in order, when the
paths `known` are known. -/
def chainToWrite (known : List GoString) (directory : GoString) : List GoString :=
  if Clean directory ∈ known then [] else newDirs (Split directory) ['/'] known

/-- The known paths after the walker has written the entry of the visited node
`x`: the parent directories that were missing, and the node itself when it is
a directory. -/
def knownAfterNode (known : List GoString) (x : GoString × NodeInfo) : List GoString :=
  (if IsDir x.2.Mode then [x.1] else []) ++ (chainToWrite known (Dir x.1)).reverse ++ known

/-- The known paths after the entries of the visited nodes `vs` are written. -/
def knownAfter : List GoString → List (GoString × NodeInfo) → List GoString
  | known, [] => known
  | known, x :: xs => knownAfter (knownAfterNode known x) xs

/-- The headers of a walk over the visited nodes `vs` that starts with the
paths `known`: for each node in order, the directory headers of the parent
directories of its path that are not yet known, then the header of the node
itself. -/
def walkTrace : List GoString → List (GoString × NodeInfo) → List (EntryType × GoString)
  | _, [] => []
  | known, x :: xs =>
    (chainToWrite known (Dir x.1)).map (fun d => (EntryType.TYPE_DIR, d)) ++
      (nodeType x.2, x.1) :: walkTrace (knownAfterNode known x) xs

/-- A walk from `w` returned `w'` without a panic, having appended exactly the
headers of `walkTrace` for the visited nodes `vs`. -/
def WalkedExact (w : WriterHelper) (r : Option (WriterHelper × Bool)) (w' : WriterHelper)
    (vs : List (GoString × NodeInfo)) : Prop :=
  r = some (w', false) ∧ entries w'.out = entries w.out ++ walkTrace w.paths vs ∧
    w'.paths = knownAfter w.paths vs ∧ Closed w' ∧ Reliable w'

/-! ## The path functions on normalized absolute paths -/

theorem Split_ne_nil (s : GoString) : Split s ≠ [] := by
  induction s with
  | nil => simp [Split]
  | cons c cs ih =>
    unfold Split
    split
    · simp
    · split <;> simp

theorem Split_cons_slash (s : GoString) : Split ('/' :: s) = [] :: Split s := by
  simp [Split]

theorem Split_cons_other (c : Char) (cs : GoString) (hc : c ≠ '/') :
    Split (c :: cs) = (c :: (Split cs).headD []) :: (Split cs).tail := by
  rw [Split]
  simp only [hc, if_false]
  cases hs : Split cs with
  | nil => exact absurd hs (Split_ne_nil cs)
  | cons h t => simp

theorem Split_append_slash (a b : GoString) :
    Split (a ++ '/' :: b) = Split a ++ Split b := by
  induction a with
  | nil => simp [Split]
  | cons c cs ih =>
    by_cases hc : c = '/'
    · subst hc
      simp [Split, ih]
    · rw [List.cons_append, Split_cons_other c _ hc, Split_cons_other c _ hc, ih]
      cases hs : Split cs with
      | nil => exact absurd hs (Split_ne_nil cs)
      | cons h t => simp

theorem Split_noSlash (c : GoString) (h : '/' ∉ c) : Split c = [c] := by
  induction c with
  | nil => simp [Split]
  | cons x xs ih =>
    have hx : x ≠ '/' := fun e => h (by simp [e])
    have hxs : '/' ∉ xs := fun e => h (by simp [e])
    rw [Split]
    simp [hx, ih hxs]

theorem Split_noSlash_mem (s : GoString) : ∀ c ∈ Split s, '/' ∉ c := by
  induction s with
  | nil => simp [Split]
  | cons x xs ih =>
    by_cases hx : x = '/'
    · subst hx
      simp only [Split_cons_slash]
      intro c hc
      rcases List.mem_cons.1 hc with h | h
      · simp [h]
      · exact ih c h
    · rw [Split]
      simp only [hx, if_false]
      cases hs : Split xs with
      | nil => exact absurd hs (Split_ne_nil xs)
      | cons h t =>
        rw [hs] at ih
        intro c hc
        rcases List.mem_cons.1 hc with e | e
        · subst e
          intro hm
          rcases List.mem_cons.1 hm with e1 | e1
          · exact hx e1.symm
          · exact ih h (by simp) e1
        · exact ih c (by simp [e])

theorem joinSlash_append_single (cs : List GoString) (c : GoString) (h : cs ≠ []) :
    joinSlash (cs ++ [c]) = joinSlash cs ++ '/' :: c := by
  induction cs with
  | nil => exact absurd rfl h
  | cons a as ih =>
    cases as with
    | nil => simp [joinSlash]
    | cons b bs =>
      have := ih (by simp)
      simp only [List.cons_append] at this ⊢
      simp [joinSlash, this]

theorem Split_joinSlash (cs : List GoString) (h : ∀ c ∈ cs, '/' ∉ c) (hne : cs ≠ []) :
    Split (joinSlash cs) = cs := by
  induction cs with
  | nil => exact absurd rfl hne
  | cons a as ih =>
    cases as with
    | nil => simpa [joinSlash] using Split_noSlash a (h a (by simp))
    | cons b bs =>
      have hb := ih (fun c hc => h c (by simp [hc])) (by simp)
      simp only [joinSlash]
      rw [Split_append_slash, Split_noSlash a (h a (by simp))]
      simp only [joinSlash] at hb
      rw [hb]
      rfl

theorem cleanStep_valid (cs : List GoString) (c : GoString) (hv : ValidName c) :
    cleanStep true cs c = cs ++ [c] := by
  obtain ⟨h1, h2, h3, _⟩ := hv
  simp [cleanStep, h1, h2, h3]

theorem cleanStep_true_eq (cs : List GoString) (c : GoString) :
    cleanStep true cs c =
      if c = [] ∨ c = ['.'] then cs
      else if c = ['.', '.'] then cs.dropLast
      else cs ++ [c] := by
  unfold cleanStep
  by_cases h1 : c = []
  · simp [h1]
  · by_cases h2 : c = ['.']
    · simp [h2]
    · by_cases h3 : c = ['.', '.']
      · subst h3
        cases hl : cs.getLast? with
        | none =>
          have : cs = [] := List.getLast?_eq_none_iff.1 hl
          simp [this]
        | some top => simp
      · simp [h1, h2, h3]

theorem validNames_dropLast (cs : List GoString) (h : ValidNames cs) :
    ValidNames cs.dropLast :=
  fun c hc => h c (List.dropLast_subset cs hc)

theorem cleanStep_true_validNames (cs : List GoString) (c : GoString)
    (hcs : ValidNames cs) (hc : '/' ∉ c) : ValidNames (cleanStep true cs c) := by
  rw [cleanStep_true_eq]
  by_cases h1 : c = [] ∨ c = ['.']
  · simpa [h1] using hcs
  · rw [if_neg h1]
    by_cases h3 : c = ['.', '.']
    · rw [if_pos h3]
      exact validNames_dropLast cs hcs
    · rw [if_neg h3]
      intro x hx
      rcases List.mem_append.1 hx with h | h
      · exact hcs x h
      · have hxc : x = c := by simpa using h
        subst hxc
        exact ⟨fun e => h1 (Or.inl e), fun e => h1 (Or.inr e), h3, hc⟩

theorem foldl_cleanStep_validNames (xs : List GoString) (acc : List GoString)
    (hacc : ValidNames acc) (hx : ∀ c ∈ xs, '/' ∉ c) :
    ValidNames (xs.foldl (cleanStep true) acc) := by
  induction xs generalizing acc with
  | nil => simpa using hacc
  | cons x xs ih =>
    simp only [List.foldl_cons]
    exact ih _ (cleanStep_true_validNames acc x hacc (hx x (by simp)))
      (fun c hc => hx c (by simp [hc]))

theorem foldl_cleanStep_valid (cs acc : List GoString) (h : ValidNames cs) :
    cs.foldl (cleanStep true) acc = acc ++ cs := by
  induction cs generalizing acc with
  | nil => simp
  | cons c cs ih =>
    simp only [List.foldl_cons]
    rw [cleanStep_valid acc c (h c (by simp)), ih _ (fun x hx => h x (by simp [hx]))]
    simp

theorem Clean_rooted (s : GoString) :
    Clean ('/' :: s) = '/' :: joinSlash ((Split s).foldl (cleanStep true) []) := by
  simp [Clean, Split_cons_slash, cleanStep]

theorem foldl_Split_joinSlash (cs : List GoString) (h : ValidNames cs) :
    (Split (joinSlash cs)).foldl (cleanStep true) [] = cs := by
  cases cs with
  | nil => simp [joinSlash, Split, cleanStep]
  | cons a as =>
    rw [Split_joinSlash _ (fun c hc => (h c hc).2.2.2) (by simp), foldl_cleanStep_valid _ _ h]
    simp

theorem Clean_absPath (cs : List GoString) (h : ValidNames cs) :
    Clean (absPath cs) = absPath cs := by
  unfold absPath
  rw [Clean_rooted, foldl_Split_joinSlash cs h]

theorem Clean_absPath_append (cs : List GoString) (c : GoString) (hcs : ValidNames cs)
    (hc : '/' ∉ c) : Clean (absPath cs ++ '/' :: c) = absPath (cleanStep true cs c) := by
  unfold absPath
  rw [List.cons_append, Clean_rooted, Split_append_slash, List.foldl_append,
    foldl_Split_joinSlash cs hcs, Split_noSlash c hc]
  simp

theorem Join_absPath (cs : List GoString) (c : GoString) (hcs : ValidNames cs)
    (hc : '/' ∉ c) : Join (absPath cs) c = absPath (cleanStep true cs c) := by
  unfold Join
  rw [if_neg (by simp [absPath])]
  exact Clean_absPath_append cs c hcs hc

theorem dropWhile_append_of_all (p : Char → Bool) (a b : GoString) (h : ∀ x ∈ a, p x = true) :
    (a ++ b).dropWhile p = b.dropWhile p := by
  induction a with
  | nil => simp
  | cons x xs ih =>
    have hx := h x (by simp)
    simp only [List.cons_append, List.dropWhile_cons, hx, if_true]
    exact ih (fun y hy => h y (by simp [hy]))

theorem dirPart_append_slash (x c : GoString) (hc : '/' ∉ c) :
    dirPart (x ++ '/' :: c) = x ++ ['/'] := by
  unfold dirPart
  have hrev : (x ++ '/' :: c).reverse = c.reverse ++ ('/' :: x.reverse) := by simp
  rw [hrev, dropWhile_append_of_all]
  · simp
  · intro y hy
    have hy2 : y ∈ c := by simpa using hy
    have : y ≠ '/' := fun e => hc (e ▸ hy2)
    simpa using this

theorem Dir_absPath_snoc (cs : List GoString) (c : GoString) (hcs : ValidNames cs)
    (hc : '/' ∉ c) : Dir (absPath (cs ++ [c])) = absPath cs := by
  unfold Dir
  cases cs with
  | nil =>
    have h1 : absPath ([] ++ [c]) = [] ++ '/' :: c := by simp [absPath, joinSlash]
    rw [h1, dirPart_append_slash [] c hc]
    exact Clean_absPath [] (by intro x hx; cases hx)
  | cons a as =>
    have h1 : absPath ((a :: as) ++ [c]) = absPath (a :: as) ++ '/' :: c := by
      unfold absPath
      rw [joinSlash_append_single _ _ (by simp)]
      simp
    rw [h1, dirPart_append_slash _ c hc]
    have h2 := Clean_absPath_append (a :: as) [] hcs (by simp)
    rw [h2]
    simp [cleanStep]

theorem Dir_absPath_nil : Dir (absPath []) = absPath [] := by
  decide

theorem Dir_absPath (cs : List GoString) (hcs : ValidNames cs) :
    Dir (absPath cs) = absPath cs.dropLast := by
  rcases List.eq_nil_or_concat cs with h | ⟨init, c, h⟩
  · subst h; exact Dir_absPath_nil
  · subst h
    have hi : ValidNames init := fun x hx => hcs x (by simp [hx])
    have hc : '/' ∉ c := (hcs c (by simp)).2.2.2
    rw [List.concat_eq_append, Dir_absPath_snoc init c hi hc]
    simp

theorem isCleanAbs_absPath (cs : List GoString) (h : ValidNames cs) :
    IsCleanAbs (absPath cs) :=
  ⟨by simp [absPath], Clean_absPath cs h⟩

theorem Clean_rooted_absPath (s : GoString) :
    ∃ cs, ValidNames cs ∧ Clean ('/' :: s) = absPath cs := by
  refine ⟨(Split s).foldl (cleanStep true) [], ?_, ?_⟩
  · exact foldl_cleanStep_validNames _ _ (by intro x hx; cases hx) (Split_noSlash_mem s)
  · rw [Clean_rooted]; rfl

theorem isCleanAbs_iff (p : GoString) :
    IsCleanAbs p ↔ ∃ cs, ValidNames cs ∧ p = absPath cs := by
  constructor
  · rintro ⟨hh, hc⟩
    cases p with
    | nil => simp at hh
    | cons x s =>
      have hx : x = '/' := by simpa using hh
      subst hx
      obtain ⟨cs, hv, he⟩ := Clean_rooted_absPath s
      exact ⟨cs, hv, by rw [← hc, he]⟩
  · rintro ⟨cs, hv, rfl⟩
    exact isCleanAbs_absPath cs hv

/-! ## The path functions on the cases of Go's own test tables -/

/-- The model of `path.Clean` on cases of the `cleantests` table of Go's
`path` package. -/
theorem Clean_go_cases :
    ∀ p ∈ [("", "."), ("abc", "abc"), ("abc/def", "abc/def"), (".", "."), ("..", ".."),
        ("../..", "../.."), ("../../abc", "../../abc"), ("/abc", "/abc"), ("/", "/"),
        ("abc/", "abc"), ("a/b/c/", "a/b/c"), ("./", "."), ("../", ".."), ("../../", "../.."),
        ("/abc/", "/abc"), ("abc//def//ghi", "abc/def/ghi"), ("//abc", "/abc"),
        ("///abc", "/abc"), ("//abc//", "/abc"), ("abc//", "abc"), ("abc/./def", "abc/def"),
        ("/./abc/def", "/abc/def"), ("abc/.", "abc"), ("abc/def/ghi/../jkl", "abc/def/jkl"),
        ("abc/def/../ghi/../jkl", "abc/jkl"), ("abc/def/..", "abc"), ("abc/def/../..", "."),
        ("/abc/def/../..", "/"), ("abc/def/../../..", ".."), ("/abc/def/../../..", "/"),
        ("abc/def/../../../ghi/jkl/../../../mno", "../../mno"), ("abc/./../def", "def"),
        ("abc//./../def", "def"), ("abc/../../././../def", "../../def")],
      Clean (String.toList p.1) = String.toList p.2 := by
  decide

/-- The model of `path.Dir` on the `dirtests` table of Go's `path` package. -/
theorem Dir_go_cases :
    ∀ p ∈ [("", "."), (".", "."), ("/.", "/"), ("/", "/"), ("////", "/"), ("/foo", "/"),
        ("x/", "x"), ("abc", "."), ("abc/def", "abc"), ("abc////def", "abc"),
        ("a/b/.x", "a/b"), ("a/b/c.", "a/b"), ("a/b/c.x", "a/b")],
      Dir (String.toList p.1) = String.toList p.2 := by
  decide

/-- The model of `path.Join` on the two-element cases of the `jointests` table
of Go's `path` package. -/
theorem Join_go_cases :
    ∀ p ∈ [(("a", "b"), "a/b"), (("a", ""), "a"), (("", "b"), "b"), (("/", "a"), "/a"),
        (("/", ""), "/"), (("a/", "b"), "a/b"), (("a/", ""), "a"), (("", ""), "")],
      Join (String.toList p.1.1) (String.toList p.1.2) = String.toList p.2 := by
  decide

/-- The model of `strings.Split(s, "/")` on typical cases. -/
theorem Split_go_cases :
    Split "a/b/c".toList = ["a".toList, "b".toList, "c".toList] ∧
      Split "/a".toList = ["".toList, "a".toList] ∧
      Split "a/".toList = ["a".toList, "".toList] ∧
      Split "a//b".toList = ["a".toList, "".toList, "b".toList] ∧
      Split "".toList = ["".toList] ∧ Split "/".toList = ["".toList, "".toList] := by
  decide

/-! ## `ensureBaseDirectory` on states whose known paths are closed -/

theorem addDir_paths (w : WriterHelper) (x : GoString) (perm : Nat) :
    (w.addDir x perm).paths = x :: w.paths := rfl

theorem WriteDirectoryWith_eq (ensure : WriterHelper → GoString → Option WriterHelper)
    (w w1 : WriterHelper) (directory : GoString) (perm : Nat)
    (h : ensure w (Dir directory) = some w1) :
    WriteDirectoryWith ensure w directory perm = some (w1.addDir directory perm) := by
  simp [WriteDirectoryWith, h, WriterHelper.addDir, dirHeader]

theorem WriteDirectoryWith_none (ensure : WriterHelper → GoString → Option WriterHelper)
    (w : WriterHelper) (directory : GoString) (perm : Nat)
    (h : ensure w (Dir directory) = none) :
    WriteDirectoryWith ensure w directory perm = none := by
  simp [WriteDirectoryWith, h]

theorem ensureBaseDirectoryF_known (n : Nat) (w : WriterHelper) (d : GoString)
    (h : Clean d ∈ w.paths) : ensureBaseDirectoryF (n + 1) w d = some w := by
  simp [ensureBaseDirectoryF, h]

theorem closedPaths_cons (known : List GoString) (x : GoString) (h : ClosedPaths known)
    (hx : IsCleanAbs x → Dir x ∈ known) : ClosedPaths (x :: known) := by
  refine ⟨List.mem_cons_of_mem _ h.1, ?_⟩
  intro p hp hc
  rcases List.mem_cons.1 hp with e | e
  · subst e; exact List.mem_cons_of_mem _ (hx hc)
  · exact List.mem_cons_of_mem _ (h.2 p e hc)

/-- One step of the loop from a known collector: the next collector is known
already, or it is the collector extended by a real element. -/
theorem join_step_cases (known : List GoString) (cs : List GoString) (c : GoString)
    (hcl : ClosedPaths known) (hv : ValidNames cs) (hk : absPath cs ∈ known)
    (hc : '/' ∉ c) :
    Join (absPath cs) c ∈ known ∨
      (ValidName c ∧ Join (absPath cs) c = absPath (cs ++ [c])) := by
  rw [Join_absPath cs c hv hc, cleanStep_true_eq]
  by_cases h1 : c = [] ∨ c = ['.']
  · left; simpa [h1] using hk
  · rw [if_neg h1]
    by_cases h3 : c = ['.', '.']
    · left
      rw [if_pos h3, ← Dir_absPath cs hv]
      exact hcl.2 _ hk (isCleanAbs_absPath cs hv)
    · right
      rw [if_neg h3]
      exact ⟨⟨fun e => h1 (Or.inl e), fun e => h1 (Or.inr e), h3, hc⟩, rfl⟩

theorem validNames_snoc (cs : List GoString) (c : GoString) (hv : ValidNames cs)
    (hc : ValidName c) : ValidNames (cs ++ [c]) := by
  intro x hx
  rcases List.mem_append.1 hx with h | h
  · exact hv x h
  · have : x = c := by simpa using h
    exact this ▸ hc

theorem ensureLoop_closed (n : Nat) (comps : List GoString) :
    ∀ (cs : List GoString) (w : WriterHelper), Closed w → ValidNames cs →
      absPath cs ∈ w.paths → (∀ c ∈ comps, '/' ∉ c) →
      ensureLoop (WriteDirectoryWith (ensureBaseDirectoryF (n + 1))) comps (absPath cs) w =
        some (w.addDirs (newDirs comps (absPath cs) w.paths)) := by
  induction comps with
  | nil => intro cs w _ _ _ _; simp [ensureLoop, newDirs, WriterHelper.addDirs]
  | cons c comps ih =>
    intro cs w hw hv hk hc
    have hcs : '/' ∉ c := hc c (by simp)
    have hrest : ∀ x ∈ comps, '/' ∉ x := fun x hx => hc x (by simp [hx])
    have hvj : ValidNames (cleanStep true cs c) := cleanStep_true_validNames cs c hv hcs
    have hj : Join (absPath cs) c = absPath (cleanStep true cs c) := Join_absPath cs c hv hcs
    by_cases hmem : Join (absPath cs) c ∈ w.paths
    · have := ih (cleanStep true cs c) w hw hvj (hj ▸ hmem) hrest
      simp only [ensureLoop, newDirs, hmem, if_true]
      rw [hj]; exact this
    · rcases join_step_cases w.paths cs c hw hv hk hcs with h | ⟨hvc, he⟩
      · exact absurd h hmem
      · have hvs := validNames_snoc cs c hv hvc
        have hdir : Dir (Join (absPath cs) c) = absPath cs := by
          rw [he, Dir_absPath_snoc cs c hv hcs]
        have hens : ensureBaseDirectoryF (n + 1) w (Dir (Join (absPath cs) c)) = some w := by
          apply ensureBaseDirectoryF_known
          rw [hdir, Clean_absPath cs hv]; exact hk
        have hwd := WriteDirectoryWith_eq (ensureBaseDirectoryF (n + 1)) w w
          (Join (absPath cs) c) 0o755 hens
        have hcl : Closed (w.addDir (Join (absPath cs) c) 0o755) := by
          apply closedPaths_cons _ _ hw
          intro _; rw [hdir]; exact hk
        have := ih (cs ++ [c]) (w.addDir (Join (absPath cs) c) 0o755) hcl hvs
          (by rw [addDir_paths, he]; exact List.mem_cons_self _ _) hrest
        simp only [ensureLoop, newDirs, hmem, if_false, hwd]
        rw [he] at this ⊢
        rw [this, addDir_paths]
        simp [WriterHelper.addDirs]

theorem closed_absPath_nil (w : WriterHelper) (hw : Closed w) : absPath [] ∈ w.paths := hw.1

theorem ensureBaseDirectoryF_closed (n : Nat) (w : WriterHelper) (d : GoString)
    (hw : Closed w) :
    ensureBaseDirectoryF (n + 2) w d = some (w.addDirs (materialized w d)) := by
  unfold materialized
  by_cases h : Clean d ∈ w.paths
  · simp [ensureBaseDirectoryF, h, WriterHelper.addDirs]
  · have := ensureLoop_closed n (Split d) [] w hw (by intro x hx; cases hx) hw.1
      (Split_noSlash_mem d)
    simp only [ensureBaseDirectoryF, h, if_false]
    exact this

theorem ensureBaseDirectory_closed (w : WriterHelper) (d : GoString) (hw : Closed w) :
    ensureBaseDirectory w d = some (w.addDirs (materialized w d)) := by
  unfold ensureBaseDirectory fuelFor
  exact ensureBaseDirectoryF_closed (d.length + 1) w d hw

/-! ## The directories `ensureBaseDirectory` writes -/

theorem WriteHeader_paths (w : WriterHelper) (h : Header) : (w.WriteHeader h).paths = w.paths :=
  rfl

theorem Write_paths (w : WriterHelper) (b : Bytes) : (w.Write b).paths = w.paths := rfl

theorem ioCopy_paths (w : WriterHelper) (b : Bytes) : (w.ioCopy b).paths = w.paths := by
  unfold WriterHelper.ioCopy
  split <;> rfl

theorem addDirs_nil (w : WriterHelper) : w.addDirs [] = w := rfl

theorem addDirs_cons (w : WriterHelper) (x : GoString) (l : List GoString) :
    w.addDirs (x :: l) = (w.addDir x 0o755).addDirs l := rfl

theorem addDirs_paths (l : List GoString) :
    ∀ w : WriterHelper, (w.addDirs l).paths = l.reverse ++ w.paths := by
  induction l with
  | nil => intro w; simp [addDirs_nil]
  | cons x l ih => intro w; rw [addDirs_cons, ih, addDir_paths]; simp

theorem newDirs_good (comps : List GoString) :
    ∀ (cs known : List GoString), ClosedPaths known → ValidNames cs →
      absPath cs ∈ known → (∀ c ∈ comps, '/' ∉ c) →
      GoodChain known (newDirs comps (absPath cs) known) := by
  induction comps with
  | nil => intro cs known _ _ _ _; simp [newDirs, GoodChain]
  | cons c comps ih =>
    intro cs known hcl hv hk hc
    have hcs : '/' ∉ c := hc c (by simp)
    have hrest : ∀ x ∈ comps, '/' ∉ x := fun x hx => hc x (by simp [hx])
    have hvj : ValidNames (cleanStep true cs c) := cleanStep_true_validNames cs c hv hcs
    have hj : Join (absPath cs) c = absPath (cleanStep true cs c) := Join_absPath cs c hv hcs
    by_cases hmem : Join (absPath cs) c ∈ known
    · simp only [newDirs, hmem, if_true]
      rw [hj]
      exact ih _ known hcl hvj (hj ▸ hmem) hrest
    · rcases join_step_cases known cs c hcl hv hk hcs with h | ⟨hvc, he⟩
      · exact absurd h hmem
      · have hvs := validNames_snoc cs c hv hvc
        have hdir : Dir (absPath (cs ++ [c])) = absPath cs := Dir_absPath_snoc cs c hv hcs
        simp only [newDirs, hmem, if_false]
        rw [he] at hmem ⊢
        refine ⟨isCleanAbs_absPath _ hvs, hmem, hdir ▸ hk, ?_⟩
        exact ih (cs ++ [c]) _ (closedPaths_cons _ _ hcl (fun _ => hdir ▸ hk)) hvs
          (List.mem_cons_self _ _) hrest

theorem newDirs_final (comps : List GoString) :
    ∀ (cs known : List GoString), ValidNames cs →
      absPath cs ∈ known → (∀ c ∈ comps, '/' ∉ c) →
      absPath (comps.foldl (cleanStep true) cs) ∈ known ∨
        absPath (comps.foldl (cleanStep true) cs) ∈ newDirs comps (absPath cs) known := by
  induction comps with
  | nil => intro cs known _ hk _; left; simpa using hk
  | cons c comps ih =>
    intro cs known hv hk hc
    have hcs : '/' ∉ c := hc c (by simp)
    have hrest : ∀ x ∈ comps, '/' ∉ x := fun x hx => hc x (by simp [hx])
    have hvj : ValidNames (cleanStep true cs c) := cleanStep_true_validNames cs c hv hcs
    have hj : Join (absPath cs) c = absPath (cleanStep true cs c) := Join_absPath cs c hv hcs
    simp only [List.foldl_cons]
    by_cases hmem : Join (absPath cs) c ∈ known
    · simp only [newDirs, hmem, if_true]
      rw [hj]
      exact ih _ known hvj (hj ▸ hmem) hrest
    · simp only [newDirs, hmem, if_false]
      rw [hj]
      rcases ih (cleanStep true cs c) (absPath (cleanStep true cs c) :: known) hvj
        (List.mem_cons_self _ _) hrest with h | h
      · rcases List.mem_cons.1 h with e | e
        · right; rw [e]; exact List.mem_cons_self _ _
        · left; exact e
      · right; exact List.mem_cons_of_mem _ h

theorem materialized_good (w : WriterHelper) (d : GoString) (hw : Closed w) :
    GoodChain w.paths (materialized w d) := by
  unfold materialized
  split
  · trivial
  · exact newDirs_good (Split d) [] w.paths hw (by intro x hx; cases hx) hw.1
      (Split_noSlash_mem d)

theorem foldl_Split_absPath (cs : List GoString) (h : ValidNames cs) :
    (Split (absPath cs)).foldl (cleanStep true) [] = cs := by
  unfold absPath
  rw [Split_cons_slash]
  simp only [List.foldl_cons]
  have : cleanStep true [] [] = [] := by simp [cleanStep]
  rw [this]
  exact foldl_Split_joinSlash cs h

/-- After `ensureBaseDirectory` on a normalized absolute path the path is known. -/
theorem target_known (w : WriterHelper) (cs : List GoString) (hw : Closed w)
    (hv : ValidNames cs) :
    absPath cs ∈ (w.addDirs (materialized w (absPath cs))).paths := by
  rw [addDirs_paths]
  unfold materialized
  by_cases h : Clean (absPath cs) ∈ w.paths
  · rw [if_pos h]
    rw [Clean_absPath cs hv] at h
    simpa using h
  · rw [if_neg h]
    have := newDirs_final (Split (absPath cs)) [] w.paths (by intro x hx; cases hx) hw.1
      (Split_noSlash_mem _)
    rw [foldl_Split_absPath cs hv] at this
    rcases this with e | e
    · exact List.mem_append_right _ e
    · exact List.mem_append_left _ (List.mem_reverse.2 e)

theorem prim_closed (w w' : WriterHelper) (t : List GoString) (hw : Closed w)
    (h : Prim w t w') : Closed w' := by
  cases h with
  | implied x hp _ => exact closedPaths_cons _ _ hw hp
  | dir x perm hp => exact closedPaths_cons _ _ hw hp
  | hdr h _ => exact hw
  | data b => exact hw

theorem prims_closed (w w' : WriterHelper) (t : List GoString) (hw : Closed w)
    (h : Prims w t w') : Closed w' := by
  induction h with
  | refl => exact hw
  | tail w1 w2 t1 t2 _ hp ih => exact prim_closed w1 w2 t2 ih hp

theorem prims_trans (w w1 w2 : WriterHelper) (t1 t2 : List GoString)
    (h1 : Prims w t1 w1) (h2 : Prims w1 t2 w2) : Prims w (t1 ++ t2) w2 := by
  induction h2 with
  | refl => simpa using h1
  | tail a b ta tb _ hp ih =>
    rw [← List.append_assoc]
    exact Prims.tail w a b _ _ ih hp

theorem prims_single (w w' : WriterHelper) (t : List GoString)
    (h : Prim w t w') : Prims w t w' := by
  have := Prims.tail w w w' [] t (Prims.refl w) h
  simpa using this

theorem prims_addDirs (l : List GoString) :
    ∀ w : WriterHelper, GoodChain w.paths l → Prims w [] (w.addDirs l) := by
  induction l with
  | nil => intro w _; exact Prims.refl w
  | cons x l ih =>
    intro w hg
    obtain ⟨_, hn, hd, hrest⟩ := hg
    rw [addDirs_cons]
    have := prims_trans w _ _ [] []
      (prims_single w _ [] (Prim.implied w x (fun _ => hd) hn))
      (ih (w.addDir x 0o755) hrest)
    simpa using this

theorem prims_ensure (w : WriterHelper) (d : GoString)
    (hw : Closed w) : Prims w [] (w.addDirs (materialized w d)) :=
  prims_addDirs _ w (materialized_good w d hw)

theorem closed_ensure (w : WriterHelper) (d : GoString) (hw : Closed w) :
    Closed (w.addDirs (materialized w d)) :=
  prims_closed w _ [] hw (prims_ensure w d hw)

/-! ## The recursion bound -/

/-- Without the root among the known paths the mutual recursion of
`ensureBaseDirectory` and `WriteDirectory` on `/` does not end: no bound
suffices.  `NewWriterHelper` seeds the root for this reason. -/
theorem ensure_root_unknown_diverges (n : Nat) :
    ∀ w : WriterHelper, ['/'] ∉ w.paths → ensureBaseDirectoryF n w ['/'] = none := by
  induction n with
  | zero => intro w _; rfl
  | succ n ih =>
    intro w hw
    have hc : Clean ['/'] = ['/'] := by decide
    have hs : Split ['/'] = [[], []] := by decide
    have hj : Join ['/'] [] = ['/'] := by decide
    have hd : Dir ['/'] = ['/'] := by decide
    have hwd : WriteDirectoryWith (ensureBaseDirectoryF n) w ['/'] 0o755 = none :=
      WriteDirectoryWith_none _ w ['/'] 0o755 (by rw [hd]; exact ih w hw)
    simp [ensureBaseDirectoryF, hc, hw, hs, ensureLoop, hj, hwd]

/-- In a state whose known paths are closed under parents, every recursion
bound from 2 on gives the result of `ensureBaseDirectory`. -/
theorem ensureBaseDirectoryF_enough (n : Nat) (w : WriterHelper) (d : GoString)
    (hw : Closed w) : ensureBaseDirectoryF (n + 2) w d = ensureBaseDirectory w d := by
  rw [ensureBaseDirectoryF_closed n w d hw, ensureBaseDirectory_closed w d hw]

/-! ## Every operation is a run of effects -/

theorem WriteDirectory_closed (w : WriterHelper) (d : GoString) (perm : Nat) (hw : Closed w) :
    WriteDirectory w d perm = some ((w.addDirs (materialized w (Dir d))).addDir d perm) :=
  WriteDirectoryWith_eq ensureBaseDirectory w _ d perm (ensureBaseDirectory_closed w (Dir d) hw)

theorem WriteFileRaw_closed (w : WriterHelper) (file : GoString) (bytes : Bytes) (perm : Nat)
    (hw : Closed w) :
    WriteFileRaw w file bytes perm =
      some (((w.addDirs (materialized w (Dir file))).WriteHeader
        { Typ := EntryType.TYPE_REG, Name := file, Mode := perm, Size := bytes.length,
          Devmajor := 0, Devminor := 0 }).Write bytes) := by
  simp [WriteFileRaw, ensureBaseDirectory_closed w (Dir file) hw]

theorem WriteSymlink_closed (w : WriterHelper) (target link : GoString) (perm : Nat)
    (hw : Closed w) :
    WriteSymlink w target link perm =
      some (((w.addDirs (materialized w (Dir link))).WriteHeader
        { Typ := EntryType.TYPE_SYMLINK, Name := link, Mode := perm,
          Size := (toBytes target).length, Devmajor := 0, Devminor := 0 }).Write
            (toBytes target)) := by
  simp [WriteSymlink, ensureBaseDirectory_closed w (Dir link) hw]

theorem WriteCharDevice_closed (w : WriterHelper) (device : GoString) (major minor : Int)
    (perm : Nat) (hw : Closed w) :
    WriteCharDevice w device major minor perm =
      some ((w.addDirs (materialized w (Dir device))).WriteHeader
        { Typ := EntryType.TYPE_CHAR, Name := device, Mode := perm, Size := 0,
          Devmajor := major, Devminor := minor }) := by
  simp [WriteCharDevice, ensureBaseDirectory_closed w (Dir device) hw]

theorem CopyFileTo_closed (w : WriterHelper) (opened : Option File) (dst : GoString)
    (hw : Closed w) :
    CopyFileTo w opened dst =
      match opened with
      | none => some (w.addDirs (materialized w (Dir dst)), Outcome.panicked)
      | some f =>
        match f.stat with
        | none => some (w.addDirs (materialized w (Dir dst)), Outcome.returned true)
        | some info =>
          some (((w.addDirs (materialized w (Dir dst))).WriteHeader
            { Typ := EntryType.TYPE_REG, Name := dst, Mode := clearType info.Mode,
              Size := info.Size, Devmajor := 0, Devminor := 0 }).ioCopyFile f.content,
            Outcome.returned false) := by
  simp only [CopyFileTo, ensureBaseDirectory_closed w (Dir dst) hw]
  all_goals
    cases opened with
    | none => rfl
    | some f => cases hs : f.stat <;> simp [hs]

theorem TransformFileTo_closed (w : WriterHelper) (opened : Option File) (dst : GoString)
    (fn : Transformer) (hw : Closed w) :
    TransformFileTo w opened dst fn =
      match opened with
      | none => some (w.addDirs (materialized w (Dir dst)), Outcome.panicked)
      | some f =>
        match f.stat with
        | none => some (w.addDirs (materialized w (Dir dst)), Outcome.returned true)
        | some info =>
          some (((w.addDirs (materialized w (Dir dst))).WriteHeader
            { Typ := EntryType.TYPE_REG, Name := dst, Mode := clearType info.Mode,
              Size := (fn f.content).1.length, Devmajor := 0, Devminor := 0 }).ioCopy
                (fn f.content).1,
            Outcome.returned false) := by
  simp only [TransformFileTo, ensureBaseDirectory_closed w (Dir dst) hw]
  all_goals
    cases opened with
    | none => rfl
    | some f => cases hs : f.stat <;> simp [hs]

theorem prims_ioCopy (w : WriterHelper) (b : Bytes) :
    Prims w [] (w.ioCopy b) := by
  unfold WriterHelper.ioCopy
  split
  · exact Prims.refl w
  · exact prims_single w _ [] (Prim.data w b)

theorem prims_writeChunks (cs : List Bytes) :
    ∀ w : WriterHelper, Prims w [] (w.writeChunks cs) := by
  induction cs with
  | nil => intro w; exact Prims.refl w
  | cons c cs ih =>
    intro w
    unfold WriterHelper.writeChunks
    split
    · exact prims_single w _ [] (Prim.data w c)
    · exact prims_trans w _ _ [] [] (prims_single w _ [] (Prim.data w c)) (ih (w.Write c))

theorem prims_ioCopyFile (w : WriterHelper) (b : Bytes) :
    Prims w [] (w.ioCopyFile b) :=
  prims_writeChunks (fileChunks b) w

theorem prims_hdr_ioCopyFile (w : WriterHelper) (h : Header) (b : Bytes)
    (ht : h.Typ ≠ EntryType.TYPE_DIR) : Prims w [] ((w.WriteHeader h).ioCopyFile b) := by
  have := prims_trans w _ _ [] [] (prims_single w _ [] (Prim.hdr w h ht))
    (prims_ioCopyFile (w.WriteHeader h) b)
  simpa using this

theorem prims_hdr_data (w : WriterHelper) (h : Header) (b : Bytes)
    (ht : h.Typ ≠ EntryType.TYPE_DIR) : Prims w [] ((w.WriteHeader h).Write b) := by
  have := Prims.tail w _ _ [] [] (prims_single w _ [] (Prim.hdr w h ht)) (Prim.data _ b)
  simpa using this

theorem prims_hdr_ioCopy (w : WriterHelper) (h : Header) (b : Bytes)
    (ht : h.Typ ≠ EntryType.TYPE_DIR) : Prims w [] ((w.WriteHeader h).ioCopy b) := by
  have := prims_trans w _ _ [] [] (prims_single w _ [] (Prim.hdr w h ht))
    (prims_ioCopy (w.WriteHeader h) b)
  simpa using this

theorem dir_known_after_ensure (w : WriterHelper) (d : GoString) (hw : Closed w)
    (hd : IsCleanAbs d) : Dir d ∈ (w.addDirs (materialized w (Dir d))).paths := by
  obtain ⟨cs, hv, rfl⟩ := (isCleanAbs_iff d).1 hd
  rw [Dir_absPath cs hv]
  exact target_known w cs.dropLast hw (validNames_dropLast cs hv)

theorem prims_WriteDirectory (w w' : WriterHelper) (d : GoString)
    (perm : Nat) (hw : Closed w) (h : WriteDirectory w d perm = some w') :
    Prims w [d] w' := by
  rw [WriteDirectory_closed w d perm hw] at h
  cases h
  have := Prims.tail w _ _ [] [d] (prims_ensure w (Dir d) hw)
    (Prim.dir _ d perm (fun hc => dir_known_after_ensure w d hw hc))
  simpa using this

theorem prims_WriteFileRaw (w w' : WriterHelper) (file : GoString)
    (bytes : Bytes) (perm : Nat) (hw : Closed w) (h : WriteFileRaw w file bytes perm = some w') :
    Prims w [] w' := by
  rw [WriteFileRaw_closed w file bytes perm hw] at h
  cases h
  exact prims_trans w _ _ [] [] (prims_ensure w (Dir file) hw)
    (prims_hdr_data _ _ _ (by simp))

theorem prims_WriteSymlink (w w' : WriterHelper)
    (target link : GoString) (perm : Nat) (hw : Closed w)
    (h : WriteSymlink w target link perm = some w') : Prims w [] w' := by
  rw [WriteSymlink_closed w target link perm hw] at h
  cases h
  exact prims_trans w _ _ [] [] (prims_ensure w (Dir link) hw)
    (prims_hdr_data _ _ _ (by simp))

theorem prims_WriteCharDevice (w w' : WriterHelper)
    (device : GoString) (major minor : Int) (perm : Nat) (hw : Closed w)
    (h : WriteCharDevice w device major minor perm = some w') : Prims w [] w' := by
  rw [WriteCharDevice_closed w device major minor perm hw] at h
  cases h
  exact Prims.tail w _ _ [] [] (prims_ensure w (Dir device) hw) (Prim.hdr _ _ (by simp))

theorem prims_CopyFileTo (w w' : WriterHelper)
    (opened : Option File) (dst : GoString) (res : Outcome) (hw : Closed w)
    (h : CopyFileTo w opened dst = some (w', res)) : Prims w [] w' := by
  rw [CopyFileTo_closed w opened dst hw] at h
  have he := prims_ensure w (Dir dst) hw
  cases opened with
  | none => simp only [Option.some.injEq, Prod.mk.injEq] at h; exact h.1 ▸ he
  | some f =>
    cases hs : f.stat with
    | none => simp only [hs, Option.some.injEq, Prod.mk.injEq] at h; exact h.1 ▸ he
    | some info =>
      simp only [hs, Option.some.injEq, Prod.mk.injEq] at h
      rw [← h.1]
      exact prims_trans w _ _ [] [] he (prims_hdr_ioCopyFile _ _ f.content (by simp))

theorem prims_TransformFileTo (w w' : WriterHelper)
    (opened : Option File) (dst : GoString) (fn : Transformer) (res : Outcome) (hw : Closed w)
    (h : TransformFileTo w opened dst fn = some (w', res)) : Prims w [] w' := by
  rw [TransformFileTo_closed w opened dst fn hw] at h
  have he := prims_ensure w (Dir dst) hw
  cases opened with
  | none => simp only [Option.some.injEq, Prod.mk.injEq] at h; exact h.1 ▸ he
  | some f =>
    cases hs : f.stat with
    | none => simp only [hs, Option.some.injEq, Prod.mk.injEq] at h; exact h.1 ▸ he
    | some info =>
      simp only [hs, Option.some.injEq, Prod.mk.injEq] at h
      rw [← h.1]
      exact prims_trans w _ _ [] [] he (prims_hdr_ioCopy _ _ (fn f.content).1 (by simp))

/-! ## The tree walk is a run of effects -/

theorem walker_cases (filter : Filter) (w : WriterHelper) (p : GoString) (info : NodeInfo)
    (r : WriterHelper × Signal) (h : walker filter w p info = some r) :
    (filter p = false ∧ r.1 = w ∧ r.2 ≠ Signal.panicked ∧
        (IsDir info.Mode = true → r.2 = Signal.SkipDir)) ∨
    (filter p = true ∧ IsDir info.Mode = true ∧
        WriteDirectory w p (clearType info.Mode) = some r.1 ∧ r.2 = Signal.ok) ∨
    (filter p = true ∧ IsDir info.Mode = false ∧ IsRegular info.Mode = true ∧
        ∃ res, CopyFile w info.opened p = some (r.1, res) ∧
          r.2 = (if res = Outcome.panicked then Signal.panicked else Signal.ok)) ∨
    (filter p = true ∧ IsDir info.Mode = false ∧ IsRegular info.Mode = false ∧
        modeType info.Mode = ModeSymlink ∧
        WriteSymlink w info.link p (clearType info.Mode) = some r.1 ∧ r.2 = Signal.ok) ∨
    (filter p = true ∧ IsDir info.Mode = false ∧ IsRegular info.Mode = false ∧
        modeType info.Mode ≠ ModeSymlink ∧ r = (w, Signal.panicked)) := by
  unfold walker at h
  by_cases hf : filter p = true
  · right
    by_cases hd : IsDir info.Mode = true
    · left
      simp only [hf, hd, Bool.not_true, if_true, Bool.false_eq_true, if_false] at h
      cases hwd : WriteDirectory w p (clearType info.Mode) with
      | none => simp [hwd] at h
      | some w1 =>
        simp only [hwd, Option.some.injEq] at h
        subst h
        exact ⟨hf, hd, rfl, rfl⟩
    · right
      have hd' : IsDir info.Mode = false := by simpa using hd
      by_cases hr : IsRegular info.Mode = true
      · left
        simp only [hf, hd', hr, Bool.not_true, if_true, Bool.false_eq_true, if_false] at h
        cases hcf : CopyFile w info.opened p with
        | none => simp [hcf] at h
        | some x =>
          obtain ⟨w1, res⟩ := x
          cases res with
          | panicked =>
            simp only [hcf, Option.some.injEq] at h
            subst h
            exact ⟨hf, hd', hr, Outcome.panicked, rfl, by simp⟩
          | returned e =>
            simp only [hcf, Option.some.injEq] at h
            subst h
            exact ⟨hf, hd', hr, Outcome.returned e, rfl, by simp⟩
      · right
        have hr' : IsRegular info.Mode = false := by simpa using hr
        by_cases hs : modeType info.Mode = ModeSymlink
        · left
          simp only [hf, hd', hr', hs, Bool.not_true, if_true, Bool.false_eq_true,
            if_false] at h
          cases hwl : WriteSymlink w info.link p (clearType info.Mode) with
          | none => simp [hwl] at h
          | some w1 =>
            simp only [hwl, Option.some.injEq] at h
            subst h
            exact ⟨hf, hd', hr', hs, rfl, rfl⟩
        · right
          simp only [hf, hd', hr', hs, Bool.not_true, if_true, Bool.false_eq_true,
            if_false, Option.some.injEq] at h
          exact ⟨hf, hd', hr', hs, h.symm⟩
  · left
    have hf' : filter p = false := by simpa using hf
    simp only [hf', Bool.not_false, if_true] at h
    by_cases hd : IsDir info.Mode = true
    · simp only [hd, if_true, Option.some.injEq] at h
      subst h
      exact ⟨hf', rfl, by simp, fun _ => rfl⟩
    · have hd' : IsDir info.Mode = false := by simpa using hd
      simp only [hd', Bool.false_eq_true, if_false, Option.some.injEq] at h
      subst h
      exact ⟨hf', rfl, by simp, fun e => absurd e hd⟩

theorem prims_walker (filter : Filter) (w : WriterHelper)
    (p : GoString) (info : NodeInfo) (r : WriterHelper × Signal) (hw : Closed w)
    (h : walker filter w p info = some r) :
    Prims w (if filter p = true ∧ IsDir info.Mode = true then [p] else []) r.1 ∧
      (r.2 = Signal.ok → IsDir info.Mode = true → filter p = true) := by
  rcases walker_cases filter w p info r h with
    ⟨hf, he, _, hs⟩ | ⟨hf, hd, hwd, _⟩ | ⟨hf, hd, _, res, hcf, _⟩ | ⟨hf, hd, _, _, hwl, _⟩ |
    ⟨hf, hd, _, _, he⟩
  · refine ⟨by rw [he]; simp [hf]; exact Prims.refl w, ?_⟩
    intro hok hd
    rw [hs hd] at hok
    cases hok
  · refine ⟨?_, fun _ _ => hf⟩
    simp only [hf, hd, and_self, if_true]
    exact prims_WriteDirectory w r.1 p _ hw hwd
  · refine ⟨?_, fun _ _ => hf⟩
    simp only [hd, Bool.false_eq_true, and_false, if_false]
    exact prims_CopyFileTo w r.1 info.opened p res hw hcf
  · refine ⟨?_, fun _ _ => hf⟩
    simp only [hd, Bool.false_eq_true, and_false, if_false]
    exact prims_WriteSymlink w r.1 info.link p _ hw hwl
  · refine ⟨?_, fun _ _ => hf⟩
    simp only [hd, Bool.false_eq_true, and_false, if_false]
    rw [he]; exact Prims.refl w

theorem dirNames_append (a b : List (GoString × NodeInfo)) :
    dirNames (a ++ b) = dirNames a ++ dirNames b := by
  simp [dirNames]

theorem dirNames_visitNode (beneath : List (GoString × NodeInfo)) (filter : Filter)
    (path : GoString) (info : NodeInfo) :
    dirNames (visitNode beneath filter path info) =
      if filter path = true ∧ IsDir info.Mode = true then path :: dirNames beneath else [] := by
  unfold visitNode
  by_cases hf : filter path = true
  · by_cases hd : IsDir info.Mode = true
    · simp [hf, hd, dirNames]
    · have hd' : IsDir info.Mode = false := by simpa using hd
      simp [hf, hd', dirNames]
  · have hf' : filter path = false := by simpa using hf
    simp [hf', dirNames]

theorem traced_walkNode
    (descend : WriterHelper → Option (WriterHelper × Bool))
    (beneath : List (GoString × NodeInfo)) (filter : Filter) (path : GoString)
    (info : NodeInfo) (w : WriterHelper) (r : WriterHelper × Bool) (hw : Closed w)
    (hdesc : ∀ w1 r1, Closed w1 → descend w1 = some r1 → Traced w1 r1 (dirNames beneath))
    (h : walkNode descend filter path info w = some r) :
    Traced w r (dirNames (visitNode beneath filter path info)) := by
  unfold walkNode at h
  rw [dirNames_visitNode]
  cases hwk : walker filter w path info with
  | none => simp [hwk] at h
  | some x =>
    obtain ⟨w1, sig⟩ := x
    obtain ⟨hp, hok⟩ := prims_walker filter w path info (w1, sig) hw hwk
    have hnd : ∀ (r : WriterHelper × Bool), r.1 = w1 → sig ≠ Signal.ok ∨ IsDir info.Mode = false →
        (sig = Signal.SkipDir → filter path = false ∨ IsDir info.Mode = false) →
        Traced w r (if filter path = true ∧ IsDir info.Mode = true
          then path :: dirNames beneath else []) := by
      intro r hr hcase hskip
      by_cases hc : filter path = true ∧ IsDir info.Mode = true
      · rw [if_pos hc] at hp ⊢
        refine ⟨[path], hr ▸ hp, by simp, ?_⟩
        intro hr2
        exfalso
        rcases hcase with h1 | h1
        · rcases walker_cases filter w path info (w1, sig) hwk with
            ⟨hf, _⟩ | ⟨_, _, _, hs⟩ | ⟨_, hd, _⟩ | ⟨_, hd, _⟩ | ⟨_, hd, _⟩
          · rw [hc.1] at hf; cases hf
          · exact h1 hs
          · rw [hc.2] at hd; cases hd
          · rw [hc.2] at hd; cases hd
          · rw [hc.2] at hd; cases hd
        · rw [hc.2] at h1; cases h1
      · rw [if_neg hc] at hp ⊢
        exact ⟨[], hr ▸ hp, List.prefix_refl _, fun _ => rfl⟩
    cases sig with
    | panicked =>
      simp only [hwk, Option.some.injEq] at h
      subst h
      by_cases hc : filter path = true ∧ IsDir info.Mode = true
      · rw [if_pos hc] at hp ⊢
        exact ⟨[path], hp, by simp, fun hr2 => by cases hr2⟩
      · rw [if_neg hc] at hp ⊢
        exact ⟨[], hp, List.prefix_refl _, fun _ => rfl⟩
    | SkipDir =>
      simp only [hwk, Option.some.injEq] at h
      subst h
      exact hnd _ rfl (Or.inl (by simp)) (fun _ => by
        rcases walker_cases filter w path info (w1, Signal.SkipDir) hwk with
          ⟨hf, _⟩ | ⟨_, _, _, hs⟩ | ⟨_, hd, _⟩ | ⟨_, hd, _⟩ | ⟨_, hd, _⟩
        · exact Or.inl hf
        · cases hs
        · exact Or.inr hd
        · exact Or.inr hd
        · exact Or.inr hd)
    | ok =>
      simp only [hwk] at h
      by_cases hd : IsDir info.Mode = true
      · simp only [hd, if_true] at h
        have hf := hok rfl hd
        simp only [hf, hd, and_self, if_true] at hp ⊢
        obtain ⟨tr, hp2, hpre, hfull⟩ :=
          hdesc w1 r (prims_closed w w1 _ hw hp) h
        refine ⟨[path] ++ tr, prims_trans w w1 r.1 _ _ hp hp2, ?_, ?_⟩
        · simpa using hpre
        · intro hr; rw [hfull hr]; rfl
      · have hd' : IsDir info.Mode = false := by simpa using hd
        simp only [hd', Bool.false_eq_true, if_false, Option.some.injEq] at h
        subst h
        exact hnd _ rfl (Or.inr hd') (fun hs => by cases hs)

theorem traced_walkForest (filter : Filter) (t : Forest) :
    ∀ (path : GoString) (w : WriterHelper) (r : WriterHelper × Bool), Closed w →
      walkForest filter t path w = some r →
      Traced w r (dirNames (visitForest filter t path)) := by
  induction t with
  | nil =>
    intro path w r _ h
    simp only [walkForest, Option.some.injEq] at h
    subst h
    exact ⟨[], Prims.refl w, by simp [visitForest, dirNames], by simp [visitForest, dirNames]⟩
  | cons name info kids rest ihk ihr =>
    intro path w r hw h
    simp only [walkForest] at h
    simp only [visitForest, dirNames_append]
    cases hn : walkNode (walkForest filter kids (Join path name)) filter (Join path name)
        info w with
    | none => simp [hn] at h
    | some x =>
      obtain ⟨w1, b⟩ := x
      obtain ⟨tr1, hp1, hpre1, hfull1⟩ :=
        traced_walkNode _ (visitForest filter kids (Join path name)) filter
          (Join path name) info w (w1, b) hw
          (fun w2 r2 hw2 hd => ihk (Join path name) w2 r2 hw2 hd) hn
      cases b with
      | true =>
        simp only [hn, Option.some.injEq] at h
        subst h
        exact ⟨tr1, hp1, List.IsPrefix.trans hpre1 (List.prefix_append _ _),
          fun hr => by cases hr⟩
      | false =>
        simp only [hn] at h
        obtain ⟨tr2, hp2, hpre2, hfull2⟩ :=
          ihr path w1 r (prims_closed w w1 _ hw hp1) h
        have e1 := hfull1 rfl
        refine ⟨tr1 ++ tr2, prims_trans w w1 r.1 _ _ hp1 hp2, ?_, ?_⟩
        · rw [e1]; exact (List.prefix_append_right_inj _).2 hpre2
        · intro hr; rw [e1, hfull2 hr]

theorem traced_CopyTreeWithFilter (w : WriterHelper)
    (path : GoString) (filter : Filter) (root : NodeInfo) (kids : Forest)
    (r : WriterHelper × Bool) (hw : Closed w)
    (h : CopyTreeWithFilter w path filter root kids = some r) :
    Traced w r (dirNames (visited path filter root kids)) :=
  traced_walkNode _ (visitForest filter kids path) filter path root w r hw
    (fun w1 r1 hw1 hd => traced_walkForest filter kids path w1 r1 hw1 hd) h

theorem mem_dirNames (l : List (GoString × NodeInfo)) (d : GoString) (h : d ∈ dirNames l) :
    ∃ x ∈ l, IsDir x.2.Mode = true ∧ x.1 = d := by
  unfold dirNames at h
  obtain ⟨x, hx, he⟩ := List.mem_map.1 h
  obtain ⟨hx1, hx2⟩ := List.mem_filter.1 hx
  exact ⟨x, hx1, hx2, he⟩

theorem prims_step (allowed : GoString → Prop) (w w' : WriterHelper) (hw : Closed w)
    (h : Step allowed w w') : ∃ tr, Prims w tr w' ∧ ∀ d ∈ tr, allowed d := by
  cases h with
  | ensureBaseDirectory d h =>
    rw [ensureBaseDirectory_closed w d hw] at h
    cases h
    exact ⟨[], prims_ensure w d hw, by simp⟩
  | WriteDirectory d perm ha h =>
    exact ⟨[d], prims_WriteDirectory w w' d perm hw h, by simpa using ha⟩
  | WriteFileRaw f b perm h => exact ⟨[], prims_WriteFileRaw w w' f b perm hw h, by simp⟩
  | WriteSymlink t l perm h => exact ⟨[], prims_WriteSymlink w w' t l perm hw h, by simp⟩
  | WriteCharDevice d ma mi perm h =>
    exact ⟨[], prims_WriteCharDevice w w' d ma mi perm hw h, by simp⟩
  | CopyFileTo o d res h => exact ⟨[], prims_CopyFileTo w w' o d res hw h, by simp⟩
  | TransformFileTo o d fn res h =>
    exact ⟨[], prims_TransformFileTo w w' o d fn res hw h, by simp⟩
  | CopyTreeWithFilter p f root kids b ha h =>
    obtain ⟨tr, hp, hpre, _⟩ := traced_CopyTreeWithFilter w p f root kids (w', b) hw h
    refine ⟨tr, hp, ?_⟩
    intro d hd
    obtain ⟨x, hx, hxd, hxe⟩ := mem_dirNames _ d (hpre.subset hd)
    exact hxe ▸ ha x hx hxd

theorem closed_init (f : List Bool) : Closed (NewWriterHelper f) := by
  refine ⟨by simp [NewWriterHelper], ?_⟩
  intro p hp _
  have : p = ['/'] := by simpa [NewWriterHelper] using hp
  subst this
  have : Dir ['/'] = ['/'] := by decide
  rw [this]; simp [NewWriterHelper]

theorem reachable_prims (f : List Bool) (allowed : GoString → Prop) (w : WriterHelper)
    (h : Reachable f allowed w) :
    ∃ tr, Prims (NewWriterHelper f) tr w ∧ ∀ d ∈ tr, allowed d := by
  induction h with
  | init => exact ⟨[], Prims.refl _, by simp⟩
  | step w1 w2 _ hs ih =>
    obtain ⟨t1, hp1, ha1⟩ := ih
    obtain ⟨t2, hp2, ha2⟩ := prims_step allowed w1 w2 (prims_closed _ w1 _ (closed_init f) hp1) hs
    refine ⟨t1 ++ t2, prims_trans _ w1 w2 _ _ hp1 hp2, ?_⟩
    intro d hd
    rcases List.mem_append.1 hd with h | h
    · exact ha1 d h
    · exact ha2 d h

theorem reachable_closed (f : List Bool) (allowed : GoString → Prop) (w : WriterHelper)
    (h : Reachable f allowed w) : Closed w := by
  obtain ⟨tr, hp, _⟩ := reachable_prims f allowed w h
  exact prims_closed _ w tr (closed_init f) hp

/-! ## Every tree copy returns -/

theorem CopyFile_returns (w : WriterHelper) (opened : Option File) (p : GoString)
    (hc : Closed w) : ∃ r, CopyFile w opened p = some r := by
  unfold CopyFile
  rw [CopyFileTo_closed w opened p hc]
  cases opened with
  | none => exact ⟨_, rfl⟩
  | some f =>
    cases hs : f.stat with
    | none => simp only [hs]; exact ⟨_, rfl⟩
    | some info => simp only [hs]; exact ⟨_, rfl⟩

theorem walker_returns (filter : Filter) (w : WriterHelper) (p : GoString) (info : NodeInfo)
    (hc : Closed w) : ∃ r, walker filter w p info = some r := by
  obtain ⟨rc, hcf⟩ := CopyFile_returns w info.opened p hc
  unfold walker
  by_cases hf : filter p = true
  · by_cases hd : IsDir info.Mode = true
    · exact ⟨((w.addDirs (materialized w (Dir p))).addDir p (clearType info.Mode), Signal.ok),
        by simp [hf, hd, WriteDirectory_closed w p _ hc]⟩
    · have hd' : IsDir info.Mode = false := by simpa using hd
      by_cases hr : IsRegular info.Mode = true
      · obtain ⟨w1, res⟩ := rc
        cases res with
        | panicked => exact ⟨(w1, Signal.panicked), by simp [hf, hd', hr, hcf]⟩
        | returned e => exact ⟨(w1, Signal.ok), by simp [hf, hd', hr, hcf]⟩
      · have hr' : IsRegular info.Mode = false := by simpa using hr
        by_cases hs : modeType info.Mode = ModeSymlink
        · exact ⟨(((w.addDirs (materialized w (Dir p))).WriteHeader
              { Typ := EntryType.TYPE_SYMLINK, Name := p, Mode := clearType info.Mode,
                Size := (toBytes info.link).length, Devmajor := 0, Devminor := 0 }).Write
                  (toBytes info.link), Signal.ok),
            by simp [hf, hd', hr', hs, WriteSymlink_closed w _ p _ hc]⟩
        · exact ⟨(w, Signal.panicked), by simp [hf, hd', hr', hs]⟩
  · have hf' : filter p = false := by simpa using hf
    by_cases hd : IsDir info.Mode = true
    · exact ⟨(w, Signal.SkipDir), by simp [hf', hd]⟩
    · have hd' : IsDir info.Mode = false := by simpa using hd
      exact ⟨(w, Signal.ok), by simp [hf', hd']⟩

theorem walkNode_returns (descend : WriterHelper → Option (WriterHelper × Bool))
    (filter : Filter) (path : GoString) (info : NodeInfo) (w : WriterHelper) (hc : Closed w)
    (hdesc : ∀ w1, Closed w1 → ∃ r, descend w1 = some r) :
    ∃ r, walkNode descend filter path info w = some r := by
  obtain ⟨⟨w1, sig⟩, hwk⟩ := walker_returns filter w path info hc
  obtain ⟨hp, _⟩ := prims_walker filter w path info (w1, sig) hc hwk
  have hc1 : Closed w1 := prims_closed w w1 _ hc hp
  unfold walkNode
  cases sig with
  | panicked => exact ⟨(w1, true), by simp [hwk]⟩
  | SkipDir => exact ⟨(w1, false), by simp [hwk]⟩
  | ok =>
    by_cases hd : IsDir info.Mode = true
    · obtain ⟨r, hr⟩ := hdesc w1 hc1
      exact ⟨r, by simp [hwk, hd, hr]⟩
    · have hd' : IsDir info.Mode = false := by simpa using hd
      exact ⟨(w1, false), by simp [hwk, hd']⟩

theorem walkForest_returns (filter : Filter) (t : Forest) :
    ∀ (path : GoString) (w : WriterHelper), Closed w →
      ∃ r, walkForest filter t path w = some r := by
  induction t with
  | nil => intro path w _; exact ⟨(w, false), rfl⟩
  | cons name info kids rest ihk ihr =>
    intro path w hc
    obtain ⟨⟨w1, b⟩, hn⟩ :=
      walkNode_returns (walkForest filter kids (Join path name)) filter (Join path name)
        info w hc (fun w1 hc1 => ihk (Join path name) w1 hc1)
    obtain ⟨tr, hp, _, _⟩ :=
      traced_walkNode _ (visitForest filter kids (Join path name)) filter (Join path name)
        info w (w1, b) hc
        (fun w2 r2 hw2 hd => traced_walkForest filter kids (Join path name) w2 r2 hw2 hd) hn
    have hc1 : Closed w1 := prims_closed w w1 _ hc hp
    cases b with
    | true => exact ⟨(w1, true), by simp [walkForest, hn]⟩
    | false =>
      obtain ⟨r, hr⟩ := ihr path w1 hc1
      exact ⟨r, by simp [walkForest, hn, hr]⟩

/-- In a state whose known paths are closed under parents, a tree copy ends:
it returns or it panics. -/
theorem CopyTreeWithFilter_returns (w : WriterHelper) (path : GoString) (filter : Filter)
    (root : NodeInfo) (kids : Forest) (hc : Closed w) :
    ∃ r, CopyTreeWithFilter w path filter root kids = some r :=
  walkNode_returns _ filter path root w hc
    (fun w1 hc1 => walkForest_returns filter kids path w1 hc1)

/-! ## What the effects do to the output -/

theorem put_reliable (w : Writer) (r : Record) (h : ∀ b ∈ w.faults, b = false) :
    (w.put r).1.out = w.out ++ [r] ∧ (∀ b ∈ (w.put r).1.faults, b = false) ∧
      (w.put r).2 = false := by
  unfold Writer.put
  cases hf : w.faults with
  | nil => simp
  | cons b rest =>
    have hb : b = false := h b (by simp [hf])
    subst hb
    refine ⟨rfl, ?_, rfl⟩
    intro b hb
    exact h b (by simp [hf, hb])

theorem put_out_cases (w : Writer) (r : Record) :
    (w.put r).1.out = w.out ∨ (w.put r).1.out = w.out ++ [r] := by
  unfold Writer.put
  cases hf : w.faults with
  | nil => right; rfl
  | cons b rest => cases b <;> simp

theorem entries_append (a b : List Record) : entries (a ++ b) = entries a ++ entries b := by
  simp [entries]

theorem entries_header (h : Header) : entries [Record.header h] = [(h.Typ, h.Name)] := rfl

theorem entries_data (b : Bytes) : entries [Record.data b] = [] := rfl

theorem WriteHeader_entries_cases (w : WriterHelper) (h : Header) :
    entries (w.WriteHeader h).out = entries w.out ∨
      entries (w.WriteHeader h).out = entries w.out ++ [(h.Typ, h.Name)] := by
  rcases put_out_cases w.Writer (Record.header h) with e | e
  · left; show entries (w.Writer.put (Record.header h)).1.out = _; rw [e]; rfl
  · right
    show entries (w.Writer.put (Record.header h)).1.out = _
    rw [e, entries_append, entries_header]; rfl

theorem Write_entries (w : WriterHelper) (b : Bytes) :
    entries (w.Write b).out = entries w.out := by
  rcases put_out_cases w.Writer (Record.data b) with e | e
  · show entries (w.Writer.put (Record.data b)).1.out = _; rw [e]; rfl
  · show entries (w.Writer.put (Record.data b)).1.out = _
    rw [e, entries_append, entries_data]; simp; rfl

theorem ioCopy_entries (w : WriterHelper) (b : Bytes) :
    entries (w.ioCopy b).out = entries w.out := by
  unfold WriterHelper.ioCopy
  split
  · rfl
  · exact Write_entries w b

theorem writeChunks_entries (cs : List Bytes) :
    ∀ w : WriterHelper, entries (w.writeChunks cs).out = entries w.out := by
  induction cs with
  | nil => intro w; rfl
  | cons c cs ih =>
    intro w
    unfold WriterHelper.writeChunks
    split
    · exact Write_entries w c
    · rw [ih (w.Write c), Write_entries]

theorem ioCopyFile_entries (w : WriterHelper) (b : Bytes) :
    entries (w.ioCopyFile b).out = entries w.out :=
  writeChunks_entries (fileChunks b) w

theorem addDir_entries_cases (w : WriterHelper) (x : GoString) (perm : Nat) :
    entries (w.addDir x perm).out = entries w.out ∨
      entries (w.addDir x perm).out = entries w.out ++ [(EntryType.TYPE_DIR, x)] :=
  WriteHeader_entries_cases w (dirHeader x perm)

theorem WriteHeader_reliable (w : WriterHelper) (h : Header) (hr : Reliable w) :
    (w.WriteHeader h).out = w.out ++ [Record.header h] ∧ Reliable (w.WriteHeader h) :=
  ⟨(put_reliable w.Writer _ hr).1, (put_reliable w.Writer _ hr).2.1⟩

theorem Write_reliable (w : WriterHelper) (b : Bytes) (hr : Reliable w) :
    (w.Write b).out = w.out ++ [Record.data b] ∧ Reliable (w.Write b) :=
  ⟨(put_reliable w.Writer _ hr).1, (put_reliable w.Writer _ hr).2.1⟩

theorem addDir_reliable (w : WriterHelper) (x : GoString) (perm : Nat) (hr : Reliable w) :
    (w.addDir x perm).out = w.out ++ [Record.header (dirHeader x perm)] ∧
      Reliable (w.addDir x perm) :=
  WriteHeader_reliable w (dirHeader x perm) hr

theorem ioCopy_reliable (w : WriterHelper) (b : Bytes) (hr : Reliable w) :
    (w.ioCopy b).out = w.out ++ (if b = [] then [] else [Record.data b]) ∧
      Reliable (w.ioCopy b) := by
  unfold WriterHelper.ioCopy
  by_cases hb : b = []
  · simp [hb, hr]
  · simp only [hb, if_false]
    exact Write_reliable w b hr

theorem writeChunks_reliable (cs : List Bytes) :
    ∀ w : WriterHelper, Reliable w →
      (w.writeChunks cs).out = w.out ++ cs.map Record.data ∧ Reliable (w.writeChunks cs) := by
  induction cs with
  | nil => intro w hr; simp [WriterHelper.writeChunks, hr]
  | cons c cs ih =>
    intro w hr
    obtain ⟨h1, h2⟩ := Write_reliable w c hr
    obtain ⟨h3, h4⟩ := ih (w.Write c) h2
    have hput : (w.Writer.put (Record.data c)).2 = false := (put_reliable w.Writer _ hr).2.2
    unfold WriterHelper.writeChunks
    rw [hput]
    simp only [Bool.false_eq_true, if_false]
    exact ⟨by rw [h3, h1]; simp, h4⟩

theorem copyChunks_flatten (fuel : Nat) :
    ∀ b : Bytes, b.length ≤ fuel → (copyChunks fuel b).flatten = b := by
  induction fuel with
  | zero =>
    intro b hb
    have : b = [] := List.length_eq_zero.1 (Nat.le_zero.1 hb)
    subst this; rfl
  | succ n ih =>
    intro b hb
    unfold copyChunks
    by_cases he : b = []
    · simp [he]
    · rw [if_neg he, List.flatten_cons, ih (b.drop 32768)]
      · exact List.take_append_drop 32768 b
      · have hpos : 0 < b.length := List.length_pos.2 he
        rw [List.length_drop]
        omega

theorem fileChunks_flatten (b : Bytes) : (fileChunks b).flatten = b :=
  copyChunks_flatten b.length b (Nat.le_refl _)

theorem ioCopyFile_reliable (w : WriterHelper) (b : Bytes) (hr : Reliable w) :
    (w.ioCopyFile b).out = w.out ++ (fileChunks b).map Record.data ∧
      Reliable (w.ioCopyFile b) :=
  writeChunks_reliable (fileChunks b) w hr

theorem addDirs_reliable (l : List GoString) :
    ∀ w : WriterHelper, Reliable w →
      (w.addDirs l).out = w.out ++ l.map (fun x => Record.header (dirHeader x 0o755)) ∧
        Reliable (w.addDirs l) := by
  induction l with
  | nil => intro w hr; simp [addDirs_nil, hr]
  | cons x l ih =>
    intro w hr
    obtain ⟨h1, h2⟩ := addDir_reliable w x 0o755 hr
    obtain ⟨h3, h4⟩ := ih _ h2
    rw [addDirs_cons]
    exact ⟨by rw [h3, h1]; simp, h4⟩

theorem prim_reliable (w w' : WriterHelper) (t : List GoString) (hr : Reliable w)
    (h : Prim w t w') : Reliable w' := by
  cases h with
  | implied x _ _ => exact (addDir_reliable w x _ hr).2
  | dir x perm _ => exact (addDir_reliable w x perm hr).2
  | hdr h _ => exact (WriteHeader_reliable w h hr).2
  | data b => exact (Write_reliable w b hr).2

theorem prims_reliable (w w' : WriterHelper) (t : List GoString) (hr : Reliable w)
    (h : Prims w t w') : Reliable w' := by
  induction h with
  | refl => exact hr
  | tail w1 w2 t1 t2 _ hp ih => exact prim_reliable w1 w2 t2 ih hp

theorem prim_paths_subset (w w' : WriterHelper) (t : List GoString) (h : Prim w t w') :
    w.paths ⊆ w'.paths := by
  cases h with
  | implied x _ _ => intro p hp; exact List.mem_cons_of_mem _ hp
  | dir x perm _ => intro p hp; exact List.mem_cons_of_mem _ hp
  | hdr h _ => exact fun p hp => hp
  | data b => exact fun p hp => hp

theorem prims_paths_subset (w w' : WriterHelper) (t : List GoString) (h : Prims w t w') :
    w.paths ⊆ w'.paths := by
  induction h with
  | refl => exact fun p hp => hp
  | tail w1 w2 t1 t2 _ hp ih => exact fun p hm => prim_paths_subset w1 w2 t2 hp (ih hm)

/-! ## Invariants of the runs of effects -/

theorem prim_sound (w w' : WriterHelper) (t : List GoString) (hs : Sound w)
    (h : Prim w t w') : Sound w' := by
  have key : ∀ (x : GoString) (perm : Nat), Sound (w.addDir x perm) := by
    intro x perm p hp
    rw [addDir_paths]
    rcases addDir_entries_cases w x perm with e | e
    · rw [e] at hp; exact List.mem_cons_of_mem _ (hs p hp)
    · rw [e] at hp
      rcases List.mem_append.1 hp with h1 | h1
      · exact List.mem_cons_of_mem _ (hs p h1)
      · have : p = x := by simpa using h1
        rw [this]; exact List.mem_cons_self _ _
  cases h with
  | implied x _ _ => exact key x _
  | dir x perm _ => exact key x perm
  | hdr h ht =>
    intro p hp
    rw [WriteHeader_paths]
    rcases WriteHeader_entries_cases w h with e | e
    · rw [e] at hp; exact hs p hp
    · rw [e] at hp
      rcases List.mem_append.1 hp with h1 | h1
      · exact hs p h1
      · have : EntryType.TYPE_DIR = h.Typ := by
          have := List.mem_singleton.1 h1
          exact (Prod.mk.inj this).1
        exact absurd this.symm ht
  | data b =>
    intro p hp
    rw [Write_entries] at hp
    exact hs p hp

theorem prims_sound (w w' : WriterHelper) (t : List GoString) (hs : Sound w)
    (h : Prims w t w') : Sound w' := by
  induction h with
  | refl => exact hs
  | tail w1 w2 t1 t2 _ hp ih => exact prim_sound w1 w2 t2 ih hp

theorem entries_mono_prim (w w' : WriterHelper) (t : List GoString) (h : Prim w t w') :
    List.Sublist (entries w.out) (entries w'.out) := by
  have key : ∀ (h : Header), List.Sublist (entries w.out) (entries (w.WriteHeader h).out) := by
    intro h
    rcases WriteHeader_entries_cases w h with e | e
    · rw [e]
    · rw [e]; exact List.sublist_append_left _ _
  cases h with
  | implied x _ _ => exact key _
  | dir x perm _ => exact key _
  | hdr h _ => exact key h
  | data b => rw [Write_entries]

theorem prim_logged (w w' : WriterHelper) (t : List GoString) (hr : Reliable w)
    (hl : Logged w) (h : Prim w t w') : Logged w' := by
  have hsub := (entries_mono_prim w w' t h).subset
  have key : ∀ (x : GoString) (perm : Nat), w' = w.addDir x perm → Logged w' := by
    intro x perm e p hp hne
    rw [e, addDir_paths] at hp
    rcases List.mem_cons.1 hp with h1 | h1
    · rw [e, (addDir_reliable w x perm hr).1, entries_append, entries_header, h1]
      simp [dirHeader]
    · exact hsub (hl p h1 hne)
  cases h with
  | implied x _ _ => exact key x _ rfl
  | dir x perm _ => exact key x perm rfl
  | hdr h _ => exact fun p hp hne => hsub (hl p hp hne)
  | data b => exact fun p hp hne => hsub (hl p hp hne)

theorem prims_logged (w w' : WriterHelper) (t : List GoString) (hr : Reliable w)
    (hl : Logged w) (h : Prims w t w') : Logged w' := by
  induction h with
  | refl => exact hl
  | tail w1 w2 t1 t2 hp1 hp ih => exact prim_logged w1 w2 t2 (prims_reliable _ _ _ hr hp1) ih hp

theorem chainFrom_snoc (cs : List GoString) :
    ∀ (pre : List GoString) (c : GoString),
      chainFrom pre (cs ++ [c]) = chainFrom pre cs ++ [absPath (pre ++ cs ++ [c])] := by
  induction cs with
  | nil => intro pre c; simp [chainFrom]
  | cons a cs ih =>
    intro pre c
    have h1 : chainFrom pre (a :: cs ++ [c]) =
        absPath (pre ++ [a]) :: chainFrom (pre ++ [a]) (cs ++ [c]) := rfl
    have h2 : chainFrom pre (a :: cs) = absPath (pre ++ [a]) :: chainFrom (pre ++ [a]) cs := rfl
    rw [h1, h2, ih (pre ++ [a]) c]
    simp

theorem prim_ordered (w w' : WriterHelper) (t : List GoString) (hr : Reliable w)
    (ho : Ordered w) (h : Prim w t w') : Ordered w' := by
  have hsub := entries_mono_prim w w' t h
  have key : ∀ (x : GoString) (perm : Nat), (IsCleanAbs x → Dir x ∈ w.paths) →
      w' = w.addDir x perm → Ordered w' := by
    intro x perm hpar e cs hv hk
    rw [e, addDir_paths] at hk
    rcases List.mem_cons.1 hk with h1 | h1
    · rcases List.eq_nil_or_concat cs with hn | ⟨init, c, hc⟩
      · subst hn; simp [chainFrom]
      · rw [List.concat_eq_append] at hc
        subst hc
        have hvi : ValidNames init := fun y hy => hv y (by simp [hy])
        have hcs : '/' ∉ c := (hv c (by simp)).2.2.2
        have hd : Dir x ∈ w.paths := hpar (h1 ▸ isCleanAbs_absPath _ hv)
        rw [← h1, Dir_absPath_snoc init c hvi hcs] at hd
        have hi := ho init hvi hd
        rw [e, (addDir_reliable w x perm hr).1, entries_append, entries_header,
          chainFrom_snoc, List.map_append]
        simp only [List.nil_append, List.map_cons, List.map_nil, dirHeader]
        rw [h1]
        exact List.Sublist.append hi (List.Sublist.refl _)
    · exact (ho cs hv h1).trans hsub
  cases h with
  | implied x hp _ => exact key x _ hp rfl
  | dir x perm hp => exact key x perm hp rfl
  | hdr h _ => exact fun cs hv hk => (ho cs hv hk).trans hsub
  | data b => exact fun cs hv hk => (ho cs hv hk).trans hsub

theorem prims_ordered (w w' : WriterHelper) (t : List GoString) (hr : Reliable w)
    (ho : Ordered w) (h : Prims w t w') : Ordered w' := by
  induction h with
  | refl => exact ho
  | tail w1 w2 t1 t2 hp1 hp ih => exact prim_ordered w1 w2 t2 (prims_reliable _ _ _ hr hp1) ih hp

theorem mem_entries_iff (out : List Record) (t : EntryType) (n : GoString) :
    (t, n) ∈ entries out ↔ ∃ h, Record.header h ∈ out ∧ h.Typ = t ∧ h.Name = n := by
  unfold entries
  rw [List.mem_filterMap]
  constructor
  · rintro ⟨r, hr, he⟩
    cases r with
    | header h =>
      simp only [Option.some.injEq, Prod.mk.injEq] at he
      exact ⟨h, hr, he.1, he.2⟩
    | data b => simp at he
  · rintro ⟨h, hr, h1, h2⟩
    exact ⟨Record.header h, hr, by simp [h1, h2]⟩

theorem hasDirHeader_iff (out : List Record) (p : GoString) :
    HasDirHeader out p ↔ (EntryType.TYPE_DIR, p) ∈ entries out :=
  (mem_entries_iff out EntryType.TYPE_DIR p).symm

theorem absPath_inj (cs cs' : List GoString) (h : ValidNames cs) (h' : ValidNames cs')
    (e : absPath cs = absPath cs') : cs = cs' := by
  have := congrArg (fun p => (Split p).foldl (cleanStep true) []) e
  simpa [foldl_Split_absPath cs h, foldl_Split_absPath cs' h'] using this

theorem prim_dirCount (D : GoString) (w w' : WriterHelper) (t : List GoString)
    (hD : D ∈ w.paths) (h : Prim w t w') :
    dirCount D w'.out ≤ dirCount D w.out + occurrences D t ∧
      (Reliable w → dirCount D w'.out = dirCount D w.out + occurrences D t) := by
  unfold dirCount occurrences
  cases h with
  | implied x _ hn =>
    have hne : x ≠ D := fun e => hn (e ▸ hD)
    rcases addDir_entries_cases w x 0o755 with e | e
    · rw [e]; simp
    · rw [e, List.countP_append]; simp [hne]
  | dir x perm _ =>
    have hc : List.countP (fun e => decide (e = (EntryType.TYPE_DIR, D)))
        [(EntryType.TYPE_DIR, x)] = List.countP (fun y => decide (y = D)) [x] := by
      by_cases hx : x = D
      · simp [hx]
      · simp [hx]
    constructor
    · rcases addDir_entries_cases w x perm with e | e
      · rw [e]; omega
      · rw [e, List.countP_append, hc]
    · intro hr
      rw [(addDir_reliable w x perm hr).1, entries_append, entries_header, List.countP_append]
      simp only [dirHeader]
      rw [hc]
  | hdr h ht =>
    have hc : List.countP (fun e => decide (e = (EntryType.TYPE_DIR, D)))
        [(h.Typ, h.Name)] = 0 := by
      have : ¬ ((h.Typ, h.Name) = (EntryType.TYPE_DIR, D)) := fun e => ht (Prod.mk.inj e).1
      simp [this]
    rcases WriteHeader_entries_cases w h with e | e
    · rw [e]; simp
    · rw [e, List.countP_append, hc]; simp
  | data b => rw [Write_entries]; simp

theorem prims_dirCount (D : GoString) (w w' : WriterHelper) (t : List GoString)
    (hD : D ∈ w.paths) (h : Prims w t w') :
    dirCount D w'.out ≤ dirCount D w.out + occurrences D t ∧
      (Reliable w → dirCount D w'.out = dirCount D w.out + occurrences D t) := by
  induction h with
  | refl => simp [occurrences]
  | tail w1 w2 t1 t2 hp1 hp ih =>
    obtain ⟨h1, h2⟩ := prim_dirCount D w1 w2 t2 (prims_paths_subset _ _ _ hp1 hD) hp
    have ha : occurrences D (t1 ++ t2) = occurrences D t1 + occurrences D t2 := by
      simp [occurrences, List.countP_append]
    rw [ha]
    constructor
    · omega
    · intro hr
      rw [h2 (prims_reliable _ _ _ hr hp1), ih.2 hr]
      omega

theorem dirCount_eq_zero (D : GoString) (out : List Record) :
    dirCount D out = 0 ↔ ¬ HasDirHeader out D := by
  rw [hasDirHeader_iff]
  unfold dirCount
  rw [List.countP_eq_zero]
  constructor
  · intro h hm
    exact absurd (h _ hm) (by simp)
  · intro h a ha
    simp only [decide_eq_true_eq]
    intro e
    exact h (e ▸ ha)

theorem occurrences_eq_zero (D : GoString) (l : List GoString) :
    occurrences D l = 0 ↔ D ∉ l := by
  unfold occurrences
  rw [List.countP_eq_zero]
  constructor
  · intro h hm
    exact absurd (h _ hm) (by simp)
  · intro h a ha
    simp only [decide_eq_true_eq]
    intro e
    exact h (e ▸ ha)

theorem inits_eq_cons_tail (l : List GoString) : l.inits = [] :: l.inits.tail := by
  cases l <;> simp [List.inits]

theorem chainFrom_eq_inits (l : List GoString) :
    ∀ pre : List GoString,
      (l.inits.tail).map (fun s => absPath (pre ++ s)) = chainFrom pre l := by
  induction l with
  | nil => intro pre; simp [List.inits, chainFrom]
  | cons a l ih =>
    intro pre
    have h1 : (a :: l).inits.tail = (l.inits).map (List.cons a) := by simp [List.inits]
    rw [h1, inits_eq_cons_tail l]
    simp only [List.map_cons, List.map_map, chainFrom]
    congr 1
    rw [← ih (pre ++ [a])]
    apply List.map_congr_left
    intro s _
    simp

theorem ancestors_absPath (cs : List GoString) (hv : ValidNames cs) :
    ancestors (absPath cs) = chainFrom [] cs.dropLast := by
  unfold ancestors
  have ht : (Split (absPath cs)).tail.dropLast = cs.dropLast := by
    unfold absPath
    rw [Split_cons_slash]
    cases cs with
    | nil => simp [joinSlash, Split]
    | cons a as =>
      rw [Split_joinSlash _ (fun c hc => (hv c hc).2.2.2) (by simp)]
      rfl
  rw [ht, ← chainFrom_eq_inits cs.dropLast []]
  simp

theorem init_sound (f : List Bool) : Sound (NewWriterHelper f) := by
  intro p hp
  simp [NewWriterHelper, NewWriter, WriterHelper.out, entries] at hp

theorem init_logged (f : List Bool) : Logged (NewWriterHelper f) := by
  intro p hp hne
  have : p = ['/'] := by simpa [NewWriterHelper] using hp
  exact absurd this hne

theorem init_ordered (f : List Bool) : Ordered (NewWriterHelper f) := by
  intro cs hv hk
  have hk' : absPath cs = absPath [] := by simpa [NewWriterHelper, absPath, joinSlash] using hk
  have : cs = [] := absPath_inj cs [] hv (by intro x hx; cases hx) hk'
  subst this
  simp [chainFrom]

theorem init_reliable (f : List Bool) (hf : ∀ b ∈ f, b = false) : Reliable (NewWriterHelper f) :=
  hf

theorem reachable_reliable (f : List Bool) (allowed : GoString → Prop) (w : WriterHelper)
    (hf : ∀ b ∈ f, b = false) (h : Reachable f allowed w) : Reliable w := by
  obtain ⟨tr, hp, _⟩ := reachable_prims f allowed w h
  exact prims_reliable _ w tr (init_reliable f hf) hp

theorem reachable_sound (f : List Bool) (allowed : GoString → Prop) (w : WriterHelper)
    (h : Reachable f allowed w) : Sound w := by
  obtain ⟨tr, hp, _⟩ := reachable_prims f allowed w h
  exact prims_sound _ w tr (init_sound f) hp

theorem reachable_logged (f : List Bool) (allowed : GoString → Prop) (w : WriterHelper)
    (hf : ∀ b ∈ f, b = false) (h : Reachable f allowed w) : Logged w := by
  obtain ⟨tr, hp, _⟩ := reachable_prims f allowed w h
  exact prims_logged _ w tr (init_reliable f hf) (init_logged f) hp

theorem reachable_ordered (f : List Bool) (allowed : GoString → Prop) (w : WriterHelper)
    (hf : ∀ b ∈ f, b = false) (h : Reachable f allowed w) : Ordered w := by
  obtain ⟨tr, hp, _⟩ := reachable_prims f allowed w h
  exact prims_ordered _ w tr (init_reliable f hf) (init_ordered f) hp

/-- After the parent chain of a normalized absolute path is in place, the
directory headers of its ancestors are in the output in order. -/
theorem ancestors_in_place (w : WriterHelper) (P : GoString) (hc : Closed w)
    (hr : Reliable w) (ho : Ordered w) (hP : IsCleanAbs P) :
    Reliable (w.addDirs (materialized w (Dir P))) ∧
      List.Sublist ((ancestors P).map fun a => (EntryType.TYPE_DIR, a))
        (entries (w.addDirs (materialized w (Dir P))).out) := by
  have hp := prims_ensure w (Dir P) hc
  have hr1 := prims_reliable _ _ _ hr hp
  have ho1 := prims_ordered _ _ _ hr ho hp
  obtain ⟨cs, hv, rfl⟩ := (isCleanAbs_iff P).1 hP
  have hk := dir_known_after_ensure w (absPath cs) hc hP
  rw [Dir_absPath cs hv] at hk hr1 ho1 ⊢
  rw [ancestors_absPath cs hv]
  exact ⟨hr1, ho1 cs.dropLast (validNames_dropLast cs hv) hk⟩

/-! ## Exactly which directories `ensureBaseDirectory` writes -/

theorem collectors_covered (comps : List GoString) :
    ∀ (col : GoString) (known : List GoString),
      ∀ x ∈ collectors comps col, x ∈ known ∨ x ∈ newDirs comps col known := by
  induction comps with
  | nil => intro col known x hx; cases hx
  | cons c comps ih =>
    intro col known x hx
    simp only [collectors] at hx
    by_cases hmem : Join col c ∈ known
    · simp only [newDirs, hmem, if_true]
      rcases List.mem_cons.1 hx with e | e
      · left; rw [e]; exact hmem
      · exact ih _ known x e
    · simp only [newDirs, hmem, if_false]
      rcases List.mem_cons.1 hx with e | e
      · right; rw [e]; exact List.mem_cons_self _ _
      · rcases ih _ (Join col c :: known) x e with h | h
        · rcases List.mem_cons.1 h with e1 | e1
          · right; rw [e1]; exact List.mem_cons_self _ _
          · left; exact e1
        · right; exact List.mem_cons_of_mem _ h

theorem newDirs_nil_of_known (comps : List GoString) :
    ∀ (col : GoString) (known : List GoString),
      (∀ x ∈ collectors comps col, x ∈ known) → newDirs comps col known = [] := by
  induction comps with
  | nil => intro col known _; rfl
  | cons c comps ih =>
    intro col known h
    have hmem : Join col c ∈ known := h _ (by simp [collectors])
    simp only [newDirs, hmem, if_true]
    exact ih _ known (fun x hx => h x (by simp [collectors, hx]))

/-- A second `ensureBaseDirectory` on the same argument writes nothing. -/
theorem materialized_again (w : WriterHelper) (d : GoString) :
    materialized (w.addDirs (materialized w d)) d = [] := by
  by_cases h : Clean d ∈ w.paths
  · have : materialized w d = [] := by simp [materialized, h]
    rw [this, addDirs_nil, this]
  · unfold materialized
    rw [if_neg h]
    split
    · rfl
    · apply newDirs_nil_of_known
      intro x hx
      rw [addDirs_paths]
      rcases collectors_covered (Split d) ['/'] w.paths x hx with e | e
      · exact List.mem_append_right _ e
      · exact List.mem_append_left _ (List.mem_reverse.2 e)

theorem goodChain_nodup (l : List GoString) :
    ∀ known : List GoString, GoodChain known l → l.Nodup ∧ ∀ y ∈ l, y ∉ known := by
  induction l with
  | nil => intro known _; simp
  | cons x l ih =>
    intro known hg
    obtain ⟨_, hn, _, hrest⟩ := hg
    obtain ⟨hnd, hnot⟩ := ih (x :: known) hrest
    refine ⟨List.nodup_cons.2 ⟨?_, hnd⟩, ?_⟩
    · intro hx
      exact hnot x hx (List.mem_cons_self _ _)
    · intro y hy
      rcases List.mem_cons.1 hy with e | e
      · rw [e]; exact hn
      · exact fun hk => hnot y e (List.mem_cons_of_mem _ hk)

theorem mem_chainFrom (comps : List GoString) :
    ∀ (pre : List GoString) (q : GoString), q ∈ chainFrom pre comps →
      ∃ s, s ≠ [] ∧ s <+: comps ∧ q = absPath (pre ++ s) := by
  induction comps with
  | nil => intro pre q hq; cases hq
  | cons c comps ih =>
    intro pre q hq
    simp only [chainFrom] at hq
    rcases List.mem_cons.1 hq with e | e
    · exact ⟨[c], by simp, by simp, e⟩
    · obtain ⟨s, _, hpre, he⟩ := ih (pre ++ [c]) q e
      refine ⟨c :: s, by simp, ?_, by simpa using he⟩
      exact (List.prefix_cons_inj c).2 hpre

theorem chainFrom_ne (pre comps : List GoString) (hv : ValidNames (pre ++ comps))
    (q : GoString) (hq : q ∈ chainFrom pre comps) : q ≠ absPath pre := by
  obtain ⟨s, hne, hpre, he⟩ := mem_chainFrom comps pre q hq
  intro e
  have hvs : ValidNames (pre ++ s) := by
    intro x hx
    rcases List.mem_append.1 hx with h | h
    · exact hv x (List.mem_append_left _ h)
    · exact hv x (List.mem_append_right _ (hpre.subset h))
  have hvp : ValidNames pre := fun x hx => hv x (List.mem_append_left _ hx)
  have := absPath_inj _ _ hvs hvp (he ▸ e)
  have : s = [] := by simpa using this
  exact hne this

theorem newDirs_eq_filter (comps : List GoString) :
    ∀ (pre known : List GoString), ValidNames (pre ++ comps) →
      newDirs comps (absPath pre) known =
        (chainFrom pre comps).filter (fun q => decide (q ∉ known)) := by
  induction comps with
  | nil => intro pre known _; rfl
  | cons c comps ih =>
    intro pre known hv
    have hvp : ValidNames pre := fun x hx => hv x (List.mem_append_left _ hx)
    have hvc : ValidName c := hv c (by simp)
    have hj : Join (absPath pre) c = absPath (pre ++ [c]) := by
      rw [Join_absPath pre c hvp hvc.2.2.2, cleanStep_valid pre c hvc]
    have hv' : ValidNames ((pre ++ [c]) ++ comps) := by simpa using hv
    by_cases hmem : absPath (pre ++ [c]) ∈ known
    · simp only [newDirs, hj, hmem, if_true, chainFrom, List.filter_cons, not_true_eq_false,
        decide_False, Bool.false_eq_true, if_false]
      exact ih (pre ++ [c]) known hv'
    · simp only [newDirs, hj, hmem, if_false, chainFrom, List.filter_cons, not_false_eq_true,
        decide_True, if_true]
      congr 1
      rw [ih (pre ++ [c]) _ hv']
      apply List.filter_congr
      intro q hq
      have hne := chainFrom_ne (pre ++ [c]) comps hv' q hq
      simp [hne]

theorem newDirs_Split_absPath (cs known : List GoString) (hv : ValidNames cs)
    (hroot : ['/'] ∈ known) :
    newDirs (Split (absPath cs)) ['/'] known =
      (chainFrom [] cs).filter (fun q => decide (q ∉ known)) := by
  have hj : Join ['/'] [] = ['/'] := by decide
  unfold absPath
  rw [Split_cons_slash]
  simp only [newDirs, hj, hroot, if_true]
  cases cs with
  | nil => simp [joinSlash, Split, newDirs, hj, hroot, chainFrom]
  | cons a as =>
    rw [Split_joinSlash _ (fun c hc => (hv c hc).2.2.2) (by simp)]
    exact newDirs_eq_filter (a :: as) [] known (by simpa using hv)

theorem materialized_fresh (f : List Bool) (cs : List GoString) (hv : ValidNames cs) :
    materialized (NewWriterHelper f) (absPath cs) = chainFrom [] cs := by
  unfold materialized
  rw [Clean_absPath cs hv]
  have hp : (NewWriterHelper f).paths = [['/']] := rfl
  rw [hp]
  by_cases h : absPath cs ∈ [['/']]
  · rw [if_pos h]
    have : absPath cs = absPath [] := by simpa [absPath, joinSlash] using h
    have : cs = [] := absPath_inj cs [] hv (by intro x hx; cases hx) this
    subst this; rfl
  · rw [if_neg h, newDirs_Split_absPath cs _ hv (by simp)]
    apply List.filter_eq_self.2
    intro q hq
    have := chainFrom_ne [] cs (by simpa using hv) q hq
    simpa [absPath, joinSlash] using this

/-! ## The claims -/

/-- C1, as the code has it (ancestor-before-descendant ordering).  In every
builder state reached from `NewWriterHelper` on a sink that rejects no write,
and for every normalized absolute path `P`, each of `WriteDirectory`,
`WriteFileRaw`, `WriteSymlink` and `WriteCharDevice` returns, the header it
writes for `P` is the last header of the output, and the directory headers of
all proper ancestors of `P` other than the root occur before it, the shallower
before the deeper. -/
theorem ancestor_headers_precede_entry (f : List Bool) (w : WriterHelper) (P : GoString)
    (hf : ∀ b ∈ f, b = false) (hw : Reachable f anyName w) (hP : IsCleanAbs P) :
    (∀ perm, ∃ w', WriteDirectory w P perm = some w' ∧
        PrecededByAncestors w'.out EntryType.TYPE_DIR P) ∧
    (∀ bytes perm, ∃ w', WriteFileRaw w P bytes perm = some w' ∧
        PrecededByAncestors w'.out EntryType.TYPE_REG P) ∧
    (∀ target perm, ∃ w', WriteSymlink w target P perm = some w' ∧
        PrecededByAncestors w'.out EntryType.TYPE_SYMLINK P) ∧
    (∀ major minor perm, ∃ w', WriteCharDevice w P major minor perm = some w' ∧
        PrecededByAncestors w'.out EntryType.TYPE_CHAR P) := by
  have hc := reachable_closed f anyName w hw
  have hr := reachable_reliable f anyName w hf hw
  have ho := reachable_ordered f anyName w hf hw
  obtain ⟨hr1, hsub⟩ := ancestors_in_place w P hc hr ho hP
  refine ⟨?_, ?_, ?_, ?_⟩
  · intro perm
    refine ⟨_, WriteDirectory_closed w P perm hc, _, ?_, hsub⟩
    rw [(addDir_reliable _ P perm hr1).1, entries_append, entries_header]
    rfl
  · intro bytes perm
    refine ⟨_, WriteFileRaw_closed w P bytes perm hc, _, ?_, hsub⟩
    rw [Write_entries, (WriteHeader_reliable _ _ hr1).1, entries_append, entries_header]
  · intro target perm
    refine ⟨_, WriteSymlink_closed w target P perm hc, _, ?_, hsub⟩
    rw [Write_entries, (WriteHeader_reliable _ _ hr1).1, entries_append, entries_header]
  · intro major minor perm
    refine ⟨_, WriteCharDevice_closed w P major minor perm hc, _, ?_, hsub⟩
    rw [(WriteHeader_reliable _ _ hr1).1, entries_append, entries_header]

/-- C1 at `/a/b/c` on a fresh builder: the hypotheses hold there. -/
theorem ancestor_headers_precede_entry_witness :
    IsCleanAbs "/a/b/c".toList ∧ Reachable [] anyName (NewWriterHelper []) ∧
      ancestors "/a/b/c".toList = ["/a".toList, "/a/b".toList] ∧
      ∃ w', WriteFileRaw (NewWriterHelper []) "/a/b/c".toList [] 0o644 = some w' ∧
        PrecededByAncestors w'.out EntryType.TYPE_REG "/a/b/c".toList :=
  ⟨by decide, Reachable.init, by decide,
    (ancestor_headers_precede_entry [] (NewWriterHelper []) "/a/b/c".toList
      (by simp) Reachable.init (by decide)).2.1 [] 0o644⟩

/-- C1 as stated fails when the sink rejects a write: on a sink that rejects the
first write, `WriteFileRaw("/a/b", "", 0644)` on a fresh builder leaves the
header of `/a/b` in the output with no directory header for `/a` before it
(`WriteDirectory` has no error result and marks `/a` known all the same). -/
theorem ancestor_missing_on_rejecting_sink :
    (WriteFileRaw (NewWriterHelper [true]) "/a/b".toList [] 0o644).map WriterHelper.out =
      some [Record.header
          { Typ := EntryType.TYPE_REG, Name := "/a/b".toList, Mode := 0o644, Size := 0,
            Devmajor := 0, Devminor := 0 },
        Record.data []] := by
  decide

/-- C5, as the code has it.  In every builder state reached from
`NewWriterHelper` (on any sink) by operations none of which is asked to write
the directory `/` itself (no `WriteDirectory("/")`, no tree copy that visits
an accepted directory node at the path `/`), the output holds no directory
header named `/`: the parent chains written by `ensureBaseDirectory` never
contain the root. -/
theorem root_written_only_on_request (f : List Bool) (w : WriterHelper)
    (hw : Reachable f (fun d => d ≠ ['/']) w) : ¬ HasDirHeader w.out ['/'] := by
  obtain ⟨tr, hp, ha⟩ := reachable_prims f _ w hw
  have hD : ['/'] ∈ (NewWriterHelper f).paths := (closed_init f).1
  have hle := (prims_dirCount ['/'] _ w tr hD hp).1
  have h0 : dirCount ['/'] (NewWriterHelper f).out = 0 := rfl
  have ht : occurrences ['/'] tr = 0 :=
    (occurrences_eq_zero _ _).2 (fun hm => ha _ hm rfl)
  rw [← dirCount_eq_zero]
  omega

/-- C5 after `WriteFile("/etc/hostname", ...)` on a fresh builder. -/
theorem root_written_only_on_request_witness :
    ∃ w, WriteFile (NewWriterHelper []) "/etc/hostname".toList "box\n".toList 0o644 = some w ∧
      Reachable [] (fun d => d ≠ ['/']) w ∧ ¬ HasDirHeader w.out ['/'] := by
  have h : WriteFile (NewWriterHelper []) "/etc/hostname".toList "box\n".toList 0o644 =
      some (((NewWriterHelper []).addDirs ["/etc".toList]).WriteHeader
        { Typ := EntryType.TYPE_REG, Name := "/etc/hostname".toList, Mode := 0o644, Size := 4,
          Devmajor := 0, Devminor := 0 } |>.Write (toBytes "box\n".toList)) := by decide
  have hr : Reachable [] (fun d => d ≠ ['/']) _ :=
    Reachable.step _ _ Reachable.init (Step.WriteFileRaw _ _ _ _ _ h)
  exact ⟨_, h, hr, root_written_only_on_request [] _ hr⟩

/-- C5 as stated fails: `WriteDirectory("/", 0755)` on a fresh builder writes
a directory header named `/`. -/
theorem root_header_counterexample :
    (WriteDirectory (NewWriterHelper []) ['/'] 0o755).map WriterHelper.out =
      some [Record.header
        { Typ := EntryType.TYPE_DIR, Name := ['/'], Mode := 0o755, Size := 0,
          Devmajor := 0, Devminor := 0 }] := by
  decide

/-- C8, as the code has it.  In every builder state reached from
`NewWriterHelper` on a sink that rejects no write, a path other than the root
`/` is in `w.paths` if and only if a directory header with that name is in
the output, every directory header of the output names a member of `w.paths`,
and no operation removes a member. -/
theorem known_iff_written (f : List Bool) (w : WriterHelper)
    (hf : ∀ b ∈ f, b = false) (hw : Reachable f anyName w) :
    (∀ p, p ≠ ['/'] → (p ∈ w.paths ↔ HasDirHeader w.out p)) ∧
    (∀ p, HasDirHeader w.out p → p ∈ w.paths) ∧
    (∀ w', Step anyName w w' → ∀ p ∈ w.paths, p ∈ w'.paths) := by
  have hs := reachable_sound f anyName w hw
  have hl := reachable_logged f anyName w hf hw
  refine ⟨?_, ?_, ?_⟩
  · intro p hne
    rw [hasDirHeader_iff]
    exact ⟨fun hp => hl p hp hne, fun hh => hs p hh⟩
  · intro p hh
    exact hs p ((hasDirHeader_iff _ _).1 hh)
  · intro w' hstep p hp
    obtain ⟨tr, hpr, _⟩ := prims_step anyName w w' (reachable_closed f anyName w hw) hstep
    exact prims_paths_subset w w' tr hpr hp

/-- C8 after `WriteFile("/etc/hostname", "box\n", 0644)` on a fresh builder:
`/etc` is known and has its directory header, `/etc/hostname` is neither known
nor has one. -/
theorem known_iff_written_witness :
    ∃ w, WriteFile (NewWriterHelper []) "/etc/hostname".toList "box\n".toList 0o644 = some w ∧
      Reachable [] anyName w ∧
      "/etc".toList ∈ w.paths ∧ HasDirHeader w.out "/etc".toList ∧
      "/etc/hostname".toList ∉ w.paths ∧ ¬ HasDirHeader w.out "/etc/hostname".toList := by
  have h : WriteFile (NewWriterHelper []) "/etc/hostname".toList "box\n".toList 0o644 =
      some (((NewWriterHelper []).addDirs ["/etc".toList]).WriteHeader
        { Typ := EntryType.TYPE_REG, Name := "/etc/hostname".toList, Mode := 0o644, Size := 4,
          Devmajor := 0, Devminor := 0 } |>.Write (toBytes "box\n".toList)) := by decide
  have hr : Reachable [] anyName _ :=
    Reachable.step _ _ Reachable.init (Step.WriteFileRaw _ _ _ _ _ h)
  have key := (known_iff_written [] _ (by simp) hr).1
  have h1 : "/etc".toList ∈ (((NewWriterHelper []).addDirs ["/etc".toList]).WriteHeader
        { Typ := EntryType.TYPE_REG, Name := "/etc/hostname".toList, Mode := 0o644, Size := 4,
          Devmajor := 0, Devminor := 0 } |>.Write (toBytes "box\n".toList)).paths := by decide
  have h2 : "/etc/hostname".toList ∉ (((NewWriterHelper []).addDirs ["/etc".toList]).WriteHeader
        { Typ := EntryType.TYPE_REG, Name := "/etc/hostname".toList, Mode := 0o644, Size := 4,
          Devmajor := 0, Devminor := 0 } |>.Write (toBytes "box\n".toList)).paths := by decide
  exact ⟨_, h, hr, h1, (key _ (by decide)).1 h1, h2,
    fun hh => h2 ((key _ (by decide)).2 hh)⟩

/-- C8 as stated fails on the fresh builder: the root is a member of `w.paths`
and no directory header has been written. -/
theorem root_known_without_header :
    ['/'] ∈ (NewWriterHelper []).paths ∧ (NewWriterHelper []).out = [] := by
  decide

theorem entries_dirHeaders (l : List GoString) :
    entries (l.map fun x => Record.header (dirHeader x 0o755)) =
      l.map fun x => (EntryType.TYPE_DIR, x) := by
  induction l with
  | nil => rfl
  | cons x l ih =>
    have : entries (Record.header (dirHeader x 0o755) ::
        l.map fun x => Record.header (dirHeader x 0o755)) =
        (EntryType.TYPE_DIR, x) ::
          entries (l.map fun x => Record.header (dirHeader x 0o755)) := rfl
    rw [List.map_cons, this, ih]; rfl

theorem countP_eq_one_of_nodup {α : Type} [DecidableEq α] (l : List α) (a : α)
    (hnd : l.Nodup) (hm : a ∈ l) : l.countP (fun x => decide (x = a)) = 1 := by
  induction l with
  | nil => cases hm
  | cons x l ih =>
    obtain ⟨hx, hl⟩ := List.nodup_cons.1 hnd
    by_cases e : x = a
    · subst e
      have h0 : l.countP (fun y => decide (y = x)) = 0 := by
        rw [List.countP_eq_zero]
        intro y hy
        simp only [decide_eq_true_eq]
        intro e
        exact hx (e ▸ hy)
      simp [List.countP_cons, h0]
    · have hm' : a ∈ l := by
        rcases List.mem_cons.1 hm with h | h
        · exact absurd h.symm e
        · exact h
      simp [List.countP_cons, e, ih hl hm']

/-- C9, as the code has it (exact output of a single file write on a fresh
builder).  On a sink that rejects no write, `NewWriterHelper` followed by
`WriteFile(P, c, m)` for a normalized absolute path `P` returns, and the
output is exactly: one directory header with mode `0755` and size 0 for each
proper ancestor of `P` other than the root, from the root downwards, then the
regular-file header named `P` with mode `m` and `Size` the byte length of `c`,
then the payload `c`. -/
theorem writeFile_fresh_output (f : List Bool) (P c : GoString) (m : Nat)
    (hf : ∀ b ∈ f, b = false) (hP : IsCleanAbs P) :
    (WriteFile (NewWriterHelper f) P c m).map WriterHelper.out =
      some ((ancestors P).map (fun a => Record.header
          { Typ := EntryType.TYPE_DIR, Name := a, Mode := 0o755, Size := 0,
            Devmajor := 0, Devminor := 0 }) ++
        [Record.header
          { Typ := EntryType.TYPE_REG, Name := P, Mode := m, Size := (toBytes c).length,
            Devmajor := 0, Devminor := 0 },
         Record.data (toBytes c)]) := by
  obtain ⟨cs, hv, rfl⟩ := (isCleanAbs_iff P).1 hP
  unfold WriteFile
  rw [WriteFileRaw_closed _ _ _ _ (closed_init f), Dir_absPath cs hv,
    materialized_fresh f cs.dropLast (validNames_dropLast cs hv), ancestors_absPath cs hv]
  obtain ⟨h1, h2⟩ := addDirs_reliable (chainFrom [] cs.dropLast) (NewWriterHelper f)
    (init_reliable f hf)
  obtain ⟨h3, h4⟩ := WriteHeader_reliable _
    { Typ := EntryType.TYPE_REG, Name := absPath cs, Mode := m, Size := (toBytes c).length,
      Devmajor := 0, Devminor := 0 } h2
  have h5 := (Write_reliable _ (toBytes c) h4).1
  simp only [Option.map_some', h5, h3, h1]
  have h0 : (NewWriterHelper f).out = [] := rfl
  rw [h0]
  simp [dirHeader]

/-- C9 at `WriteFile("/etc/hostname", "box\n", 0644)`: directory `/etc` with
mode `0755`, then the regular file `/etc/hostname` with mode `0644` and size 4,
then its four bytes, and nothing else. -/
theorem writeFile_fresh_output_witness :
    IsCleanAbs "/etc/hostname".toList ∧
    (WriteFile (NewWriterHelper []) "/etc/hostname".toList "box\n".toList 0o644).map
        WriterHelper.out =
      some [Record.header
          { Typ := EntryType.TYPE_DIR, Name := "/etc".toList, Mode := 0o755, Size := 0,
            Devmajor := 0, Devminor := 0 },
        Record.header
          { Typ := EntryType.TYPE_REG, Name := "/etc/hostname".toList, Mode := 0o644,
            Size := 4, Devmajor := 0, Devminor := 0 },
        Record.data [98, 111, 120, 10]] := by
  refine ⟨by decide, ?_⟩
  rw [writeFile_fresh_output [] "/etc/hostname".toList "box\n".toList 0o644 (by simp)
    (by decide)]
  decide

/-- C9 as stated fails when the sink rejects a write: on a sink that rejects the
first write, `WriteFile("/etc/hostname", "box\n", 0644)` on a fresh builder
yields only the file header and its payload, without the directory header of
`/etc`. -/
theorem writeFile_output_on_rejecting_sink :
    (WriteFile (NewWriterHelper [true]) "/etc/hostname".toList "box\n".toList 0o644).map
        WriterHelper.out =
      some [Record.header
          { Typ := EntryType.TYPE_REG, Name := "/etc/hostname".toList, Mode := 0o644,
            Size := 4, Devmajor := 0, Devminor := 0 },
        Record.data [98, 111, 120, 10]] := by
  decide

/-- C2, as the code has it.  In every builder state reached from
`NewWriterHelper` and for every path `P`, `ensureBaseDirectory(P)` returns,
and a second call right after it returns the same state: it appends no header
and does not change the known paths.  When the sink rejects no write and `P`
is a normalized absolute path that was not known, the output after the calls
holds exactly one directory header named `P`. -/
theorem ensure_twice (f : List Bool) (w : WriterHelper) (P : GoString)
    (hw : Reachable f anyName w) :
    ∃ w1, ensureBaseDirectory w P = some w1 ∧ ensureBaseDirectory w1 P = some w1 ∧
      ((∀ b ∈ f, b = false) → IsCleanAbs P → P ∉ w.paths → dirCount P w1.out = 1) := by
  have hc := reachable_closed f anyName w hw
  have hc1 := closed_ensure w P hc
  refine ⟨_, ensureBaseDirectory_closed w P hc, ?_, ?_⟩
  · rw [ensureBaseDirectory_closed _ P hc1, materialized_again, addDirs_nil]
  · intro hf hP hn
    have hr := reachable_reliable f anyName w hf hw
    have hs := reachable_sound f anyName w hw
    obtain ⟨cs, hv, rfl⟩ := (isCleanAbs_iff P).1 hP
    have hk := target_known w cs hc hv
    rw [addDirs_paths] at hk
    have hmem : absPath cs ∈ materialized w (absPath cs) := by
      rcases List.mem_append.1 hk with h | h
      · exact List.mem_reverse.1 h
      · exact absurd h hn
    have hnd := (goodChain_nodup _ _ (materialized_good w (absPath cs) hc)).1
    have h0 : dirCount (absPath cs) w.out = 0 :=
      (dirCount_eq_zero _ _).2 (fun hm => hn (hs _ ((hasDirHeader_iff _ _).1 hm)))
    have h1 : List.countP (fun e => decide (e = (EntryType.TYPE_DIR, absPath cs)))
        ((materialized w (absPath cs)).map fun x => (EntryType.TYPE_DIR, x)) = 1 := by
      exact countP_eq_one_of_nodup _ _
        (hnd.map (fun a b e => (Prod.mk.inj e).2)) (List.mem_map.2 ⟨_, hmem, rfl⟩)
    unfold dirCount at h0 ⊢
    rw [(addDirs_reliable _ w hr).1, entries_append, List.countP_append, entries_dirHeaders,
      h0, h1]

/-- C2 at `/a/b` on a fresh builder. -/
theorem ensure_twice_witness :
    Reachable [] anyName (NewWriterHelper []) ∧
      ∃ w1, ensureBaseDirectory (NewWriterHelper []) "/a/b".toList = some w1 ∧
        ensureBaseDirectory w1 "/a/b".toList = some w1 ∧ dirCount "/a/b".toList w1.out = 1 := by
  obtain ⟨w1, h1, h2, h3⟩ :=
    ensure_twice [] (NewWriterHelper []) "/a/b".toList Reachable.init
  exact ⟨Reachable.init, w1, h1, h2, h3 (by simp) (by decide) (by decide)⟩

/-- C2 as stated fails for the root: two calls of `ensureBaseDirectory("/")` on
a fresh builder leave the output empty, so there is no directory entry for
`/` rather than exactly one. -/
theorem ensure_twice_root_counterexample :
    ((ensureBaseDirectory (NewWriterHelper []) ['/']).bind
        fun w => ensureBaseDirectory w ['/']).map WriterHelper.out = some [] := by
  decide

/-- C10 as stated fails for an argument in which `..` follows a real element:
`ensureBaseDirectory("/a/../b")` on a fresh builder writes a directory header
for `/a`, which is neither `path.Clean("/a/../b")`, that is `/b`, nor one of
its ancestors; the loop runs over the components of the argument as given, not
of the cleaned path. -/
theorem ensure_unclean_writes_detour :
    Clean "/a/../b".toList = "/b".toList ∧
    (ensureBaseDirectory (NewWriterHelper []) "/a/../b".toList).map WriterHelper.out =
      some [Record.header
          { Typ := EntryType.TYPE_DIR, Name := "/a".toList, Mode := 0o755, Size := 0,
            Devmajor := 0, Devminor := 0 },
        Record.header
          { Typ := EntryType.TYPE_DIR, Name := "/b".toList, Mode := 0o755, Size := 0,
            Devmajor := 0, Devminor := 0 }] := by
  decide

/-- C4 fails on the code: with a transformer that writes two bytes and then
returns an error, `TransformFileTo` on a fresh builder returns a nil error and
has written a regular-file header for the destination with the two bytes as
payload; the result of `fn` is dropped. -/
theorem transform_error_ignored :
    TransformFileTo (NewWriterHelper [])
        (some { stat := some { Mode := 0o644, Size := 3 }, content := [31, 139, 8] })
        "/x".toList (fun _ => ([7, 7], true)) =
      some ({ paths := [['/']],
              Writer :=
                { out := [Record.header
                      { Typ := EntryType.TYPE_REG, Name := "/x".toList, Mode := 0o644,
                        Size := 2, Devmajor := 0, Devminor := 0 },
                    Record.data [7, 7]],
                  faults := [] } },
        Outcome.returned false) := by
  decide

theorem occurrences_le_of_prefix (D : GoString) (a b : List GoString) (h : a <+: b) :
    occurrences D a ≤ occurrences D b := by
  obtain ⟨t, rfl⟩ := h
  simp [occurrences, List.countP_append]

/-- C3, as the code has it.  In a builder state reached from `NewWriterHelper`
in which a directory header named `D` has been written, a tree copy ends
(it returns or panics), and the directory headers named `D` it appends are at
most one for every accepted directory node at the path `D` that the walk
visits: the parent chains it materializes never repeat `D`, while the
directory nodes of the tree are written whether known or not.  When the sink
rejects no write and the walk does not panic, it appends exactly one for every
such node. -/
theorem copyTree_rewrites_visited_directories (f : List Bool) (w : WriterHelper)
    (D path : GoString) (filter : Filter) (root : NodeInfo) (kids : Forest)
    (hw : Reachable f anyName w) (hD : HasDirHeader w.out D) :
    ∃ w' panicked, CopyTreeWithFilter w path filter root kids = some (w', panicked) ∧
      dirCount D w'.out ≤
        dirCount D w.out + occurrences D (dirNames (visited path filter root kids)) ∧
      ((∀ b ∈ f, b = false) → panicked = false →
        dirCount D w'.out =
          dirCount D w.out + occurrences D (dirNames (visited path filter root kids))) := by
  have hc := reachable_closed f anyName w hw
  have hk : D ∈ w.paths := reachable_sound f anyName w hw D ((hasDirHeader_iff _ _).1 hD)
  obtain ⟨⟨w', panicked⟩, h⟩ := CopyTreeWithFilter_returns w path filter root kids hc
  obtain ⟨tr, hp, hpre, hfull⟩ :=
    traced_CopyTreeWithFilter w path filter root kids (w', panicked) hc h
  obtain ⟨h1, h2⟩ := prims_dirCount D w w' tr hk hp
  refine ⟨w', panicked, h, ?_, ?_⟩
  · have := occurrences_le_of_prefix D _ _ hpre
    omega
  · intro hf hb
    rw [← hfull hb]
    exact h2 (reachable_reliable f anyName w hf hw)

/-- C3 after `WriteDirectory("/x", 0755)`, copying the tree `/x/{sub}` with
`sub` a directory: the copy returns and the output then holds two directory
headers named `/x`, the one written before and the one of the visited root. -/
theorem copyTree_rewrites_visited_directories_witness :
    ∃ w, WriteDirectory (NewWriterHelper []) "/x".toList 0o755 = some w ∧
      Reachable [] anyName w ∧ HasDirHeader w.out "/x".toList ∧
      ∃ w', CopyTree w "/x".toList { Mode := ModeDir ||| 0o755, opened := none, link := [] }
          (Forest.cons "sub".toList
            { Mode := ModeDir ||| 0o700, opened := none, link := [] }
            Forest.nil Forest.nil) = some (w', false) ∧
        dirCount "/x".toList w'.out = 2 := by
  have h1 : WriteDirectory (NewWriterHelper []) "/x".toList 0o755 =
      some ((NewWriterHelper []).addDir "/x".toList 0o755) := by decide
  have hr : Reachable [] anyName ((NewWriterHelper []).addDir "/x".toList 0o755) :=
    Reachable.step _ _ Reachable.init (Step.WriteDirectory _ _ _ _ trivial h1)
  have hd : HasDirHeader ((NewWriterHelper []).addDir "/x".toList 0o755).out "/x".toList :=
    ⟨dirHeader "/x".toList 0o755, by decide, rfl, rfl⟩
  obtain ⟨w', b, h2, _, h4⟩ :=
    copyTree_rewrites_visited_directories [] _ "/x".toList "/x".toList All
      { Mode := ModeDir ||| 0o755, opened := none, link := [] }
      (Forest.cons "sub".toList
        { Mode := ModeDir ||| 0o700, opened := none, link := [] }
        Forest.nil Forest.nil) hr hd
  have h5 : (CopyTreeWithFilter ((NewWriterHelper []).addDir "/x".toList 0o755) "/x".toList All
      { Mode := ModeDir ||| 0o755, opened := none, link := [] }
      (Forest.cons "sub".toList
        { Mode := ModeDir ||| 0o700, opened := none, link := [] }
        Forest.nil Forest.nil)).map Prod.snd = some false := by decide
  have hb : b = false := by
    rw [h2] at h5
    simpa using h5
  subst hb
  refine ⟨_, h1, hr, hd, w', h2, ?_⟩
  rw [h4 (by simp) rfl]
  decide

/-- C3 as stated fails: after `WriteDirectory("/x", 0755)` on a fresh builder,
`CopyTree("/x")` over a tree whose root `/x` is a directory writes a second
directory header named `/x`. -/
theorem copyTree_duplicates_directory :
    ((WriteDirectory (NewWriterHelper []) "/x".toList 0o755).bind fun w =>
      (CopyTree w "/x".toList { Mode := ModeDir ||| 0o755, opened := none, link := [] }
        Forest.nil).map fun r => r.1.out) =
      some [Record.header
          { Typ := EntryType.TYPE_DIR, Name := "/x".toList, Mode := 0o755, Size := 0,
            Devmajor := 0, Devminor := 0 },
        Record.header
          { Typ := EntryType.TYPE_DIR, Name := "/x".toList, Mode := 0o755, Size := 0,
            Devmajor := 0, Devminor := 0 }] := by
  decide

theorem entryWritten_of (w w1 : WriterHelper) (l : List GoString) (h : Header)
    (tail : List Bytes) (payload : Bytes)
    (h1 : w1.out = w.out ++ l.map (fun x => Record.header (dirHeader x 0o755)))
    (after : List Record) (h2 : after = w1.out ++ Record.header h :: tail.map Record.data)
    (ht : tail.flatten = payload) (hs : payload.length = h.Size) :
    EntryWritten w.out after h payload :=
  ⟨l, tail, by rw [h2, h1], ht, hs⟩

/-- C7, as the code has it.  `WriteDirectory`, `WriteFileRaw`, `WriteSymlink`
and `WriteCharDevice` have no error result, so they cannot report a write the
sink rejects.  In every builder state reached from `NewWriterHelper` on a sink
that rejects no write, each of the six entry writers returns and has written,
after the headers of the missing parent directories, its header followed by a
complete payload of exactly the length the header's `Size` declares;
`CopyFileTo` (when `Stat` succeeds and reports the length of the file) and
`TransformFileTo` (when `Stat` succeeds and `fn` returns no error) then return
a nil error. -/
theorem entry_complete_on_accepting_sink (f : List Bool) (w : WriterHelper)
    (hf : ∀ b ∈ f, b = false) (hw : Reachable f anyName w) :
    (∀ d perm, ∃ w', WriteDirectory w d perm = some w' ∧
      EntryWritten w.out w'.out
        { Typ := EntryType.TYPE_DIR, Name := d, Mode := perm, Size := 0,
          Devmajor := 0, Devminor := 0 } []) ∧
    (∀ file bytes perm, ∃ w', WriteFileRaw w file bytes perm = some w' ∧
      EntryWritten w.out w'.out
        { Typ := EntryType.TYPE_REG, Name := file, Mode := perm, Size := bytes.length,
          Devmajor := 0, Devminor := 0 } bytes) ∧
    (∀ target link perm, ∃ w', WriteSymlink w target link perm = some w' ∧
      EntryWritten w.out w'.out
        { Typ := EntryType.TYPE_SYMLINK, Name := link, Mode := perm,
          Size := (toBytes target).length, Devmajor := 0, Devminor := 0 }
        (toBytes target)) ∧
    (∀ device major minor perm, ∃ w', WriteCharDevice w device major minor perm = some w' ∧
      EntryWritten w.out w'.out
        { Typ := EntryType.TYPE_CHAR, Name := device, Mode := perm, Size := 0,
          Devmajor := major, Devminor := minor } []) ∧
    (∀ file info dst, file.stat = some info → info.Size = file.content.length →
      ∃ w', CopyFileTo w (some file) dst = some (w', Outcome.returned false) ∧
        EntryWritten w.out w'.out
          { Typ := EntryType.TYPE_REG, Name := dst, Mode := clearType info.Mode,
            Size := info.Size, Devmajor := 0, Devminor := 0 } file.content) ∧
    (∀ file info dst fn, file.stat = some info → (fn file.content).2 = false →
      ∃ w', TransformFileTo w (some file) dst fn = some (w', Outcome.returned false) ∧
        EntryWritten w.out w'.out
          { Typ := EntryType.TYPE_REG, Name := dst, Mode := clearType info.Mode,
            Size := (fn file.content).1.length, Devmajor := 0, Devminor := 0 }
          (fn file.content).1) := by
  have hc := reachable_closed f anyName w hw
  have hr := reachable_reliable f anyName w hf hw
  have key : ∀ d : GoString,
      (w.addDirs (materialized w (Dir d))).out =
          w.out ++ (materialized w (Dir d)).map (fun x => Record.header (dirHeader x 0o755)) ∧
        Reliable (w.addDirs (materialized w (Dir d))) :=
    fun d => addDirs_reliable _ w hr
  refine ⟨?_, ?_, ?_, ?_, ?_, ?_⟩
  · intro d perm
    refine ⟨_, WriteDirectory_closed w d perm hc, ?_⟩
    exact entryWritten_of w _ _ _ [] [] (key d).1 _
      (addDir_reliable _ d perm (key d).2).1 rfl rfl
  · intro file bytes perm
    refine ⟨_, WriteFileRaw_closed w file bytes perm hc, ?_⟩
    obtain ⟨h3, h4⟩ := WriteHeader_reliable _
      { Typ := EntryType.TYPE_REG, Name := file, Mode := perm, Size := bytes.length,
        Devmajor := 0, Devminor := 0 } (key file).2
    refine entryWritten_of w _ _ _ [bytes] bytes (key file).1 _ ?_ (by simp) rfl
    rw [(Write_reliable _ bytes h4).1, h3]; simp
  · intro target link perm
    refine ⟨_, WriteSymlink_closed w target link perm hc, ?_⟩
    obtain ⟨h3, h4⟩ := WriteHeader_reliable _
      { Typ := EntryType.TYPE_SYMLINK, Name := link, Mode := perm,
        Size := (toBytes target).length, Devmajor := 0, Devminor := 0 } (key link).2
    refine entryWritten_of w _ _ _ [toBytes target] (toBytes target)
      (key link).1 _ ?_ (by simp) rfl
    rw [(Write_reliable _ _ h4).1, h3]; simp
  · intro device major minor perm
    refine ⟨_, WriteCharDevice_closed w device major minor perm hc, ?_⟩
    exact entryWritten_of w _ _ _ [] [] (key device).1 _
      (WriteHeader_reliable _ _ (key device).2).1 rfl rfl
  · intro file info dst hs hsize
    rw [CopyFileTo_closed w (some file) dst hc]
    simp only [hs]
    refine ⟨_, rfl, ?_⟩
    obtain ⟨h3, h4⟩ := WriteHeader_reliable _
      { Typ := EntryType.TYPE_REG, Name := dst, Mode := clearType info.Mode,
        Size := info.Size, Devmajor := 0, Devminor := 0 } (key dst).2
    have h5 := (ioCopyFile_reliable _ file.content h4).1
    refine entryWritten_of w _ _ _ (fileChunks file.content) file.content (key dst).1 _ ?_
      (fileChunks_flatten file.content) hsize.symm
    rw [h5, h3]; simp
  · intro file info dst fn hs _
    rw [TransformFileTo_closed w (some file) dst fn hc]
    simp only [hs]
    refine ⟨_, rfl, ?_⟩
    obtain ⟨h3, h4⟩ := WriteHeader_reliable _
      { Typ := EntryType.TYPE_REG, Name := dst, Mode := clearType info.Mode,
        Size := (fn file.content).1.length, Devmajor := 0, Devminor := 0 } (key dst).2
    have h5 := (ioCopy_reliable _ (fn file.content).1 h4).1
    by_cases hb : (fn file.content).1 = []
    · refine entryWritten_of w _ _ _ [] (fn file.content).1 (key dst).1 _ ?_
        (by simp [hb]) rfl
      rw [h5, h3]; simp [hb]
    · refine entryWritten_of w _ _ _ [(fn file.content).1] (fn file.content).1
        (key dst).1 _ ?_ (by simp) rfl
      rw [h5, h3]; simp [hb]

/-- C7 on a fresh builder with an accepting sink: `WriteFileRaw("/etc/motd",
"hi", 0644)`, `CopyFileTo` of a two-byte file whose `Stat` reports two bytes,
and `TransformFileTo` of it with `NullDecompressor`. -/
theorem entry_complete_on_accepting_sink_witness :
    Reachable [] anyName (NewWriterHelper []) ∧
      (∃ w', WriteFileRaw (NewWriterHelper []) "/etc/motd".toList [104, 105] 0o644 = some w' ∧
        EntryWritten (NewWriterHelper []).out w'.out
          { Typ := EntryType.TYPE_REG, Name := "/etc/motd".toList, Mode := 0o644, Size := 2,
            Devmajor := 0, Devminor := 0 } [104, 105]) ∧
      (∃ w', CopyFileTo (NewWriterHelper [])
          (some { stat := some { Mode := 0o644, Size := 2 }, content := [104, 105] })
          "/etc/motd".toList = some (w', Outcome.returned false) ∧
        EntryWritten (NewWriterHelper []).out w'.out
          { Typ := EntryType.TYPE_REG, Name := "/etc/motd".toList, Mode := 0o644, Size := 2,
            Devmajor := 0, Devminor := 0 } [104, 105]) ∧
      (∃ w', TransformFileTo (NewWriterHelper [])
          (some { stat := some { Mode := 0o644, Size := 2 }, content := [104, 105] })
          "/etc/motd".toList NullDecompressor = some (w', Outcome.returned false) ∧
        EntryWritten (NewWriterHelper []).out w'.out
          { Typ := EntryType.TYPE_REG, Name := "/etc/motd".toList, Mode := 0o644, Size := 2,
            Devmajor := 0, Devminor := 0 } [104, 105]) :=
  ⟨Reachable.init,
    (entry_complete_on_accepting_sink [] (NewWriterHelper []) (by simp)
      Reachable.init).2.1 "/etc/motd".toList [104, 105] 0o644,
    (entry_complete_on_accepting_sink [] (NewWriterHelper []) (by simp)
      Reachable.init).2.2.2.2.1
        { stat := some { Mode := 0o644, Size := 2 }, content := [104, 105] }
        { Mode := 0o644, Size := 2 } "/etc/motd".toList rfl rfl,
    (entry_complete_on_accepting_sink [] (NewWriterHelper []) (by simp)
      Reachable.init).2.2.2.2.2
        { stat := some { Mode := 0o644, Size := 2 }, content := [104, 105] }
        { Mode := 0o644, Size := 2 } "/etc/motd".toList NullDecompressor rfl rfl⟩

/-- C7 as stated fails: on a sink that accepts the header and rejects the
payload, `WriteFileRaw("/f", "hi", 0644)` on a fresh builder returns to its
caller as always (it has no error result), and the output holds the header
with `Size` 2 and no payload. -/
theorem sink_rejection_not_reported :
    WriteFileRaw (NewWriterHelper [false, true]) "/f".toList [104, 105] 0o644 =
      some { paths := [['/']],
             Writer :=
               { out := [Record.header
                     { Typ := EntryType.TYPE_REG, Name := "/f".toList, Mode := 0o644,
                       Size := 2, Devmajor := 0, Devminor := 0 }],
                 faults := [] } } := by
  decide

/-! ## `ensureBaseDirectory` on an argument without a backtracking `..` -/

theorem Join_root (d : GoString) :
    Join ['/'] d = absPath ((Split d).foldl (cleanStep true) []) := by
  have h1 : Join ['/'] d = Clean ('/' :: '/' :: d) := by simp [Join]
  rw [h1, Clean_rooted, Split_cons_slash]
  simp [absPath, cleanStep]

theorem replicate_snoc (k : Nat) (x : GoString) :
    List.replicate k x ++ [x] = List.replicate (k + 1) x := by
  induction k with
  | zero => rfl
  | succ n ih => simp [List.replicate_succ, ih]

theorem getLast?_replicate_append (k : Nat) (names : List GoString) (hn : names ≠ []) :
    (List.replicate k ['.', '.'] ++ names).getLast? = names.getLast? := by
  rw [List.getLast?_append]
  cases h : names.getLast? with
  | none => exact absurd (List.getLast?_eq_none_iff.1 h) hn
  | some a => simp

theorem cleanStep_false_shape (k : Nat) (names : List GoString) (c : GoString)
    (hv : ValidNames names) (hc : '/' ∉ c) :
    ∃ k' names', cleanStep false (List.replicate k ['.', '.'] ++ names) c =
        List.replicate k' ['.', '.'] ++ names' ∧ ValidNames names' := by
  unfold cleanStep
  by_cases h1 : c = []
  · exact ⟨k, names, by simp [h1], hv⟩
  · by_cases h2 : c = ['.']
    · exact ⟨k, names, by simp [h2], hv⟩
    · by_cases h3 : c = ['.', '.']
      · subst h3
        rcases List.eq_nil_or_concat names with hn | ⟨init, a, hn⟩
        · subst hn
          cases k with
          | zero => exact ⟨1, [], by simp, by intro x hx; cases hx⟩
          | succ n =>
            refine ⟨n + 2, [], ?_, by intro x hx; cases hx⟩
            have hl : (List.replicate (n + 1) ['.', '.']).getLast? = some ['.', '.'] := by
              rw [← replicate_snoc]; simp
            simp only [List.append_nil, hl]
            simp [replicate_snoc]
        · rw [List.concat_eq_append] at hn
          subst hn
          have ha : ValidName a := hv a (by simp)
          have hl : (List.replicate k ['.', '.'] ++ (init ++ [a])).getLast? = some a := by
            rw [← List.append_assoc]; simp
          refine ⟨k, init, ?_, fun x hx => hv x (by simp [hx])⟩
          simp only [hl]
          have hne : a ≠ ['.', '.'] := ha.2.2.1
          simp [hne, ← List.append_assoc]
      · refine ⟨k, names ++ [c], by simp [h1, h2, h3], ?_⟩
        exact validNames_snoc names c hv ⟨h1, h2, h3, hc⟩

theorem foldl_cleanStep_false_shape (comps : List GoString) :
    ∀ (k : Nat) (names : List GoString), ValidNames names → (∀ c ∈ comps, '/' ∉ c) →
      ∃ k' names', comps.foldl (cleanStep false) (List.replicate k ['.', '.'] ++ names) =
          List.replicate k' ['.', '.'] ++ names' ∧ ValidNames names' := by
  induction comps with
  | nil => intro k names hv _; exact ⟨k, names, rfl, hv⟩
  | cons c comps ih =>
    intro k names hv hc
    obtain ⟨k1, n1, he, hv1⟩ := cleanStep_false_shape k names c hv (hc c (by simp))
    simp only [List.foldl_cons, he]
    exact ih k1 n1 hv1 (fun x hx => hc x (by simp [hx]))

/-- The components of a normalized path: elements that leave the root where it
is (empty, `.`, `..`), then real path elements. -/
theorem Split_of_clean (d : GoString) (hd : Clean d = d) :
    ∃ junk names, Split d = junk ++ names ∧
      (∀ c ∈ junk, c = [] ∨ c = ['.'] ∨ c = ['.', '.']) ∧ ValidNames names := by
  by_cases hr : d.head? = some '/'
  · obtain ⟨cs, hv, rfl⟩ := (isCleanAbs_iff d).1 ⟨hr, hd⟩
    cases cs with
    | nil =>
      exact ⟨[[], []], [], by decide, by intro c hc; left; simpa using hc,
        by intro x hx; cases hx⟩
    | cons a as =>
      refine ⟨[[]], a :: as, ?_, by intro c hc; left; simpa using hc, hv⟩
      unfold absPath
      rw [Split_cons_slash, Split_joinSlash _ (fun c hc => (hv c hc).2.2.2) (by simp)]
      rfl
  · have hne : d ≠ [] := by
      intro e
      subst e
      simp [Clean] at hd
    obtain ⟨k, names, hs, hv⟩ :=
      foldl_cleanStep_false_shape (Split d) 0 [] (by intro x hx; cases hx)
        (Split_noSlash_mem d)
    simp only [List.replicate_zero, List.nil_append] at hs
    have hcl : Clean d =
        if joinSlash ((Split d).foldl (cleanStep false) []) = [] then ['.']
        else joinSlash ((Split d).foldl (cleanStep false) []) := by
      simp [Clean, hne, hr]
    rw [hs] at hcl
    by_cases hb : joinSlash (List.replicate k ['.', '.'] ++ names) = []
    · rw [if_pos hb, hd] at hcl
      subst hcl
      exact ⟨[['.']], [], by decide, by intro c hc; right; left; simpa using hc,
        by intro x hx; cases hx⟩
    · rw [if_neg hb, hd] at hcl
      have hnil : List.replicate k ['.', '.'] ++ names ≠ [] := by
        intro e; rw [e] at hb; exact hb rfl
      have hslash : ∀ c ∈ List.replicate k ['.', '.'] ++ names, '/' ∉ c := by
        intro c hc
        rcases List.mem_append.1 hc with h | h
        · rw [(List.mem_replicate.1 h).2]; decide
        · exact (hv c h).2.2.2
      refine ⟨List.replicate k ['.', '.'], names, ?_, ?_, hv⟩
      · rw [hcl, Split_joinSlash _ hslash hnil]
      · intro c hc
        right; right
        exact (List.mem_replicate.1 hc).2

theorem newDirs_skip_junk (junk : List GoString) (names known : List GoString)
    (hj : ∀ c ∈ junk, c = [] ∨ c = ['.'] ∨ c = ['.', '.']) (hroot : ['/'] ∈ known) :
    newDirs (junk ++ names) ['/'] known = newDirs names ['/'] known := by
  induction junk with
  | nil => rfl
  | cons c junk ih =>
    have hjc : Join ['/'] c = ['/'] := by
      rcases hj c (by simp) with h | h | h <;> subst h <;> decide
    simp only [List.cons_append, newDirs, hjc, hroot, if_true]
    exact ih (fun x hx => hj x (by simp [hx]))

theorem foldl_junk (junk : List GoString)
    (hj : ∀ c ∈ junk, c = [] ∨ c = ['.'] ∨ c = ['.', '.']) :
    junk.foldl (cleanStep true) [] = [] := by
  induction junk with
  | nil => rfl
  | cons c junk ih =>
    have hc : cleanStep true [] c = [] := by
      rcases hj c (by simp) with h | h | h <;> subst h <;> decide
    simp only [List.foldl_cons, hc]
    exact ih (fun x hx => hj x (by simp [hx]))

theorem mem_chainFrom_nil (names : List GoString) (hv : ValidNames names) (x : GoString)
    (hx : x ∈ chainFrom [] names) :
    x = absPath names ∨ x ∈ ancestors (absPath names) := by
  rcases List.eq_nil_or_concat names with hn | ⟨init, c, hn⟩
  · subst hn; cases hx
  · rw [List.concat_eq_append] at hn
    subst hn
    rw [ancestors_absPath _ hv]
    rw [chainFrom_snoc] at hx
    rcases List.mem_append.1 hx with h | h
    · right; simpa using h
    · left; simpa using h

theorem addDirs_out_sub (l : List GoString) :
    ∀ w : WriterHelper, ∃ app, (w.addDirs l).out = w.out ++ app ∧
      ∀ r ∈ app, ∃ x ∈ l, r = Record.header (dirHeader x 0o755) := by
  induction l with
  | nil => intro w; exact ⟨[], by simp [addDirs_nil], by simp⟩
  | cons x l ih =>
    intro w
    obtain ⟨app, he, hm⟩ := ih (w.addDir x 0o755)
    rw [addDirs_cons]
    rcases put_out_cases w.Writer (Record.header (dirHeader x 0o755)) with e | e
    · have e' : (w.addDir x 0o755).out = w.out := e
      refine ⟨app, by rw [he, e'], ?_⟩
      intro r hr
      obtain ⟨y, hy, hry⟩ := hm r hr
      exact ⟨y, List.mem_cons_of_mem _ hy, hry⟩
    · have e' : (w.addDir x 0o755).out = w.out ++ [Record.header (dirHeader x 0o755)] := e
      refine ⟨Record.header (dirHeader x 0o755) :: app, by rw [he, e']; simp, ?_⟩
      intro r hr
      rcases List.mem_cons.1 hr with h | h
      · exact ⟨x, List.mem_cons_self _ _, h⟩
      · obtain ⟨y, hy, hry⟩ := hm r h
        exact ⟨y, List.mem_cons_of_mem _ hy, hry⟩

theorem dotDotLeading_split (l : List GoString) (h : dotDotLeading l = true) :
    ∃ junk rest, l = junk ++ rest ∧
      (∀ c ∈ junk, c = [] ∨ c = ['.'] ∨ c = ['.', '.']) ∧ ['.', '.'] ∉ rest := by
  induction l with
  | nil => exact ⟨[], [], rfl, (by intro c hc; cases hc), by simp⟩
  | cons c cs ih =>
    unfold dotDotLeading at h
    by_cases hj : c = [] ∨ c = ['.'] ∨ c = ['.', '.']
    · rw [if_pos hj] at h
      obtain ⟨junk, rest, he, hjunk, hrest⟩ := ih h
      refine ⟨c :: junk, rest, by rw [he]; rfl, ?_, hrest⟩
      intro x hx
      rcases List.mem_cons.1 hx with e | e
      · rw [e]; exact hj
      · exact hjunk x e
    · rw [if_neg hj] at h
      refine ⟨[], c :: cs, rfl, (by intro x hx; cases hx), ?_⟩
      intro hm
      rcases List.mem_cons.1 hm with e | e
      · exact hj (Or.inr (Or.inr e.symm))
      · exact (of_decide_eq_true h) e

/-- A normalized path has no `..` element after a real one. -/
theorem dotDotLeading_of_clean (d : GoString) (hd : Clean d = d) :
    dotDotLeading (Split d) = true := by
  obtain ⟨junk, names, hs, hj, hv⟩ := Split_of_clean d hd
  rw [hs]
  clear hs
  induction junk with
  | nil =>
    cases names with
    | nil => rfl
    | cons a as =>
      have ha := hv a (List.mem_cons_self _ _)
      have hn : ¬ (a = [] ∨ a = ['.'] ∨ a = ['.', '.']) := by
        rintro (e | e | e)
        · exact ha.1 e
        · exact ha.2.1 e
        · exact ha.2.2.1 e
      simp only [List.nil_append, dotDotLeading, if_neg hn]
      refine decide_eq_true ?_
      intro hm
      exact (hv _ (List.mem_cons_of_mem _ hm)).2.2.1 rfl
  | cons c junk ih =>
    simp only [List.cons_append, dotDotLeading, if_pos (hj c (List.mem_cons_self _ _))]
    exact ih (fun x hx => hj x (List.mem_cons_of_mem _ hx))

theorem chainFrom_sub_cons (acc : List GoString) (c : GoString) (names : List GoString)
    (x : GoString) (hx : x ∈ chainFrom (acc ++ [c]) names) : x ∈ chainFrom acc (c :: names) :=
  List.mem_cons_of_mem _ hx

/-- The loop of `ensureBaseDirectory` over elements none of which is `..`: the
collector only descends, through the real elements. -/
theorem newDirs_descending (rest : List GoString) :
    ∀ acc : List GoString, ValidNames acc → ['.', '.'] ∉ rest → (∀ c ∈ rest, '/' ∉ c) →
      ∃ names, ValidNames names ∧ rest.foldl (cleanStep true) acc = acc ++ names ∧
        ∀ known, absPath acc ∈ known →
          ∀ x ∈ newDirs rest (absPath acc) known, x ∈ chainFrom acc names := by
  induction rest with
  | nil =>
    intro acc _ _ _
    exact ⟨[], (by intro x hx; cases hx), (by simp), (by intro known _ x hx; cases hx)⟩
  | cons c rest ih =>
    intro acc hacc hdd hsl
    have hc : '/' ∉ c := hsl c (List.mem_cons_self _ _)
    have hdd' : ['.', '.'] ∉ rest := fun h => hdd (List.mem_cons_of_mem _ h)
    have hsl' : ∀ x ∈ rest, '/' ∉ x := fun x hx => hsl x (List.mem_cons_of_mem _ hx)
    have hj := Join_absPath acc c hacc hc
    by_cases hreal : c = [] ∨ c = ['.']
    · have hstep : cleanStep true acc c = acc := by
        rcases hreal with e | e <;> subst e <;> simp [cleanStep]
      rw [hstep] at hj
      obtain ⟨names, hv, hf, hn⟩ := ih acc hacc hdd' hsl'
      refine ⟨names, hv, by simp only [List.foldl_cons, hstep, hf], ?_⟩
      intro known hk x hx
      simp only [newDirs, hj, hk, if_true] at hx
      exact hn known hk x hx
    · have hvc : ValidName c :=
        ⟨fun e => hreal (Or.inl e), fun e => hreal (Or.inr e),
          fun e => hdd (e ▸ List.mem_cons_self _ _), hc⟩
      have hstep : cleanStep true acc c = acc ++ [c] := cleanStep_valid acc c hvc
      rw [hstep] at hj
      obtain ⟨names, hv, hf, hn⟩ := ih (acc ++ [c]) (validNames_snoc acc c hacc hvc) hdd' hsl'
      refine ⟨c :: names, ?_, by simp only [List.foldl_cons, hstep, hf]; simp, ?_⟩
      · intro x hx
        rcases List.mem_cons.1 hx with e | e
        · rw [e]; exact hvc
        · exact hv x e
      · intro known _ x hx
        simp only [newDirs, hj] at hx
        by_cases hk : absPath (acc ++ [c]) ∈ known
        · rw [if_pos hk] at hx
          exact chainFrom_sub_cons acc c names x (hn known hk x hx)
        · rw [if_neg hk] at hx
          rcases List.mem_cons.1 hx with e | e
          · rw [e]; exact List.mem_cons_self _ _
          · exact chainFrom_sub_cons acc c names x
              (hn (absPath (acc ++ [c]) :: known) (List.mem_cons_self _ _) x e)

/-- C10, as the code has it.  In every builder state reached from
`NewWriterHelper` (on any sink) and for every path argument in which no `..`
element follows a real path element (so for arguments with `.` elements and
redundant separators, and for every normalized argument, as the `path.Dir`
results are that all call sites pass), `ensureBaseDirectory(directory)`
returns, and every record it appends is a directory header named by the
normalized argument made absolute (`path.Join("/", directory)`) or by one of
its ancestors. -/
theorem ensure_normalized_argument_chain (f : List Bool) (w : WriterHelper)
    (directory : GoString) (hw : Reachable f anyName w)
    (hd : dotDotLeading (Split directory) = true) :
    ∃ w' app, ensureBaseDirectory w directory = some w' ∧ w'.out = w.out ++ app ∧
      ∀ r ∈ app, ∃ name, r = Record.header (dirHeader name 0o755) ∧
        (name = Join ['/'] directory ∨ name ∈ ancestors (Join ['/'] directory)) := by
  have hc := reachable_closed f anyName w hw
  obtain ⟨junk, rest, hs, hj, hrest⟩ := dotDotLeading_split (Split directory) hd
  have hsl : ∀ c ∈ rest, '/' ∉ c := by
    intro c hc'
    exact Split_noSlash_mem directory c (by rw [hs]; exact List.mem_append_right _ hc')
  obtain ⟨names, hv, hfold, hnew⟩ :=
    newDirs_descending rest [] (by intro x hx; cases hx) hrest hsl
  have htarget : Join ['/'] directory = absPath names := by
    rw [Join_root, hs, List.foldl_append, foldl_junk junk hj, hfold]
    rfl
  have hsub : ∀ x ∈ materialized w directory, x ∈ chainFrom [] names := by
    intro x hx
    unfold materialized at hx
    split at hx
    · cases hx
    · rw [hs, newDirs_skip_junk junk rest w.paths hj hc.1] at hx
      exact hnew w.paths hc.1 x hx
  obtain ⟨app, he, hm⟩ := addDirs_out_sub (materialized w directory) w
  refine ⟨_, app, ensureBaseDirectory_closed w directory hc, he, ?_⟩
  intro r hr
  obtain ⟨x, hx, hrx⟩ := hm r hr
  refine ⟨x, hrx, ?_⟩
  rw [htarget]
  exact mem_chainFrom_nil names hv x (hsub x hx)

/-- C10 at the argument `/a/./b//c` on a fresh builder: the directories `/a`,
`/a/b` and `/a/b/c` are written, and nothing else. -/
theorem ensure_normalized_argument_chain_witness :
    dotDotLeading (Split "/a/./b//c".toList) = true ∧
      Reachable [] anyName (NewWriterHelper []) ∧
      Join ['/'] "/a/./b//c".toList = "/a/b/c".toList ∧
      (ensureBaseDirectory (NewWriterHelper []) "/a/./b//c".toList).map WriterHelper.out =
        some [Record.header (dirHeader "/a".toList 0o755),
          Record.header (dirHeader "/a/b".toList 0o755),
          Record.header (dirHeader "/a/b/c".toList 0o755)] ∧
      ∃ w' app, ensureBaseDirectory (NewWriterHelper []) "/a/./b//c".toList = some w' ∧
        w'.out = (NewWriterHelper []).out ++ app ∧
        ∀ r ∈ app, ∃ name, r = Record.header (dirHeader name 0o755) ∧
          (name = Join ['/'] "/a/./b//c".toList ∨
            name ∈ ancestors (Join ['/'] "/a/./b//c".toList)) :=
  ⟨by decide, Reachable.init, by decide, by decide,
    ensure_normalized_argument_chain [] (NewWriterHelper []) "/a/./b//c".toList Reachable.init
      (by decide)⟩

/-! ## The tree walk over supported nodes -/

theorem walker_rejected (filter : Filter) (w : WriterHelper) (q : GoString) (info : NodeInfo)
    (hf : filter q = false) :
    walker filter w q info =
      some (w, if IsDir info.Mode = true then Signal.SkipDir else Signal.ok) := by
  unfold walker
  by_cases hd : IsDir info.Mode = true
  · simp [hf, hd]
  · have hd' : IsDir info.Mode = false := by simpa using hd
    simp [hf, hd']

theorem writeChunks_paths (cs : List Bytes) :
    ∀ w : WriterHelper, (w.writeChunks cs).paths = w.paths := by
  induction cs with
  | nil => intro w; rfl
  | cons c cs ih =>
    intro w
    unfold WriterHelper.writeChunks
    split
    · rfl
    · rw [ih (w.Write c)]; rfl

theorem ioCopyFile_paths (w : WriterHelper) (b : Bytes) : (w.ioCopyFile b).paths = w.paths :=
  writeChunks_paths (fileChunks b) w

theorem walker_accepted (filter : Filter) (w : WriterHelper) (q : GoString) (info : NodeInfo)
    (hc : Closed w) (hr : Reliable w) (hf : filter q = true) (hs : supported info = true) :
    ∃ w1, walker filter w q info = some (w1, Signal.ok) ∧
      entries w1.out =
        entries (w.addDirs (materialized w (Dir q))).out ++ [(nodeType info, q)] ∧
      (IsDir info.Mode = true → q ∈ w1.paths) ∧
      w1.paths = knownAfterNode w.paths (q, info) := by
  have hr0 := (addDirs_reliable (materialized w (Dir q)) w hr).2
  have hm : chainToWrite w.paths (Dir q) = materialized w (Dir q) := rfl
  unfold supported at hs
  unfold walker nodeType
  by_cases hd : IsDir info.Mode = true
  · refine ⟨(w.addDirs (materialized w (Dir q))).addDir q (clearType info.Mode),
      by simp [hf, hd, WriteDirectory_closed w q _ hc], ?_, ?_, ?_⟩
    · rw [(addDir_reliable _ q _ hr0).1, entries_append, entries_header]
      simp [hd, dirHeader]
    · intro _; rw [addDir_paths]; exact List.mem_cons_self _ _
    · rw [addDir_paths, addDirs_paths]
      simp [knownAfterNode, hd, hm]
  · have hd' : IsDir info.Mode = false := by simpa using hd
    simp only [hd', Bool.false_eq_true, if_false] at hs
    by_cases hreg : IsRegular info.Mode = true
    · simp only [hreg, if_true] at hs
      cases ho : info.opened with
      | none => simp [ho] at hs
      | some file =>
        cases hst : file.stat with
        | none => simp [ho, hst] at hs
        | some fi =>
          have hcf : CopyFile w (some file) q = _ := CopyFileTo_closed w (some file) q hc
          simp only [hst] at hcf
          refine ⟨((w.addDirs (materialized w (Dir q))).WriteHeader
              { Typ := EntryType.TYPE_REG, Name := q, Mode := clearType fi.Mode,
                Size := fi.Size, Devmajor := 0, Devminor := 0 }).ioCopyFile file.content,
            by simp [hf, hd', hreg, ho, hcf], ?_, ?_, ?_⟩
          · rw [ioCopyFile_entries, (WriteHeader_reliable _ _ hr0).1, entries_append,
              entries_header]
            simp [hd', hreg]
          · intro h; rw [hd'] at h; cases h
          · rw [ioCopyFile_paths, WriteHeader_paths, addDirs_paths]
            simp [knownAfterNode, hd', hm]
    · have hreg' : IsRegular info.Mode = false := by simpa using hreg
      simp only [hreg', Bool.false_eq_true, if_false, decide_eq_true_eq] at hs
      refine ⟨((w.addDirs (materialized w (Dir q))).WriteHeader
          { Typ := EntryType.TYPE_SYMLINK, Name := q, Mode := clearType info.Mode,
            Size := (toBytes info.link).length, Devmajor := 0, Devminor := 0 }).Write
              (toBytes info.link),
        by simp [hf, hd', hreg', hs, WriteSymlink_closed w _ q _ hc], ?_, ?_, ?_⟩
      · rw [Write_entries, (WriteHeader_reliable _ _ hr0).1, entries_append, entries_header]
        simp [hd', hreg']
      · intro h; rw [hd'] at h; cases h
      · rw [Write_paths, WriteHeader_paths, addDirs_paths]
        simp [knownAfterNode, hd', hm]

theorem visitedEntries_append (a b : List (GoString × NodeInfo)) :
    visitedEntries (a ++ b) = visitedEntries a ++ visitedEntries b := by
  simp [visitedEntries]

theorem walked_walkNode (descend : WriterHelper → Option (WriterHelper × Bool))
    (beneath : List (GoString × NodeInfo)) (filter : Filter) (q : GoString)
    (info : NodeInfo) (w : WriterHelper) (hc : Closed w) (hr : Reliable w)
    (hdesc : (∀ x ∈ beneath, supported x.2 = true) →
      ∀ w1, Closed w1 → Reliable w1 → q ∈ w1.paths →
        ∃ w2, Walked w1 (descend w1) w2 (visitedEntries beneath))
    (hs : ∀ x ∈ visitNode beneath filter q info, supported x.2 = true) :
    ∃ w', walkNode descend filter q info w = some (w', false) ∧
      (filter q = false → w' = w) ∧
      (filter q = true →
        entries w'.out = entries (w.addDirs (materialized w (Dir q))).out ++
          visitedEntries (visitNode beneath filter q info)) ∧
      Closed w' ∧ Reliable w' ∧ w.paths ⊆ w'.paths := by
  by_cases hf : filter q = true
  · have hsi : supported info = true := hs (q, info) (by simp [visitNode, hf])
    obtain ⟨w1, hwk, hent, hq, _⟩ := walker_accepted filter w q info hc hr hf hsi
    obtain ⟨hp, _⟩ := prims_walker filter w q info (w1, Signal.ok) hc hwk
    have hc1 := prims_closed w w1 _ hc hp
    have hr1 := prims_reliable w w1 _ hr hp
    have hsub1 := prims_paths_subset w w1 _ hp
    by_cases hd : IsDir info.Mode = true
    · have hb : ∀ x ∈ beneath, supported x.2 = true :=
        fun x hx => hs x (by simp [visitNode, hf, hd, hx])
      obtain ⟨w2, hw2, he2, hc2, hr2, hsub2⟩ := hdesc hb w1 hc1 hr1 (hq hd)
      refine ⟨w2, ?_, ?_, ?_, hc2, hr2, ?_⟩
      · simp [walkNode, hwk, hd, hw2]
      · intro h; rw [hf] at h; cases h
      · intro _
        rw [he2, hent]
        simp [visitNode, hf, hd, visitedEntries]
      · exact fun a ha => hsub2 (hsub1 ha)
    · have hd' : IsDir info.Mode = false := by simpa using hd
      refine ⟨w1, ?_, ?_, ?_, hc1, hr1, hsub1⟩
      · simp [walkNode, hwk, hd']
      · intro h; rw [hf] at h; cases h
      · intro _
        rw [hent]
        simp [visitNode, hf, hd', visitedEntries]
  · have hf' : filter q = false := by simpa using hf
    refine ⟨w, ?_, fun _ => rfl, fun h => absurd h hf, hc, hr, fun a ha => ha⟩
    unfold walkNode
    rw [walker_rejected filter w q info hf']
    by_cases hd : IsDir info.Mode = true
    · simp [hd]
    · have hd' : IsDir info.Mode = false := by simpa using hd
      simp [hd']

theorem materialized_child (w : WriterHelper) (cs : List GoString) (name : GoString)
    (hv : ValidNames cs) (hn : ValidName name) (hk : absPath cs ∈ w.paths) :
    Join (absPath cs) name = absPath (cs ++ [name]) ∧
      materialized w (Dir (Join (absPath cs) name)) = [] := by
  have hj : Join (absPath cs) name = absPath (cs ++ [name]) := by
    rw [Join_absPath cs name hv hn.2.2.2, cleanStep_valid cs name hn]
  refine ⟨hj, ?_⟩
  rw [hj, Dir_absPath_snoc cs name hv hn.2.2.2]
  unfold materialized
  rw [Clean_absPath cs hv, if_pos hk]

theorem walked_walkForest (filter : Filter) (t : Forest) :
    ∀ (cs : List GoString) (w : WriterHelper), ValidNames cs → Closed w → Reliable w →
      absPath cs ∈ w.paths → validForest t = true →
      (∀ x ∈ visitForest filter t (absPath cs), supported x.2 = true) →
      ∃ w', Walked w (walkForest filter t (absPath cs) w) w'
        (visitedEntries (visitForest filter t (absPath cs))) := by
  induction t with
  | nil =>
    intro cs w _ hc hr _ _ _
    exact ⟨w, rfl, by simp [visitForest, visitedEntries], hc, hr, fun a ha => ha⟩
  | cons name info kids rest ihk ihr =>
    intro cs w hv hc hr hk hvt hs
    simp only [validForest, Bool.and_eq_true, decide_eq_true_eq] at hvt
    obtain ⟨⟨hn, hvk⟩, hvr⟩ := hvt
    obtain ⟨hj, hm⟩ := materialized_child w cs name hv hn hk
    have hvs := validNames_snoc cs name hv hn
    simp only [visitForest] at hs ⊢
    obtain ⟨w1, hw1, hrej, hacc, hc1, hr1, hsub1⟩ :=
      walked_walkNode (walkForest filter kids (Join (absPath cs) name))
        (visitForest filter kids (Join (absPath cs) name)) filter (Join (absPath cs) name)
        info w hc hr
        (fun hb w2 hc2 hr2 hq => by
          rw [hj] at hb hq ⊢
          exact ihk (cs ++ [name]) w2 hvs hc2 hr2 hq hvk hb)
        (fun x hx => hs x (List.mem_append_left _ hx))
    obtain ⟨w2, hw2, he2, hc2, hr2, hsub2⟩ :=
      ihr cs w1 hv hc1 hr1 (hsub1 hk) hvr (fun x hx => hs x (List.mem_append_right _ hx))
    refine ⟨w2, ?_, ?_, hc2, hr2, fun a ha => hsub2 (hsub1 ha)⟩
    · simp only [walkForest, hw1]
      exact hw2
    · rw [he2, visitedEntries_append]
      by_cases hf : filter (Join (absPath cs) name) = true
      · rw [hacc hf, hm, addDirs_nil]
        simp
      · have hf' : filter (Join (absPath cs) name) = false := by simpa using hf
        rw [hrej hf']
        simp [visitNode, hf', visitedEntries]

theorem entries_addDirs_reliable (w : WriterHelper) (l : List GoString) (hr : Reliable w) :
    entries (w.addDirs l).out = entries w.out ++ l.map fun x => (EntryType.TYPE_DIR, x) := by
  rw [(addDirs_reliable l w hr).1, entries_append, entries_dirHeaders]

theorem knownAfter_append (a : List (GoString × NodeInfo)) :
    ∀ (known : List GoString) (b : List (GoString × NodeInfo)),
      knownAfter known (a ++ b) = knownAfter (knownAfter known a) b := by
  induction a with
  | nil => intro known b; rfl
  | cons x a ih => intro known b; exact ih (knownAfterNode known x) b

theorem walkTrace_append (a : List (GoString × NodeInfo)) :
    ∀ (known : List GoString) (b : List (GoString × NodeInfo)),
      walkTrace known (a ++ b) = walkTrace known a ++ walkTrace (knownAfter known a) b := by
  induction a with
  | nil => intro known b; rfl
  | cons x a ih =>
    intro known b
    show (chainToWrite known (Dir x.1)).map (fun d => (EntryType.TYPE_DIR, d)) ++
        (nodeType x.2, x.1) :: walkTrace (knownAfterNode known x) (a ++ b) =
      ((chainToWrite known (Dir x.1)).map (fun d => (EntryType.TYPE_DIR, d)) ++
        (nodeType x.2, x.1) :: walkTrace (knownAfterNode known x) a) ++
        walkTrace (knownAfter (knownAfterNode known x) a) b
    rw [ih (knownAfterNode known x) b]
    simp

theorem walkedExact_walkNode (descend : WriterHelper → Option (WriterHelper × Bool))
    (beneath : List (GoString × NodeInfo)) (filter : Filter) (q : GoString)
    (info : NodeInfo) (w : WriterHelper) (hc : Closed w) (hr : Reliable w)
    (hdesc : (∀ x ∈ beneath, supported x.2 = true) →
      ∀ w1, Closed w1 → Reliable w1 → ∃ w2, WalkedExact w1 (descend w1) w2 beneath)
    (hs : ∀ x ∈ visitNode beneath filter q info, supported x.2 = true) :
    ∃ w', WalkedExact w (walkNode descend filter q info w) w'
      (visitNode beneath filter q info) := by
  by_cases hf : filter q = true
  · have hsi : supported info = true := hs (q, info) (by simp [visitNode, hf])
    obtain ⟨w1, hwk, hent, _, hpaths⟩ := walker_accepted filter w q info hc hr hf hsi
    obtain ⟨hp, _⟩ := prims_walker filter w q info (w1, Signal.ok) hc hwk
    have hc1 := prims_closed w w1 _ hc hp
    have hr1 := prims_reliable w w1 _ hr hp
    rw [entries_addDirs_reliable w _ hr, List.append_assoc] at hent
    have hm : materialized w (Dir q) = chainToWrite w.paths (Dir q) := rfl
    rw [hm] at hent
    by_cases hd : IsDir info.Mode = true
    · have hb : ∀ x ∈ beneath, supported x.2 = true :=
        fun x hx => hs x (by simp [visitNode, hf, hd, hx])
      obtain ⟨w2, hw2, he2, hp2, hc2, hr2⟩ := hdesc hb w1 hc1 hr1
      refine ⟨w2, ?_, ?_, ?_, hc2, hr2⟩
      · simp [walkNode, hwk, hd, hw2]
      · rw [he2, hent, hpaths]
        simp [visitNode, hf, hd, walkTrace]
      · rw [hp2, hpaths]
        simp [visitNode, hf, hd, knownAfter]
    · have hd' : IsDir info.Mode = false := by simpa using hd
      refine ⟨w1, ?_, ?_, ?_, hc1, hr1⟩
      · simp [walkNode, hwk, hd']
      · rw [hent]
        simp [visitNode, hf, hd', walkTrace]
      · rw [hpaths]
        simp [visitNode, hf, hd', knownAfter]
  · have hf' : filter q = false := by simpa using hf
    refine ⟨w, ?_, by simp [visitNode, hf', walkTrace], by simp [visitNode, hf', knownAfter],
      hc, hr⟩
    unfold walkNode
    rw [walker_rejected filter w q info hf']
    by_cases hd : IsDir info.Mode = true
    · simp [hd]
    · have hd' : IsDir info.Mode = false := by simpa using hd
      simp [hd']

theorem walkedExact_walkForest (filter : Filter) (t : Forest) :
    ∀ (path : GoString) (w : WriterHelper), Closed w → Reliable w →
      (∀ x ∈ visitForest filter t path, supported x.2 = true) →
      ∃ w', WalkedExact w (walkForest filter t path w) w' (visitForest filter t path) := by
  induction t with
  | nil =>
    intro path w hc hr _
    exact ⟨w, rfl, by simp [visitForest, walkTrace], by simp [visitForest, knownAfter], hc, hr⟩
  | cons name info kids rest ihk ihr =>
    intro path w hc hr hs
    simp only [visitForest] at hs ⊢
    obtain ⟨w1, hw1, he1, hp1, hc1, hr1⟩ :=
      walkedExact_walkNode (walkForest filter kids (Join path name))
        (visitForest filter kids (Join path name)) filter (Join path name) info w hc hr
        (fun hb w2 hc2 hr2 => ihk (Join path name) w2 hc2 hr2 hb)
        (fun x hx => hs x (List.mem_append_left _ hx))
    obtain ⟨w2, hw2, he2, hp2, hc2, hr2⟩ :=
      ihr path w1 hc1 hr1 (fun x hx => hs x (List.mem_append_right _ hx))
    refine ⟨w2, ?_, ?_, ?_, hc2, hr2⟩
    · simp only [walkForest, hw1]
      exact hw2
    · rw [he2, he1, hp1, walkTrace_append, List.append_assoc]
    · rw [hp2, hp1, knownAfter_append]

theorem visitNode_accepted (beneath : List (GoString × NodeInfo)) (filter : Filter)
    (q : GoString) (info : NodeInfo) (hb : ∀ x ∈ beneath, filter x.1 = true) :
    ∀ x ∈ visitNode beneath filter q info, filter x.1 = true := by
  intro x hx
  unfold visitNode at hx
  by_cases hf : filter q = true
  · rw [if_pos hf] at hx
    rcases List.mem_cons.1 hx with e | e
    · rw [e]; exact hf
    · by_cases hd : IsDir info.Mode = true
      · rw [if_pos hd] at e; exact hb x e
      · rw [if_neg hd] at e; cases e
  · rw [if_neg hf] at hx; cases hx

theorem visitForest_accepted (filter : Filter) (t : Forest) :
    ∀ (path : GoString), ∀ x ∈ visitForest filter t path, filter x.1 = true := by
  induction t with
  | nil => intro path x hx; cases hx
  | cons name info kids rest ihk ihr =>
    intro path x hx
    simp only [visitForest] at hx
    rcases List.mem_append.1 hx with h | h
    · exact visitNode_accepted _ filter _ info (ihk _) x h
    · exact ihr path x h

/-- C6, as the code has it.  From a builder state reached from `NewWriterHelper`
on a sink that rejects no write, for a tree whose visited nodes (the accepted
nodes all of whose ancestors in the tree are accepted) are directories,
regular files that open, or symbolic links, `CopyTreeWithFilter` returns
without a panic, and the headers it appends are exactly, for each visited node
in walk order, the headers of the parent directories of its path that are not
known yet, followed by the header of the node itself; it writes nothing when
the filter rejects the root.  When the tree is at a normalized absolute path
and its names are real path elements, the appended headers are exactly the
parent chain of the root followed by the headers of the visited nodes.  Every
visited node is accepted by the filter, so a rejected node and the nodes
beneath a rejected directory get no header of their own. -/
theorem copyTree_writes_visited (f : List Bool) (w : WriterHelper) (path : GoString)
    (filter : Filter) (root : NodeInfo) (kids : Forest)
    (hf : ∀ b ∈ f, b = false) (hw : Reachable f anyName w)
    (hs : ∀ x ∈ visited path filter root kids, supported x.2 = true) :
    ∃ w', CopyTreeWithFilter w path filter root kids = some (w', false) ∧
      entries w'.out = entries w.out ++ walkTrace w.paths (visited path filter root kids) ∧
      (filter path = false → w' = w) ∧
      (IsCleanAbs path → validForest kids = true → filter path = true →
        ∃ w0, ensureBaseDirectory w (Dir path) = some w0 ∧
          entries w'.out =
            entries w0.out ++ visitedEntries (visited path filter root kids)) ∧
      (∀ x ∈ visited path filter root kids, filter x.1 = true) := by
  have hc := reachable_closed f anyName w hw
  have hr := reachable_reliable f anyName w hf hw
  obtain ⟨w', h1, h2, _, _, _⟩ :=
    walkedExact_walkNode (walkForest filter kids path) (visitForest filter kids path) filter
      path root w hc hr
      (fun hb w1 hc1 hr1 => walkedExact_walkForest filter kids path w1 hc1 hr1 hb) hs
  refine ⟨w', h1, h2, ?_, ?_, ?_⟩
  · intro hrej
    have hwk := walker_rejected filter w path root hrej
    have h1' : walkNode (walkForest filter kids path) filter path root w = some (w', false) := h1
    unfold walkNode at h1'
    rw [hwk] at h1'
    by_cases hd : IsDir root.Mode = true
    · simp only [hd, if_true, Option.some.injEq, Prod.mk.injEq] at h1'
      exact h1'.1.symm
    · have hd' : IsDir root.Mode = false := by simpa using hd
      simp only [hd', Bool.false_eq_true, if_false, Option.some.injEq, Prod.mk.injEq,
        and_true] at h1'
      exact h1'.symm
  · intro hp hv hacc
    obtain ⟨cs, hvc, rfl⟩ := (isCleanAbs_iff path).1 hp
    obtain ⟨w'', h1'', _, h3, _, _, _⟩ :=
      walked_walkNode (walkForest filter kids (absPath cs))
        (visitForest filter kids (absPath cs)) filter (absPath cs) root w hc hr
        (fun hb w1 hc1 hr1 hq => walked_walkForest filter kids cs w1 hvc hc1 hr1 hq hv hb) hs
    have he : w'' = w' := by
      have h1' : walkNode (walkForest filter kids (absPath cs)) filter (absPath cs) root w =
          some (w', false) := h1
      rw [h1''] at h1'
      exact (Prod.mk.inj (Option.some.inj h1')).1
    rw [← he]
    exact ⟨_, ensureBaseDirectory_closed w _ hc, h3 hacc⟩
  · exact visitNode_accepted _ filter _ root (visitForest_accepted filter kids _)

/-- C6 on the tree `/x/{y,z}` with `/x/y` a directory holding a file, on a
fresh builder: under the filter `Exclude("/x/y")` the output has the entries of
`/x` and `/x/z` and nothing else; under `Exclude("/x")` nothing is written. -/
theorem copyTree_writes_visited_witness :
    (∃ w', CopyTreeWithFilter (NewWriterHelper []) "/x".toList (Exclude "/x/y".toList)
        { Mode := ModeDir ||| 0o755, opened := none, link := [] }
        (Forest.cons "y".toList { Mode := ModeDir ||| 0o755, opened := none, link := [] }
          (Forest.cons "q".toList
            { Mode := 0o644,
              opened := some { stat := some { Mode := 0o644, Size := 1 }, content := [113] },
              link := [] }
            Forest.nil Forest.nil)
          (Forest.cons "z".toList
            { Mode := 0o644,
              opened := some { stat := some { Mode := 0o644, Size := 1 }, content := [122] },
              link := [] }
            Forest.nil Forest.nil)) = some (w', false) ∧
      entries w'.out =
        [(EntryType.TYPE_DIR, "/x".toList), (EntryType.TYPE_REG, "/x/z".toList)]) ∧
    CopyTreeWithFilter (NewWriterHelper []) "/x".toList (Exclude "/x".toList)
        { Mode := ModeDir ||| 0o755, opened := none, link := [] }
        (Forest.cons "y".toList { Mode := ModeDir ||| 0o755, opened := none, link := [] }
          (Forest.cons "q".toList
            { Mode := 0o644,
              opened := some { stat := some { Mode := 0o644, Size := 1 }, content := [113] },
              link := [] }
            Forest.nil Forest.nil)
          (Forest.cons "z".toList
            { Mode := 0o644,
              opened := some { stat := some { Mode := 0o644, Size := 1 }, content := [122] },
              link := [] }
            Forest.nil Forest.nil)) = some (NewWriterHelper [], false) := by
  obtain ⟨w', h1, h2, _, h3, _⟩ :=
    copyTree_writes_visited [] (NewWriterHelper []) "/x".toList (Exclude "/x/y".toList)
      { Mode := ModeDir ||| 0o755, opened := none, link := [] }
      (Forest.cons "y".toList { Mode := ModeDir ||| 0o755, opened := none, link := [] }
        (Forest.cons "q".toList
          { Mode := 0o644,
            opened := some { stat := some { Mode := 0o644, Size := 1 }, content := [113] },
            link := [] }
          Forest.nil Forest.nil)
        (Forest.cons "z".toList
          { Mode := 0o644,
            opened := some { stat := some { Mode := 0o644, Size := 1 }, content := [122] },
            link := [] }
          Forest.nil Forest.nil))
      (by simp) Reachable.init (by decide)
  obtain ⟨v', g1, _, g2, _, _⟩ :=
    copyTree_writes_visited [] (NewWriterHelper []) "/x".toList (Exclude "/x".toList)
      { Mode := ModeDir ||| 0o755, opened := none, link := [] }
      (Forest.cons "y".toList { Mode := ModeDir ||| 0o755, opened := none, link := [] }
        (Forest.cons "q".toList
          { Mode := 0o644,
            opened := some { stat := some { Mode := 0o644, Size := 1 }, content := [113] },
            link := [] }
          Forest.nil Forest.nil)
        (Forest.cons "z".toList
          { Mode := 0o644,
            opened := some { stat := some { Mode := 0o644, Size := 1 }, content := [122] },
            link := [] }
          Forest.nil Forest.nil))
      (by simp) Reachable.init (by decide)
  have g3 : v' = NewWriterHelper [] := g2 (by decide)
  rw [g3] at g1
  obtain ⟨w0, h4, h5⟩ := h3 (by decide) (by decide) (by decide)
  have h6 : ensureBaseDirectory (NewWriterHelper []) (Dir "/x".toList) =
      some (NewWriterHelper []) := by decide
  rw [h6] at h4
  cases h4
  refine ⟨⟨w', h1, ?_⟩, g1⟩
  rw [h5]
  decide

/-- C6 as stated fails on a tree with a node the walker has no entry for: a
copy of `/x/{a,z}` with `a` a character device and `z` a regular file, under
the filter `All`, panics at `/x/a`, and the accepted file `/x/z` gets no
entry. -/
theorem copyTree_unsupported_node_panics :
    (CopyTree (NewWriterHelper []) "/x".toList
        { Mode := ModeDir ||| 0o755, opened := none, link := [] }
        (Forest.cons "a".toList
          { Mode := ModeDevice ||| ModeCharDevice ||| 0o600, opened := none, link := [] }
          Forest.nil
          (Forest.cons "z".toList
            { Mode := 0o644,
              opened := some { stat := some { Mode := 0o644, Size := 1 }, content := [122] },
              link := [] }
            Forest.nil Forest.nil))).map (fun r => (entries r.1.out, r.2)) =
      some ([(EntryType.TYPE_DIR, "/x".toList)], true) := by
  decide

end Cpio
